import Mathlib

/-!
# Verification of the `fastmatch` code generator

A shallow embedding, in Lean 4, of the core of the `golang-fastmatch`
repository: the rune-equivalence computation (`runes.go`), flag handling
(`flags.go`), key mangling and code emission (`Generate`), the per-length
state machine with chaining (`state.go`, newest snapshot), and the
ambiguity analysis (`checkAmbiguity` and friends).

Modelling conventions, used throughout:

* Go `rune` is modelled as `Nat` (all runes handled by the code are
  non-negative code points; keys are indexed by bytes, `0..255`).
* Go `string` is modelled as `List Nat`, its list of bytes.  Iterating a
  string `for _, r := range s` decodes UTF-8; this is modelled by
  `utf8Decode`.  `string(rs)` for a rune slice is `utf8Encode`.
* Go maps are modelled as association lists (`List (k × v)`) whose
  iteration order is insertion order.  Go's map iteration order is
  unspecified; the embedding fixes one legal order (insertion order), so
  every concrete run of the model is one possible run of the Go code.
* Go slices are Lean lists.
* `uint64` arithmetic wraps modulo `2^64` where the Go code can wrap
  (`sub64` below mirrors Go's wrapping subtraction in the overflow test).
* A Go `panic` is modelled as the `.error` branch of `Except GoPanic _`.
-/

set_option linter.unusedVariables false

namespace Fastmatch

/-- A Go rune (code point), `runes.go`. -/
abbrev Rune := Nat

/-- A Go string, as its list of bytes. -/
abbrev GoStr := List Nat

/-! ## Association-list helpers (the model of Go maps)

Iteration order of a Go map is unspecified; the embedding uses insertion
order, which is one legal order.  `alGet` is map lookup, `alMem` the
`_, ok :=` form, `alSet` insert-or-update (update keeps the entry's
position, insert appends), `alErase` is `delete`. -/

/-- Look a key up in an association list (Go map read, `nil` if absent). -/
def alGet? {K V : Type} [DecidableEq K] (l : List (K × V)) (k : K) : Option V :=
  match l with
  | [] => none
  | (k', v) :: rest => if k' = k then some v else alGet? rest k

/-- Map read with a default (Go map reads return the zero value when the
key is absent). -/
def alGetD {K V : Type} [DecidableEq K] (l : List (K × V)) (k : K) (d : V) : V :=
  (alGet? l k).getD d

/-- Key membership in an association list. -/
def alMem {K V : Type} [DecidableEq K] (l : List (K × V)) (k : K) : Bool :=
  (alGet? l k).isSome

/-- Go map assignment `m[k] = v`: update in place, or append a new entry. -/
def alSet {K V : Type} [DecidableEq K] (l : List (K × V)) (k : K) (v : V) : List (K × V) :=
  match l with
  | [] => [(k, v)]
  | (k', v') :: rest => if k' = k then (k, v) :: rest else (k', v') :: alSet rest k v

/-- Go `delete(m, k)`. -/
def alErase {K V : Type} [DecidableEq K] (l : List (K × V)) (k : K) : List (K × V) :=
  match l with
  | [] => []
  | (k', v') :: rest => if k' = k then rest else (k', v') :: alErase rest k

/-- The keys of an association list, in iteration (insertion) order. -/
def alKeys {K V : Type} (l : List (K × V)) : List K := l.map Prod.fst

/-- Add an element to a list modelling a Go set (`map[rune]bool`): append
if not already present. -/
def setAdd {A : Type} [DecidableEq A] (l : List A) (x : A) : List A :=
  if x ∈ l then l else l ++ [x]

/-- Fold `setAdd` over a list of new elements. -/
def setAddAll {A : Type} [DecidableEq A] (l : List A) (xs : List A) : List A :=
  xs.foldl setAdd l

/-! ## Sorting

`sort.Sort` on a slice of runes (`sortableRunes`, `runes.go`) produces the
nondecreasing reordering; on lists without duplicate values the result is
the unique strictly sorted list, so insertion sort is an exact model. -/

/-- Insert into a sorted list (ascending). -/
def sortedInsert (x : Nat) : List Nat → List Nat
  | [] => [x]
  | y :: ys => if x ≤ y then x :: y :: ys else y :: sortedInsert x ys

/-- `sort.Sort(sortableRunes(rs))`: sort ascending. -/
def sortRunes (rs : List Nat) : List Nat :=
  rs.foldr sortedInsert []

end Fastmatch

namespace Fastmatch

/-! ## Flags (`flags.go`, newest snapshot)

Go's simple flags (`Insensitive`, `Normalize`, `HasPrefix`, `HasSuffix`)
are sentinel pointers compared by address; the parametric flags carry a
rune slice.  Following the spec's design note (§9) they are re-expressed
as a tagged variant with structural equality.  `hasPfx` stands for the
source's `HasPrefix`. -/

inductive Flag : Type where
  | insensitive : Flag
  | normalize : Flag
  | hasPfx : Flag
  | hasSuffix : Flag
  | equivalent (rs : List Rune) : Flag
  | stopUpon (rs : List Rune) : Flag
  | ignore (rs : List Rune) : Flag
  | ignoreExcept (rs : List Rune) : Flag
deriving DecidableEq

/-- The `equivalent` field of a `Flag` (empty for the sentinel flags). -/
def Flag.equivRunes : Flag → List Rune
  | .equivalent rs => rs
  | _ => []

/-- The `stop` field of a `Flag`. -/
def Flag.stopRunes : Flag → List Rune
  | .stopUpon rs => rs
  | _ => []

/-- The `ignore` field of a `Flag`. -/
def Flag.ignoreRunes : Flag → List Rune
  | .ignore rs => rs
  | _ => []

/-- The `ignoreExcept` field of a `Flag`. -/
def Flag.ignoreExceptRunes : Flag → List Rune
  | .ignoreExcept rs => rs
  | _ => []

/-! ## Rune equivalence (`runes.go`)

`dedupedRuneEquivalents` is `map[rune]map[rune]bool`; the inner sets are
modelled as duplicate-free lists in insertion order. -/

/-- `dedupedRuneEquivalents`. -/
abbrev DedupedEquiv := List (Rune × List Rune)

/-- `runeEquivalents`: rune → sorted slice of equivalents. -/
abbrev RuneEquivs := List (Rune × List Rune)

/-- `dedupedRuneEquivalents.set` (`runes.go:53`): ensure an entry for `r`
exists (seeded with `r` itself), then add every rune of `rs` to it. -/
def dedupSet (equiv : DedupedEquiv) (r : Rune) (rs : List Rune) : DedupedEquiv :=
  let e := if alMem equiv r then equiv else equiv ++ [(r, [r])]
  alSet e r (setAddAll (alGetD e r []) rs)

/-- One probe of the `populateTransience` loop (`runes.go:72`): the first
member of `equiv[r1]` not yet marked `seen`. -/
def firstUnseen (members seen : List Rune) : Option Rune :=
  members.find? (fun r => !(seen.contains r))

/-- The `populateTransience` loop of `collapse` (`runes.go:72-85`): while
some member `r2` of `equiv[r1]` is unseen, union `equiv[r2]` into
`equiv[r1]` and mark `r2` seen.  Each pass marks a fresh rune of the
map's rune universe, so the fixpoint is reached within `|universe|`
passes; the fuel argument carries that bound (`saturateAux_fix` below
proves it suffices, so this equals Go's unbounded loop). -/
def saturateAux : Nat → DedupedEquiv → Rune → List Rune → DedupedEquiv
  | 0, equiv, _, _ => equiv
  | fuel+1, equiv, r1, seen =>
    match firstUnseen (alGetD equiv r1 []) seen with
    | none => equiv
    | some r2 =>
      saturateAux fuel
        (alSet equiv r1 (setAddAll (alGetD equiv r1 []) (alGetD equiv r2 [])))
        r1 (seen ++ [r2])

/-- Every rune occurring in the map, as key or as member. -/
def runeUniverse (equiv : DedupedEquiv) : List Rune :=
  (equiv.foldr (fun p acc => p.1 :: p.2 ++ acc) []).dedup

/-- Saturate the entry of `r1` (one iteration of `collapse`'s outer loop). -/
def saturate (equiv : DedupedEquiv) (r1 : Rune) : DedupedEquiv :=
  saturateAux (runeUniverse equiv).length equiv r1 []

/-- The outer loop of `collapse` (`runes.go:64-95`): saturate each key's
entry in turn (the shared map is threaded, as in Go, so later entries see
earlier saturations), then emit the sorted entry. -/
def collapseAux : List Rune → DedupedEquiv → RuneEquivs
  | [], _ => []
  | r1 :: rest, equiv =>
    let e' := saturate equiv r1
    (r1, sortRunes (alGetD e' r1 [])) :: collapseAux rest e'

/-- `dedupedRuneEquivalents.collapse`. -/
def DedupedEquiv.collapse (equiv : DedupedEquiv) : RuneEquivs :=
  collapseAux (alKeys equiv) equiv

/-- The `Insensitive` seeding loop of `makeEquivalents` (`runes.go:103-107`):
26 reflexive case pairs. -/
def insensitivePairs (equiv : DedupedEquiv) : DedupedEquiv :=
  (List.range 26).foldl
    (fun e i => dedupSet (dedupSet e (97 + i) [65 + i]) (65 + i) [97 + i]) equiv

/-- One iteration of `makeEquivalents`' flag loop (`runes.go:101-115`). -/
def applyEquivFlag (e : DedupedEquiv) (f : Flag) : DedupedEquiv :=
  if f = Flag.insensitive then insensitivePairs e
  else if f = Flag.normalize then e
  else if 0 < (Flag.equivRunes f).length then
    (Flag.equivRunes f).foldl (fun e2 r => dedupSet e2 r (Flag.equivRunes f)) e
  else e

/-- `makeEquivalents` (`runes.go:98-118`). -/
def makeEquivalents (flags : List Flag) : RuneEquivs :=
  (flags.foldl applyEquivFlag []).collapse

/-- `runeEquivalents.lookup` (`runes.go:122-127`). -/
def lookupR (equiv : RuneEquivs) (r : Rune) : List Rune :=
  match alGet? equiv r with
  | some rs => rs
  | none => [r]

/-- `runeEquivalents.isEquiv` (`runes.go:173-180`). -/
def isEquivR (equiv : RuneEquivs) (r1 r2 : Rune) : Bool :=
  (lookupR equiv r1).contains r2

/-- `runeEquivalents.expand` (`runes.go:135-158`): union of the lookups of
the non-excluded members of `rs`, sorted and de-duplicated. -/
def expandR (equiv : RuneEquivs) (rs : List Rune) (exclude : List (List Rune)) : List Rune :=
  let rm := rs.foldl (fun acc r1 =>
    if exclude.any (fun ex => ex.any (fun r2 => isEquivR equiv r1 r2)) then acc
    else setAddAll acc (lookupR equiv r1)) []
  sortRunes rm

/-- The seen-marking scan inside `uniqueAtOffset` (`runes.go:191-196`):
mark the equivalents of a candidate rune seen, bailing (with the marks
made so far kept) as soon as one was already seen. -/
def markSeen : List Rune → List Rune → Bool × List Rune
  | [], seen => (false, seen)
  | r2 :: rest, seen =>
    if r2 ∈ seen then (true, seen) else markSeen rest (seen ++ [r2])

/-- `runeEquivalents.uniqueAtOffset` (`runes.go:184-203`): the sorted list
of runes appearing at byte `offset` of some key, one representative per
equivalence class (first key wins). -/
def uniqueAtOffset (equiv : RuneEquivs) (keys : List GoStr) (offset : Nat) : List Rune :=
  let acc := keys.foldl (fun (acc : List Rune × List Rune) key =>
    if offset < key.length then
      match markSeen (lookupR equiv (key.getD offset 0)) acc.2 with
      | (true, seen') => (acc.1, seen')
      | (false, seen') => (acc.1 ++ [key.getD offset 0], seen')
    else acc) ([], [])
  sortRunes acc.1

end Fastmatch

namespace Fastmatch

/-! ## Basic lemmas about the map and sorting models -/

theorem alGet?_alSet_self {K V : Type} [DecidableEq K] (l : List (K × V)) (k : K) (v : V) :
    alGet? (alSet l k v) k = some v := by
  induction l with
  | nil => simp [alSet, alGet?]
  | cons p rest ih =>
    obtain ⟨k', v'⟩ := p
    by_cases h : k' = k <;> simp [alSet, alGet?, h, ih]

theorem alGet?_alSet_ne {K V : Type} [DecidableEq K] (l : List (K × V)) (k k' : K) (v : V)
    (h : k ≠ k') :
    alGet? (alSet l k v) k' = alGet? l k' := by
  induction l with
  | nil => simp [alSet, alGet?, h]
  | cons p rest ih =>
    obtain ⟨k0, v0⟩ := p
    by_cases h0 : k0 = k
    · subst h0
      simp [alSet, alGet?, h]
    · simp [alSet, alGet?, h0, ih]

theorem mem_setAdd {A : Type} [DecidableEq A] (l : List A) (x y : A) :
    y ∈ setAdd l x ↔ y ∈ l ∨ y = x := by
  by_cases h : x ∈ l
  · simp only [setAdd, if_pos h]
    constructor
    · exact Or.inl
    · rintro (hy | rfl) <;> assumption
  · simp [setAdd, h]

theorem setAddAll_cons {A : Type} [DecidableEq A] (l : List A) (x : A) (rest : List A) :
    setAddAll l (x :: rest) = setAddAll (setAdd l x) rest := rfl

theorem mem_setAddAll {A : Type} [DecidableEq A] (l xs : List A) (y : A) :
    y ∈ setAddAll l xs ↔ y ∈ l ∨ y ∈ xs := by
  induction xs generalizing l with
  | nil => simp [setAddAll]
  | cons x rest ih =>
    rw [setAddAll_cons, ih, mem_setAdd]
    simp only [List.mem_cons]
    tauto

theorem nodup_setAdd {A : Type} [DecidableEq A] (l : List A) (x : A) (h : l.Nodup) :
    (setAdd l x).Nodup := by
  by_cases hx : x ∈ l
  · simpa [setAdd, hx]
  · simp only [setAdd, if_neg hx]
    simp [List.nodup_append, h, hx]

theorem nodup_setAddAll {A : Type} [DecidableEq A] (l xs : List A) (h : l.Nodup) :
    (setAddAll l xs).Nodup := by
  induction xs generalizing l with
  | nil => simpa [setAddAll]
  | cons x rest ih => exact ih (setAdd l x) (nodup_setAdd l x h)

theorem sortedInsert_perm (x : Nat) (l : List Nat) :
    List.Perm (sortedInsert x l) (x :: l) := by
  induction l with
  | nil => simp [sortedInsert]
  | cons y ys ih =>
    by_cases h : x ≤ y
    · simp [sortedInsert, h]
    · simp only [sortedInsert, if_neg h]
      exact ((ih.cons y).trans (List.Perm.swap x y ys))

theorem sortRunes_perm (l : List Nat) : List.Perm (sortRunes l) l := by
  induction l with
  | nil => simp [sortRunes]
  | cons x xs ih =>
    simp only [sortRunes, List.foldr_cons]
    exact (sortedInsert_perm x _).trans (ih.cons x)

theorem mem_sortRunes (l : List Nat) (x : Nat) : x ∈ sortRunes l ↔ x ∈ l :=
  (sortRunes_perm l).mem_iff

theorem sortedInsert_sorted (x : Nat) (l : List Nat) (h : l.Sorted (· ≤ ·)) :
    (sortedInsert x l).Sorted (· ≤ ·) := by
  induction l with
  | nil => simp [sortedInsert]
  | cons y ys ih =>
    have hy := (List.sorted_cons.mp h).1
    have hys := (List.sorted_cons.mp h).2
    by_cases hxy : x ≤ y
    · simp only [sortedInsert, if_pos hxy]
      refine List.sorted_cons.mpr ⟨?_, h⟩
      intro b hb
      rcases List.mem_cons.mp hb with rfl | hb
      · exact hxy
      · exact hxy.trans (hy b hb)
    · simp only [sortedInsert, if_neg hxy]
      refine List.sorted_cons.mpr ⟨?_, ih hys⟩
      intro b hb
      rcases List.mem_cons.mp ((sortedInsert_perm x ys).mem_iff.mp hb) with rfl | hb
      · omega
      · exact hy b hb

theorem sortRunes_sorted (l : List Nat) : (sortRunes l).Sorted (· ≤ ·) := by
  induction l with
  | nil => simp [sortRunes]
  | cons x xs ih => exact sortedInsert_sorted x _ ih

theorem sortRunes_eq_of_mem_iff (l1 l2 : List Nat) (h1 : l1.Nodup) (h2 : l2.Nodup)
    (h : ∀ x, x ∈ l1 ↔ x ∈ l2) : sortRunes l1 = sortRunes l2 := by
  have hp : List.Perm (sortRunes l1) (sortRunes l2) := by
    refine (List.perm_ext_iff_of_nodup ?_ ?_).mpr ?_
    · exact (sortRunes_perm l1).nodup_iff.mpr h1
    · exact (sortRunes_perm l2).nodup_iff.mpr h2
    · intro a; rw [mem_sortRunes, mem_sortRunes]; exact h a
  exact List.eq_of_perm_of_sorted hp (sortRunes_sorted l1) (sortRunes_sorted l2)


end Fastmatch

namespace Fastmatch

/-! ## Correctness of the equivalence closure (`collapse`) -/

/-- Membership in a `dedupedRuneEquivalents` entry: `b ∈ equiv[a]`. -/
def memD (e : DedupedEquiv) (a b : Rune) : Prop := b ∈ alGetD e a []

/-- Reachability in the seed graph: the reflexive-transitive closure of
single-entry membership.  `collapse` is proved below to compute exactly
this relation. -/
def Reach (s : DedupedEquiv) : Rune → Rune → Prop :=
  Relation.ReflTransGen (fun a b => memD s a b)

theorem alGetD_alSet_self {K V : Type} [DecidableEq K] {d : V} (l : List (K × V)) (k : K)
    (v : V) : alGetD (alSet l k v) k d = v := by
  simp [alGetD, alGet?_alSet_self]

theorem alGetD_alSet_ne {K V : Type} [DecidableEq K] {d : V} (l : List (K × V)) (k k' : K)
    (v : V) (h : k ≠ k') : alGetD (alSet l k v) k' d = alGetD l k' d := by
  simp [alGetD, alGet?_alSet_ne l k k' v h]

theorem memD_alSet (e : DedupedEquiv) (r1 : Rune) (v : List Nat) (a x : Rune) :
    memD (alSet e r1 v) a x ↔ (if a = r1 then x ∈ v else memD e a x) := by
  by_cases h : a = r1
  · subst h
    simp [memD, alGetD_alSet_self]
  · simp [memD, alGetD_alSet_ne e r1 a v (fun hh => h hh.symm), h]

/-- If an entry is nonempty then its key is present. -/
theorem memD_key (e : DedupedEquiv) (a b : Rune) (h : memD e a b) : alMem e a = true := by
  unfold memD alGetD at h
  unfold alMem
  cases hg : alGet? e a with
  | none => rw [hg] at h; simp at h
  | some l => simp [hg]

theorem memD_runeUniverse (e : DedupedEquiv) (a b : Rune) (h : memD e a b) :
    b ∈ runeUniverse e := by
  unfold runeUniverse
  rw [List.mem_dedup]
  unfold memD alGetD at h
  induction e with
  | nil => simp [alGet?] at h
  | cons p rest ih =>
    obtain ⟨k, l⟩ := p
    rw [List.foldr_cons]
    by_cases hk : k = a
    · subst hk
      rw [alGet?, if_pos rfl, Option.getD_some] at h
      exact List.mem_cons.mpr (Or.inr (List.mem_append.mpr (Or.inl h)))
    · rw [alGet?, if_neg hk] at h
      exact List.mem_cons.mpr (Or.inr (List.mem_append.mpr (Or.inr (ih h))))

/-- `saturateAux` only grows entries. -/
theorem saturateAux_mono (n : Nat) (e : DedupedEquiv) (r1 : Rune) (seen : List Rune)
    (a x : Rune) (h : memD e a x) : memD (saturateAux n e r1 seen) a x := by
  induction n generalizing e seen with
  | zero => simpa [saturateAux]
  | succ n ih =>
    simp only [saturateAux]
    cases hf : firstUnseen (alGetD e r1 []) seen with
    | none => simpa
    | some r2 =>
      apply ih
      rw [memD_alSet]
      by_cases ha : a = r1
      · subst ha
        rw [if_pos rfl, mem_setAddAll]
        exact Or.inl h
      · rw [if_neg ha]
        exact h

/-- `saturateAux` only adds pairs reachable in the seed graph. -/
theorem saturateAux_sound (s : DedupedEquiv) (n : Nat) (e : DedupedEquiv) (r1 : Rune)
    (seen : List Rune) (hs : ∀ a x, memD e a x → Reach s a x) :
    ∀ a x, memD (saturateAux n e r1 seen) a x → Reach s a x := by
  induction n generalizing e seen with
  | zero => simpa [saturateAux]
  | succ n ih =>
    simp only [saturateAux]
    cases hf : firstUnseen (alGetD e r1 []) seen with
    | none => simpa using hs
    | some r2 =>
      apply ih
      intro a x hm
      rw [memD_alSet] at hm
      by_cases ha : a = r1
      · rw [if_pos ha] at hm
        subst ha
        rw [mem_setAddAll] at hm
        rcases hm with hm | hm
        · exact hs _ _ hm
        · have hr2 : memD e a r2 := List.mem_of_find?_eq_some hf
          exact (hs _ _ hr2).trans (hs _ _ hm)
      · rw [if_neg ha] at hm
        exact hs _ _ hm

theorem filter_length_mono {A : Type} (U : List A) (f g : A → Bool)
    (h : ∀ u, g u = true → f u = true) : (U.filter g).length ≤ (U.filter f).length := by
  induction U with
  | nil => simp
  | cons u rest ih =>
    by_cases hg : g u = true
    · rw [List.filter_cons, List.filter_cons, if_pos hg, if_pos (h u hg)]
      simpa using ih
    · rw [List.filter_cons, if_neg hg]
      by_cases hf : f u = true
      · rw [List.filter_cons, if_pos hf]
        exact ih.trans (by simp)
      · rw [List.filter_cons, if_neg hf]
        exact ih

theorem contains_mem (l : List Rune) (u : Rune) : l.contains u = decide (u ∈ l) :=
  List.elem_eq_mem u l

theorem contains_append_single (seen : List Rune) (r u : Rune) :
    (seen ++ [r]).contains u = (seen.contains u || decide (u = r)) := by
  rw [contains_mem, contains_mem]
  by_cases h : u ∈ seen
  · simp [h]
  · by_cases h2 : u = r <;> simp [h, h2]

theorem filter_unseen_lt (U seen : List Rune) (r2 : Rune) (hU : r2 ∈ U) (hs : r2 ∉ seen) :
    (U.filter fun u => !((seen ++ [r2]).contains u)).length <
      (U.filter fun u => !(seen.contains u)).length := by
  induction U with
  | nil => simp at hU
  | cons u rest ih =>
    by_cases hu : u = r2
    · subst hu
      have h1 : (!((seen ++ [u]).contains u)) = true → False := by
        rw [contains_append_single]
        simp
      have h2 : (!(seen.contains u)) = true := by
        rw [contains_mem]
        simpa using hs
      rw [List.filter_cons, List.filter_cons, if_neg h1, if_pos h2]
      have hm := filter_length_mono rest (fun x => !(seen.contains x))
        (fun x => !((seen ++ [u]).contains x)) ?_
      · simp only [List.length_cons]
        omega
      · intro x hx
        simp only at hx ⊢
        rw [contains_append_single] at hx
        simp only [Bool.not_or, Bool.and_eq_true] at hx
        exact hx.1
    · have hr2 : r2 ∈ rest := by
        rcases List.mem_cons.mp hU with h | h
        · exact absurd h.symm hu
        · exact h
      have heq : (!((seen ++ [r2]).contains u)) = (!(seen.contains u)) := by
        rw [contains_append_single]
        have hd : (decide (u = r2)) = false := by simp [hu]
        rw [hd, Bool.or_false]
      rw [List.filter_cons, List.filter_cons, heq]
      by_cases hb : (!(seen.contains u)) = true
      · rw [if_pos hb, if_pos hb]
        simpa using ih hr2
      · rw [if_neg hb, if_neg hb]
        exact ih hr2

end Fastmatch

namespace Fastmatch

/-- After `saturateAux` runs with enough fuel, the entry of `r1` is closed
under seed-graph edges out of its members. -/
theorem saturateAux_closed (s : DedupedEquiv) (U : List Rune) (n : Nat) (e : DedupedEquiv)
    (r1 : Rune) (seen : List Rune)
    (hU : ∀ a x, memD e a x → x ∈ U)
    (hsub : ∀ a x, memD s a x → memD e a x)
    (hseen : ∀ r2 ∈ seen, ∀ x, memD s r2 x → memD e r1 x)
    (hfuel : (U.filter fun u => !(seen.contains u)).length ≤ n) :
    ∀ r2 x, memD (saturateAux n e r1 seen) r1 r2 → memD s r2 x →
      memD (saturateAux n e r1 seen) r1 x := by
  induction n generalizing e seen with
  | zero =>
    simp only [saturateAux]
    intro r2 x hm hsx
    have hr2U : r2 ∈ U := hU _ _ hm
    by_cases hr2s : r2 ∈ seen
    · exact hseen r2 hr2s x hsx
    · exfalso
      have : r2 ∈ U.filter fun u => !(seen.contains u) := by
        rw [List.mem_filter]
        refine ⟨hr2U, ?_⟩
        rw [contains_mem]
        simpa using hr2s
      have h0 : (U.filter fun u => !(seen.contains u)).length = 0 := Nat.le_zero.mp hfuel
      rw [List.length_eq_zero] at h0
      rw [h0] at this
      simp at this
  | succ n ih =>
    simp only [saturateAux]
    cases hf : firstUnseen (alGetD e r1 []) seen with
    | none =>
      intro r2 x hm hsx
      have hr2mem : r2 ∈ alGetD e r1 [] := hm
      have hr2s : r2 ∈ seen := by
        unfold firstUnseen at hf
        by_contra hns
        have := List.find?_eq_none.mp hf r2 hr2mem
        rw [contains_mem] at this
        simp [hns] at this
      exact hseen r2 hr2s x hsx
    | some r2' =>
      have hr2'mem : r2' ∈ alGetD e r1 [] := List.mem_of_find?_eq_some hf
      have hr2'seen : r2' ∉ seen := by
        have := List.find?_some hf
        rw [contains_mem] at this
        simpa using this
      apply ih
      · intro a x hm
        rw [memD_alSet] at hm
        by_cases ha : a = r1
        · rw [if_pos ha] at hm
          rw [mem_setAddAll] at hm
          rcases hm with hm | hm
          · exact hU r1 x hm
          · exact hU r2' x hm
        · rw [if_neg ha] at hm
          exact hU a x hm
      · intro a x hm
        rw [memD_alSet]
        by_cases ha : a = r1
        · rw [if_pos ha]
          rw [mem_setAddAll]
          subst ha
          exact Or.inl (hsub a x hm)
        · rw [if_neg ha]
          exact hsub a x hm
      · intro r2 hr2 x hsx
        rw [memD_alSet, if_pos rfl, mem_setAddAll]
        rcases List.mem_append.mp hr2 with hr2 | hr2
        · exact Or.inl (hseen r2 hr2 x hsx)
        · rw [List.mem_singleton] at hr2
          subst hr2
          exact Or.inr (hsub r2 x hsx)
      · have hlt := filter_unseen_lt U seen r2' (hU _ _ hr2'mem) hr2'seen
        omega

/-- With its actual fuel, `saturate` computes the closure of the entry of
`r1`: exactly the runes reachable from `r1` in the seed graph. -/
theorem saturate_entry (s e : DedupedEquiv) (r1 : Rune)
    (hsub : ∀ a x, memD s a x → memD e a x)
    (hsound : ∀ a x, memD e a x → Reach s a x)
    (hself : memD s r1 r1) :
    ∀ x, memD (saturate e r1) r1 x ↔ Reach s r1 x := by
  intro x
  constructor
  · intro h
    exact saturateAux_sound s _ e r1 [] hsound r1 x h
  · intro h
    unfold saturate
    have hclosed := saturateAux_closed s (runeUniverse e) (runeUniverse e).length e r1 []
      (fun a x => memD_runeUniverse e a x)
      hsub
      (by intro r2 hr2; simp at hr2)
      (le_of_le_of_eq (filter_length_mono (runeUniverse e) (fun _ => true)
          (fun u => !([].contains u)) (fun u _ => rfl))
        (by rw [List.filter_true]))
    induction h with
    | refl =>
      exact saturateAux_mono _ e r1 [] r1 r1 (hsub _ _ hself)
    | tail hab hbx ih =>
      exact hclosed _ _ ih hbx

/-- `saturate` preserves soundness. -/
theorem saturate_sound (s e : DedupedEquiv) (r1 : Rune)
    (hsound : ∀ a x, memD e a x → Reach s a x) :
    ∀ a x, memD (saturate e r1) a x → Reach s a x :=
  saturateAux_sound s _ e r1 [] hsound

/-- `saturate` preserves the seed lower bound. -/
theorem saturate_sub (s e : DedupedEquiv) (r1 : Rune)
    (hsub : ∀ a x, memD s a x → memD e a x) :
    ∀ a x, memD s a x → memD (saturate e r1) a x := by
  intro a x h
  exact saturateAux_mono _ e r1 [] a x (hsub a x h)

end Fastmatch

namespace Fastmatch

theorem alMem_iff_keys {K V : Type} [DecidableEq K] (l : List (K × V)) (k : K) :
    alMem l k = true ↔ k ∈ alKeys l := by
  induction l with
  | nil => simp [alMem, alGet?, alKeys]
  | cons p rest ih =>
    obtain ⟨k', v⟩ := p
    by_cases h : k' = k
    · subst h
      simp [alMem, alGet?, alKeys]
    · simp only [alMem, alGet?, if_neg h, alKeys, List.map_cons, List.mem_cons]
      rw [← alKeys, ← alMem, ih]
      constructor
      · exact Or.inr
      · rintro (rfl | hh)
        · exact absurd rfl h
        · exact hh

theorem alGet?_collapseAux_none (K : List Rune) (e : DedupedEquiv) (r : Rune) (h : r ∉ K) :
    alGet? (collapseAux K e) r = none := by
  induction K generalizing e with
  | nil => simp [collapseAux, alGet?]
  | cons r1 rest ih =>
    simp only [collapseAux, alGet?]
    rw [if_neg (fun hh => h (by rw [← hh]; exact List.mem_cons_self r1 rest))]
    exact ih _ (fun hh => h (List.mem_cons_of_mem r1 hh))

theorem alGet?_collapseAux_isSome (K : List Rune) (e : DedupedEquiv) (r : Rune) (h : r ∈ K) :
    (alGet? (collapseAux K e) r).isSome = true := by
  induction K generalizing e with
  | nil => simp at h
  | cons r1 rest ih =>
    simp only [collapseAux, alGet?]
    by_cases h1 : r1 = r
    · simp [h1]
    · rw [if_neg h1]
      apply ih
      rcases List.mem_cons.mp h with rfl | hh
      · exact absurd rfl h1
      · exact hh

/-- Every entry of `collapseAux` lists exactly the runes reachable from its
key in the seed graph. -/
theorem collapseAux_mem (s : DedupedEquiv) (K : List Rune) (e : DedupedEquiv)
    (hsub : ∀ a x, memD s a x → memD e a x)
    (hsound : ∀ a x, memD e a x → Reach s a x)
    (hself : ∀ r ∈ K, memD s r r) :
    ∀ r l, alGet? (collapseAux K e) r = some l → ∀ x, (x ∈ l ↔ Reach s r x) := by
  induction K generalizing e with
  | nil => intro r l h; simp [collapseAux, alGet?] at h
  | cons r1 rest ih =>
    intro r l h x
    simp only [collapseAux, alGet?] at h
    by_cases h1 : r1 = r
    · subst h1
      rw [if_pos rfl] at h
      obtain rfl : sortRunes (alGetD (saturate e r1) r1 []) = l := by
        injection h
      rw [mem_sortRunes]
      exact saturate_entry s e r1 hsub hsound (hself r1 (List.mem_cons_self r1 rest)) x
    · rw [if_neg h1] at h
      exact ih (saturate e r1)
        (saturate_sub s e r1 hsub)
        (saturate_sound s e r1 hsound)
        (fun r2 hr2 => hself r2 (List.mem_cons_of_mem r1 hr2)) r l h x

/-- Reachability out of a rune with no entry is trivial. -/
theorem reach_of_not_key (s : DedupedEquiv) (r x : Rune) (h : ¬ alMem s r = true) :
    Reach s r x ↔ x = r := by
  constructor
  · intro hr
    rcases Relation.ReflTransGen.cases_head hr with heq | ⟨c, hc, _⟩
    · exact heq.symm
    · exact absurd (memD_key s r c hc) h
  · rintro rfl
    exact Relation.ReflTransGen.refl

/-- The central characterization: after `collapse`, `lookup r` holds
exactly the runes reachable from `r` in the seed graph. -/
theorem mem_lookup_collapse (s : DedupedEquiv)
    (hself : ∀ r, alMem s r = true → memD s r r) :
    ∀ r x, x ∈ lookupR s.collapse r ↔ Reach s r x := by
  intro r x
  unfold DedupedEquiv.collapse lookupR
  by_cases hm : alMem s r = true
  · have hkey : r ∈ alKeys s := (alMem_iff_keys s r).mp hm
    have hsome := alGet?_collapseAux_isSome (alKeys s) s r hkey
    cases hg : alGet? (collapseAux (alKeys s) s) r with
    | none => rw [hg] at hsome; simp at hsome
    | some l =>
      simp only [hg]
      exact collapseAux_mem s (alKeys s) s
        (fun a x h => h)
        (fun a x h => Relation.ReflTransGen.single h)
        (fun r2 hr2 => hself r2 ((alMem_iff_keys s r2).mpr hr2)) r l hg x
  · have hnkey : r ∉ alKeys s := fun hh => hm ((alMem_iff_keys s r).mpr hh)
    rw [alGet?_collapseAux_none (alKeys s) s r hnkey]
    simp only [List.mem_singleton]
    exact (reach_of_not_key s r x hm).symm

end Fastmatch

namespace Fastmatch

/-- The seed map accumulated by `makeEquivalents`' flag loop, before
`collapse` (`runes.go:99-115`). -/
def seedMap (flags : List Flag) : DedupedEquiv :=
  flags.foldl applyEquivFlag []

theorem makeEquivalents_eq (flags : List Flag) :
    makeEquivalents flags = (seedMap flags).collapse := rfl

theorem alGet?_append {V : Type} (l1 l2 : List (Nat × V)) (k : Nat) :
    alGet? (l1 ++ l2) k = ((alGet? l1 k).or (alGet? l2 k)) := by
  induction l1 with
  | nil => simp [alGet?]
  | cons p rest ih =>
    obtain ⟨k', v⟩ := p
    by_cases h : k' = k
    · simp [alGet?, h]
    · simp [alGet?, h, ih]

theorem not_memD_of_not_alMem (e : DedupedEquiv) (a x : Rune) (h : ¬ alMem e a = true) :
    ¬ memD e a x := by
  intro hm
  exact h (memD_key e a x hm)

theorem alMem_dedupSet (e : DedupedEquiv) (r : Rune) (rs : List Rune) (a : Rune) :
    alMem (dedupSet e r rs) a = true ↔ (alMem e a = true ∨ a = r) := by
  unfold dedupSet
  by_cases hm : alMem e r = true
  · rw [if_pos hm]
    by_cases ha : a = r
    · subst ha
      simp only [alMem, alGet?_alSet_self, Option.isSome_some]
      simp
    · simp only [alMem, alGet?_alSet_ne _ r a _ (fun hh => ha hh.symm)]
      constructor
      · exact Or.inl
      · intro hh
        rcases hh with hh | hh
        · exact hh
        · exact absurd hh ha
  · rw [if_neg hm]
    by_cases ha : a = r
    · subst ha
      simp only [alMem, alGet?_alSet_self, Option.isSome_some]
      simp
    · simp only [alMem, alGet?_alSet_ne _ r a _ (fun hh => ha hh.symm)]
      rw [alGet?_append]
      have hg2 : alGet? [(r, [r])] a = none := by
        rw [alGet?, if_neg (fun hh : r = a => ha hh.symm)]
        rfl
      rw [hg2]
      cases hg : alGet? e a with
      | none => simp [Option.or, ha]
      | some v => simp [Option.or]

theorem dedupSet_mono (e : DedupedEquiv) (r : Rune) (rs : List Rune) (a x : Rune)
    (h : memD e a x) : memD (dedupSet e r rs) a x := by
  unfold dedupSet
  by_cases ha : a = r
  · subst ha
    rw [memD, alGetD_alSet_self, mem_setAddAll]
    left
    by_cases hm : alMem e a = true
    · rw [if_pos hm]
      exact h
    · exact absurd (memD_key e a x h) hm
  · rw [memD, alGetD_alSet_ne _ r a _ (fun hh => ha hh.symm)]
    by_cases hm : alMem e r = true
    · rw [if_pos hm]
      exact h
    · rw [if_neg hm, memD] at *
      unfold alGetD at *
      rw [alGet?_append]
      cases hg : alGet? e a with
      | none => rw [hg] at h; simp at h
      | some v =>
        rw [hg] at h
        simpa using h

/-- Membership in a `dedupSet` result, assuming keys of `e` already list
themselves (which `set` guarantees by construction). -/
theorem mem_dedupSet (e : DedupedEquiv) (r : Rune) (rs : List Rune)
    (hself : ∀ k, alMem e k = true → memD e k k) (a x : Rune) :
    memD (dedupSet e r rs) a x ↔ (memD e a x ∨ (a = r ∧ (x = r ∨ x ∈ rs))) := by
  constructor
  · intro h
    unfold dedupSet at h
    by_cases ha : a = r
    · subst ha
      rw [memD, alGetD_alSet_self, mem_setAddAll] at h
      by_cases hm : alMem e a = true
      · rw [if_pos hm] at h
        rcases h with h | h
        · exact Or.inl h
        · exact Or.inr ⟨rfl, Or.inr h⟩
      · rw [if_neg hm] at h
        have : alGetD (e ++ [(a, [a])]) a [] = [a] := by
          unfold alGetD
          rw [alGet?_append]
          have hg : alGet? e a = none := by
            unfold alMem at hm
            cases hg : alGet? e a with
            | none => rfl
            | some v => rw [hg] at hm; simp at hm
          rw [hg]
          simp [alGet?]
        rw [this] at h
        rcases h with h | h
        · rw [List.mem_singleton] at h
          exact Or.inr ⟨rfl, Or.inl h⟩
        · exact Or.inr ⟨rfl, Or.inr h⟩
    · rw [memD, alGetD_alSet_ne _ r a _ (fun hh => ha hh.symm)] at h
      by_cases hm : alMem e r = true
      · rw [if_pos hm] at h
        exact Or.inl h
      · rw [if_neg hm] at h
        left
        rw [memD]
        unfold alGetD at h ⊢
        rw [alGet?_append] at h
        cases hg : alGet? e a with
        | none =>
          rw [hg] at h
          simp only [Option.or, alGet?, if_neg (fun hh : r = a => ha hh.symm)] at h
          simp [alGet?] at h
        | some v =>
          rw [hg] at h
          simpa using h
  · intro h
    rcases h with h | ⟨rfl, h⟩
    · exact dedupSet_mono e r rs a x h
    · unfold dedupSet
      rw [memD, alGetD_alSet_self, mem_setAddAll]
      rcases h with rfl | h
      · left
        by_cases hm : alMem e x = true
        · rw [if_pos hm]
          exact hself x hm
        · rw [if_neg hm]
          unfold alGetD
          rw [alGet?_append]
          have hg : alGet? e x = none := by
            unfold alMem at hm
            cases hg : alGet? e x with
            | none => rfl
            | some v => rw [hg] at hm; simp at hm
          rw [hg]
          simp [alGet?]
      · exact Or.inr h

end Fastmatch

namespace Fastmatch

/-- Invariants of the seed map built by `makeEquivalents`' flag loop:
keys list themselves, entries are symmetric, members are keys. -/
def SeedInv (s : DedupedEquiv) : Prop :=
  (∀ r, alMem s r = true → memD s r r) ∧
  (∀ a b, memD s a b → memD s b a) ∧
  (∀ a b, memD s a b → alMem s b = true)

theorem seedInv_nil : SeedInv [] := by
  refine ⟨?_, ?_, ?_⟩ <;> intro a <;> intros <;>
    simp_all [alMem, alGet?, memD, alGetD]

theorem dedupSet_self (e : DedupedEquiv) (r : Rune) (rs : List Rune)
    (hself : ∀ k, alMem e k = true → memD e k k) :
    ∀ k, alMem (dedupSet e r rs) k = true → memD (dedupSet e r rs) k k := by
  intro k hk
  rcases (alMem_dedupSet e r rs k).mp hk with hk | rfl
  · exact dedupSet_mono e r rs k k (hself k hk)
  · rw [mem_dedupSet _ _ rs hself]
    exact Or.inr ⟨rfl, Or.inl rfl⟩

theorem seedInv_dedupPair (e : DedupedEquiv) (l u : Rune) (hinv : SeedInv e) :
    SeedInv (dedupSet (dedupSet e l [u]) u [l]) := by
  obtain ⟨hself, hsym, hvk⟩ := hinv
  have hself1 := dedupSet_self e l [u] hself
  have hmem2 : ∀ a x, memD (dedupSet (dedupSet e l [u]) u [l]) a x ↔
      (memD e a x ∨ (a = l ∧ (x = l ∨ x = u)) ∨ (a = u ∧ (x = u ∨ x = l))) := by
    intro a x
    rw [mem_dedupSet _ u [l] hself1, mem_dedupSet e l [u] hself]
    simp only [List.mem_singleton]
    tauto
  have hmem2' := fun a x => (hmem2 a x).mpr
  have hkeys2 : ∀ k, alMem (dedupSet (dedupSet e l [u]) u [l]) k = true ↔
      (alMem e k = true ∨ k = l ∨ k = u) := by
    intro k
    rw [alMem_dedupSet, alMem_dedupSet]
    tauto
  refine ⟨?_, ?_, ?_⟩
  · intro r hr
    rcases (hkeys2 r).mp hr with hr | rfl | rfl
    · exact hmem2' _ _ (Or.inl (hself r hr))
    · exact hmem2' _ _ (Or.inr (Or.inl ⟨rfl, Or.inl rfl⟩))
    · exact hmem2' _ _ (Or.inr (Or.inr ⟨rfl, Or.inl rfl⟩))
  · intro a b hab
    rcases (hmem2 a b).mp hab with h | ⟨rfl, h⟩ | ⟨rfl, h⟩
    · exact hmem2' _ _ (Or.inl (hsym a b h))
    · rcases h with rfl | rfl
      · exact hmem2' _ _ (Or.inr (Or.inl ⟨rfl, Or.inl rfl⟩))
      · exact hmem2' _ _ (Or.inr (Or.inr ⟨rfl, Or.inr rfl⟩))
    · rcases h with rfl | rfl
      · exact hmem2' _ _ (Or.inr (Or.inr ⟨rfl, Or.inl rfl⟩))
      · exact hmem2' _ _ (Or.inr (Or.inl ⟨rfl, Or.inr rfl⟩))
  · intro a b hab
    rcases (hmem2 a b).mp hab with h | ⟨rfl, h⟩ | ⟨rfl, h⟩
    · exact (hkeys2 b).mpr (Or.inl (hvk a b h))
    · rcases h with rfl | rfl
      · exact (hkeys2 b).mpr (Or.inr (Or.inl rfl))
      · exact (hkeys2 b).mpr (Or.inr (Or.inr rfl))
    · rcases h with rfl | rfl
      · exact (hkeys2 b).mpr (Or.inr (Or.inr rfl))
      · exact (hkeys2 b).mpr (Or.inr (Or.inl rfl))

theorem seedInv_insensitive (e : DedupedEquiv) (hinv : SeedInv e) :
    SeedInv (insensitivePairs e) := by
  unfold insensitivePairs
  generalize List.range 26 = L
  induction L generalizing e with
  | nil => simpa
  | cons i rest ih =>
    rw [List.foldl_cons]
    exact ih _ (seedInv_dedupPair e (97 + i) (65 + i) hinv)

theorem alMem_equivFold (rs L : List Rune) (e : DedupedEquiv) :
    ∀ k, alMem (L.foldl (fun e2 r => dedupSet e2 r rs) e) k = true ↔
      (alMem e k = true ∨ k ∈ L) := by
  induction L generalizing e with
  | nil => simp
  | cons r rest ih =>
    intro k
    rw [List.foldl_cons, ih, alMem_dedupSet]
    simp only [List.mem_cons]
    tauto

theorem mem_equivFold (rs L : List Rune) (e : DedupedEquiv)
    (hself : ∀ k, alMem e k = true → memD e k k) :
    ∀ a x, memD (L.foldl (fun e2 r => dedupSet e2 r rs) e) a x ↔
      (memD e a x ∨ (a ∈ L ∧ (x = a ∨ x ∈ rs))) := by
  induction L generalizing e with
  | nil => simp
  | cons r rest ih =>
    intro a x
    rw [List.foldl_cons, ih (dedupSet e r rs) (dedupSet_self e r rs hself),
      mem_dedupSet e r rs hself]
    simp only [List.mem_cons]
    constructor
    · rintro ((h | ⟨rfl, h⟩) | ⟨h, h2⟩)
      · exact Or.inl h
      · rcases h with rfl | h
        · exact Or.inr ⟨Or.inl rfl, Or.inl rfl⟩
        · exact Or.inr ⟨Or.inl rfl, Or.inr h⟩
      · exact Or.inr ⟨Or.inr h, h2⟩
    · rintro (h | ⟨rfl | h, h2⟩)
      · exact Or.inl (Or.inl h)
      · rcases h2 with rfl | h2
        · exact Or.inl (Or.inr ⟨rfl, Or.inl rfl⟩)
        · exact Or.inl (Or.inr ⟨rfl, Or.inr h2⟩)
      · exact Or.inr ⟨h, h2⟩

theorem seedInv_equivFold (rs : List Rune) (e : DedupedEquiv) (hinv : SeedInv e) :
    SeedInv (rs.foldl (fun e2 r => dedupSet e2 r rs) e) := by
  obtain ⟨hself, hsym, hvk⟩ := hinv
  have hmem := mem_equivFold rs rs e hself
  have hkeys := alMem_equivFold rs rs e
  refine ⟨?_, ?_, ?_⟩
  · intro r hr
    rcases (hkeys r).mp hr with hr | hr
    · exact (hmem r r).mpr (Or.inl (hself r hr))
    · exact (hmem r r).mpr (Or.inr ⟨hr, Or.inl rfl⟩)
  · intro a b hab
    rcases (hmem a b).mp hab with h | ⟨ha, rfl | hb⟩
    · exact (hmem b a).mpr (Or.inl (hsym a b h))
    · exact (hmem _ _).mpr (Or.inr ⟨ha, Or.inl rfl⟩)
    · exact (hmem b a).mpr (Or.inr ⟨hb, Or.inr ha⟩)
  · intro a b hab
    rcases (hmem a b).mp hab with h | ⟨ha, rfl | hb⟩
    · exact (hkeys b).mpr (Or.inl (hvk a b h))
    · exact (hkeys _).mpr (Or.inr ha)
    · exact (hkeys b).mpr (Or.inr hb)

theorem seedInv_applyEquivFlag (e : DedupedEquiv) (f : Flag) (hinv : SeedInv e) :
    SeedInv (applyEquivFlag e f) := by
  unfold applyEquivFlag
  by_cases h1 : f = Flag.insensitive
  · rw [if_pos h1]
    exact seedInv_insensitive e hinv
  · rw [if_neg h1]
    by_cases h2 : f = Flag.normalize
    · rw [if_pos h2]
      exact hinv
    · rw [if_neg h2]
      by_cases h3 : 0 < (Flag.equivRunes f).length
      · rw [if_pos h3]
        exact seedInv_equivFold (Flag.equivRunes f) e hinv
      · rw [if_neg h3]
        exact hinv

theorem seedInv_seedMap (flags : List Flag) : SeedInv (seedMap flags) := by
  unfold seedMap
  generalize hinit : ([] : DedupedEquiv) = e
  have hinv : SeedInv e := hinit ▸ seedInv_nil
  clear hinit
  induction flags generalizing e with
  | nil => simpa
  | cons f rest ih =>
    rw [List.foldl_cons]
    exact ih _ (seedInv_applyEquivFlag e f hinv)

/-- `lookup` after `makeEquivalents` is exactly seed-graph reachability. -/
theorem mem_lookup_makeEquivalents (flags : List Flag) (r x : Rune) :
    x ∈ lookupR (makeEquivalents flags) r ↔ Reach (seedMap flags) r x := by
  rw [makeEquivalents_eq]
  exact mem_lookup_collapse (seedMap flags) (seedInv_seedMap flags).1 r x

/-- `isEquiv` after `makeEquivalents` is exactly seed-graph reachability. -/
theorem isEquivR_makeEquivalents (flags : List Flag) (a b : Rune) :
    isEquivR (makeEquivalents flags) a b = true ↔ Reach (seedMap flags) a b := by
  unfold isEquivR
  rw [contains_mem]
  rw [decide_eq_true_iff]
  exact mem_lookup_makeEquivalents flags a b

/-- Seed-graph reachability is symmetric (the seeds are). -/
theorem reach_seedMap_symm (flags : List Flag) (a b : Rune)
    (h : Reach (seedMap flags) a b) : Reach (seedMap flags) b a :=
  Relation.ReflTransGen.symmetric (fun _ _ hh => (seedInv_seedMap flags).2.1 _ _ hh) h

end Fastmatch

namespace Fastmatch

/-- Looking up any member of a class gives the same class. -/
theorem lookup_class_eq (flags : List Flag) (a b : Rune)
    (h : b ∈ lookupR (makeEquivalents flags) a) :
    ∀ x, x ∈ lookupR (makeEquivalents flags) b ↔ x ∈ lookupR (makeEquivalents flags) a := by
  intro x
  rw [mem_lookup_makeEquivalents, mem_lookup_makeEquivalents]
  rw [mem_lookup_makeEquivalents] at h
  constructor
  · exact fun hx => h.trans hx
  · exact fun hx => (reach_seedMap_symm flags a b h).trans hx

/-- Membership in the accumulation loop of `expand`. -/
theorem mem_expandFold (equiv : RuneEquivs) (exclude : List (List Rune)) (rs : List Rune)
    (init : List Rune) (x : Rune) :
    x ∈ rs.foldl (fun acc r1 =>
        if exclude.any (fun ex => ex.any (fun r2 => isEquivR equiv r1 r2)) then acc
        else setAddAll acc (lookupR equiv r1)) init ↔
      (x ∈ init ∨ ∃ r1 ∈ rs,
        ((exclude.any fun ex => ex.any fun r2 => isEquivR equiv r1 r2) = false ∧
          x ∈ lookupR equiv r1)) := by
  induction rs generalizing init with
  | nil => simp
  | cons r rest ih =>
    rw [List.foldl_cons]
    by_cases hc : (exclude.any fun ex => ex.any fun r2 => isEquivR equiv r r2) = true
    · rw [if_pos hc, ih]
      simp only [List.mem_cons]
      constructor
      · rintro (h | ⟨r1, h1, h2⟩)
        · exact Or.inl h
        · exact Or.inr ⟨r1, Or.inr h1, h2⟩
      · rintro (h | ⟨r1, rfl | h1, h2⟩)
        · exact Or.inl h
        · rw [hc] at h2
          exact absurd h2.1 (by simp)
        · exact Or.inr ⟨r1, h1, h2⟩
    · rw [if_neg hc, ih]
      rw [Bool.not_eq_true] at hc
      simp only [List.mem_cons, mem_setAddAll]
      constructor
      · rintro ((h | h) | ⟨r1, h1, h2⟩)
        · exact Or.inl h
        · exact Or.inr ⟨r, Or.inl rfl, hc, h⟩
        · exact Or.inr ⟨r1, Or.inr h1, h2⟩
      · rintro (h | ⟨r1, rfl | h1, h2⟩)
        · exact Or.inl (Or.inl h)
        · exact Or.inl (Or.inr h2.2)
        · exact Or.inr ⟨r1, h1, h2⟩

theorem nodup_expandFold (equiv : RuneEquivs) (exclude : List (List Rune)) (rs : List Rune)
    (init : List Rune) (h : init.Nodup) :
    (rs.foldl (fun acc r1 =>
        if exclude.any (fun ex => ex.any (fun r2 => isEquivR equiv r1 r2)) then acc
        else setAddAll acc (lookupR equiv r1)) init).Nodup := by
  induction rs generalizing init with
  | nil => simpa
  | cons r rest ih =>
    rw [List.foldl_cons]
    by_cases hc : (exclude.any fun ex => ex.any fun r2 => isEquivR equiv r r2) = true
    · rw [if_pos hc]
      exact ih init h
    · rw [if_neg hc]
      exact ih _ (nodup_setAddAll init (lookupR equiv r) h)

/-- Membership in `expand`. -/
theorem mem_expandR (equiv : RuneEquivs) (rs : List Rune) (exclude : List (List Rune))
    (x : Rune) :
    x ∈ expandR equiv rs exclude ↔
      ∃ r1 ∈ rs, ((exclude.any fun ex => ex.any fun r2 => isEquivR equiv r1 r2) = false ∧
        x ∈ lookupR equiv r1) := by
  unfold expandR
  rw [mem_sortRunes, mem_expandFold]
  simp

theorem nodup_expandR (equiv : RuneEquivs) (rs : List Rune) (exclude : List (List Rune)) :
    (expandR equiv rs exclude).Nodup := by
  unfold expandR
  exact (sortRunes_perm _).nodup_iff.mpr (nodup_expandFold equiv exclude rs [] List.nodup_nil)

/-- Self-membership in a class. -/
theorem self_mem_lookup (flags : List Flag) (r : Rune) :
    r ∈ lookupR (makeEquivalents flags) r :=
  (mem_lookup_makeEquivalents flags r r).mpr Relation.ReflTransGen.refl

end Fastmatch

namespace Fastmatch

/-- **C7.** For every flag list, the relation `isEquiv` computed by
`makeEquivalents` is reflexive (every rune is equivalent to itself),
symmetric, and transitive: it is exactly the reflexive-transitive closure
of the seed relation declared by the `Insensitive` case pairs and the
`Equivalent` cliques. -/
theorem c7_isEquiv_equivalence (flags : List Flag) (a b c : Rune) :
    isEquivR (makeEquivalents flags) a a = true ∧
    (isEquivR (makeEquivalents flags) a b = true →
      isEquivR (makeEquivalents flags) b a = true) ∧
    (isEquivR (makeEquivalents flags) a b = true →
      isEquivR (makeEquivalents flags) b c = true →
      isEquivR (makeEquivalents flags) a c = true) := by
  refine ⟨?_, ?_, ?_⟩
  · exact (isEquivR_makeEquivalents flags a a).mpr Relation.ReflTransGen.refl
  · intro h
    exact (isEquivR_makeEquivalents flags b a).mpr
      (reach_seedMap_symm flags a b ((isEquivR_makeEquivalents flags a b).mp h))
  · intro h1 h2
    exact (isEquivR_makeEquivalents flags a c).mpr
      (((isEquivR_makeEquivalents flags a b).mp h1).trans
        ((isEquivR_makeEquivalents flags b c).mp h2))

/-- Witness for C7 at a concrete instance: `Equivalent('a','b')` and
`Equivalent('b','c')` chain transitively from `'a'` to `'c'`. -/
theorem c7_isEquiv_equivalence_witness :
    isEquivR (makeEquivalents [Flag.equivalent [97, 98], Flag.equivalent [98, 99]]) 97 97 = true ∧
    isEquivR (makeEquivalents [Flag.equivalent [97, 98], Flag.equivalent [98, 99]]) 98 97 = true ∧
    isEquivR (makeEquivalents [Flag.equivalent [97, 98], Flag.equivalent [98, 99]]) 97 99 = true :=
  ⟨(c7_isEquiv_equivalence [Flag.equivalent [97, 98], Flag.equivalent [98, 99]] 97 98 99).1,
   (c7_isEquiv_equivalence [Flag.equivalent [97, 98], Flag.equivalent [98, 99]] 97 98 99).2.1
     (by decide),
   (c7_isEquiv_equivalence [Flag.equivalent [97, 98], Flag.equivalent [98, 99]] 97 98 99).2.2
     (by decide) (by decide)⟩

/-- **C8.** For every rune-equivalence relation produced by
`makeEquivalents` and every rune slice `rs`, `expand` is idempotent, and
`expand(rs, exclude)` contains no code point equivalent to any member of
any exclusion list. -/
theorem c8_expand_idempotent (flags : List Flag) (rs : List Rune)
    (exclude : List (List Rune)) :
    expandR (makeEquivalents flags) (expandR (makeEquivalents flags) rs []) [] =
      expandR (makeEquivalents flags) rs [] ∧
    (∀ c ∈ expandR (makeEquivalents flags) rs exclude, ∀ ex ∈ exclude, ∀ r2 ∈ ex,
      isEquivR (makeEquivalents flags) c r2 = false) := by
  constructor
  · unfold expandR
    apply sortRunes_eq_of_mem_iff
    · exact nodup_expandFold _ [] _ [] List.nodup_nil
    · exact nodup_expandFold _ [] _ [] List.nodup_nil
    · intro x
      rw [mem_expandFold, mem_expandFold]
      constructor
      · rintro (h | ⟨r1, hr1, -, hx⟩)
        · simp at h
        · rw [mem_sortRunes, mem_expandFold] at hr1
          rcases hr1 with h | ⟨r0, hr0, -, hlk⟩
          · simp at h
          · exact Or.inr ⟨r0, hr0, rfl, (lookup_class_eq flags r0 r1 hlk x).mp hx⟩
      · rintro (h | ⟨r0, hr0, -, hx⟩)
        · simp at h
        · refine Or.inr ⟨r0, ?_, rfl, hx⟩
          rw [mem_sortRunes, mem_expandFold]
          exact Or.inr ⟨r0, hr0, rfl, self_mem_lookup flags r0⟩
  · intro c hc ex hex r2 hr2
    rw [mem_expandR] at hc
    obtain ⟨r1, hr1, hcond, hlk⟩ := hc
    by_contra hne
    rw [Bool.not_eq_false] at hne
    have hreach1 : Reach (seedMap flags) r1 c :=
      (mem_lookup_makeEquivalents flags r1 c).mp hlk
    have hreach2 : Reach (seedMap flags) c r2 :=
      (isEquivR_makeEquivalents flags c r2).mp hne
    have : isEquivR (makeEquivalents flags) r1 r2 = true :=
      (isEquivR_makeEquivalents flags r1 r2).mpr (hreach1.trans hreach2)
    have : (exclude.any fun ex => ex.any fun r0 => isEquivR (makeEquivalents flags) r1 r0)
        = true := by
      rw [List.any_eq_true]
      exact ⟨ex, hex, by rw [List.any_eq_true]; exact ⟨r2, hr2, this⟩⟩
    rw [hcond] at this
    simp at this

/-- Witness for C8 at a concrete instance. -/
theorem c8_expand_idempotent_witness :
    (97 : Rune) ∈ expandR (makeEquivalents [Flag.equivalent [97, 98]]) [98, 100] [[101]] ∧
    isEquivR (makeEquivalents [Flag.equivalent [97, 98]]) 97 101 = false :=
  ⟨by decide,
   (c8_expand_idempotent [Flag.equivalent [97, 98]] [98, 100] [[101]]).2 97 (by decide)
     [101] (by decide) 101 (by decide)⟩

end Fastmatch

namespace Fastmatch

/-! ## Strings as byte lists: UTF-8 (Go `for range` / `string([]rune)`)

The mangling loop of `Generate` iterates a key's runes
(`for _, r1 := range key`) while the state machine indexes bytes; both
views are modelled explicitly.  Decoding follows Go: an invalid sequence
yields U+FFFD and consumes one byte. -/

/-- Decode one rune from the head of a byte list, returning the rune and
the number of bytes consumed. -/
def utf8DecodeOne : List Nat → Nat × Nat
  | [] => (0xFFFD, 1)
  | b0 :: rest =>
    if b0 < 0x80 then (b0, 1)
    else if 0xC2 ≤ b0 ∧ b0 ≤ 0xDF then
      match rest with
      | b1 :: _ =>
        if 0x80 ≤ b1 ∧ b1 ≤ 0xBF then ((b0 % 0x20) * 64 + b1 % 0x40, 2)
        else (0xFFFD, 1)
      | [] => (0xFFFD, 1)
    else if 0xE0 ≤ b0 ∧ b0 ≤ 0xEF then
      match rest with
      | b1 :: b2 :: _ =>
        if (if b0 = 0xE0 then 0xA0 else 0x80) ≤ b1 ∧ b1 ≤ (if b0 = 0xED then 0x9F else 0xBF) ∧
            0x80 ≤ b2 ∧ b2 ≤ 0xBF then
          ((b0 % 0x10) * 4096 + (b1 % 0x40) * 64 + b2 % 0x40, 3)
        else (0xFFFD, 1)
      | _ => (0xFFFD, 1)
    else if 0xF0 ≤ b0 ∧ b0 ≤ 0xF4 then
      match rest with
      | b1 :: b2 :: b3 :: _ =>
        if (if b0 = 0xF0 then 0x90 else 0x80) ≤ b1 ∧ b1 ≤ (if b0 = 0xF4 then 0x8F else 0xBF) ∧
            0x80 ≤ b2 ∧ b2 ≤ 0xBF ∧ 0x80 ≤ b3 ∧ b3 ≤ 0xBF then
          ((b0 % 8) * 262144 + (b1 % 0x40) * 4096 + (b2 % 0x40) * 64 + b3 % 0x40, 4)
        else (0xFFFD, 1)
      | _ => (0xFFFD, 1)
    else (0xFFFD, 1)

/-- Decode a whole byte list.  Every step consumes at least one byte, so
fuel equal to the byte count always suffices (the `0` case is never
reached from `utf8Decode`). -/
def utf8DecodeAux : Nat → List Nat → List Rune
  | 0, _ => []
  | _, [] => []
  | fuel + 1, b0 :: bs =>
    let rn := utf8DecodeOne (b0 :: bs)
    rn.1 :: utf8DecodeAux fuel ((b0 :: bs).drop rn.2)

/-- `[]rune(s)` / `for range s`. -/
def utf8Decode (s : GoStr) : List Rune := utf8DecodeAux s.length s

/-- Encode one rune (Go `utf8.EncodeRune`; surrogates and out-of-range
runes become U+FFFD). -/
def utf8EncodeRune (r : Rune) : List Nat :=
  if r < 0x80 then [r]
  else if r < 0x800 then [0xC0 + r / 64, 0x80 + r % 64]
  else if (0xD800 ≤ r ∧ r ≤ 0xDFFF) ∨ 0x10FFFF < r then [0xEF, 0xBF, 0xBD]
  else if r < 0x10000 then [0xE0 + r / 4096, 0x80 + (r / 64) % 64, 0x80 + r % 64]
  else [0xF0 + r / 262144, 0x80 + (r / 4096) % 64, 0x80 + (r / 64) % 64, 0x80 + r % 64]

/-- `string(rs)` for a rune slice. -/
def utf8Encode (rs : List Rune) : GoStr :=
  rs.foldr (fun r acc => utf8EncodeRune r ++ acc) []

/-- `reverseString` (`generate.go` snapshot in part_005:451-457): convert
to runes, reverse, convert back. -/
def reverseString (s : GoStr) : GoStr :=
  utf8Encode (utf8Decode s).reverse

/-! ## Key mangling (`Generate`, part_005:559-586) -/

/-- The `mangleKey` loop of `Generate`, on the decoded rune sequence:
stop runes truncate, `ignoreExcept` (when non-empty) keeps only its
members, otherwise `ignore` members are skipped. -/
def mangleRunes (stop ignore ignoreExcept : List Rune) : List Rune → List Rune
  | [] => []
  | r1 :: rest =>
    if r1 ∈ stop then []
    else if 0 < ignoreExcept.length then
      if r1 ∈ ignoreExcept then r1 :: mangleRunes stop ignore ignoreExcept rest
      else mangleRunes stop ignore ignoreExcept rest
    else if r1 ∈ ignore then mangleRunes stop ignore ignoreExcept rest
    else r1 :: mangleRunes stop ignore ignoreExcept rest

/-- The mangled key as built by `Generate`: decode the (already reversed,
if backwards) key, run the mangling scan, re-encode. -/
def mangleKey (stop ignore ignoreExcept : List Rune) (key : GoStr) : GoStr :=
  utf8Encode (mangleRunes stop ignore ignoreExcept (utf8Decode key))

/-- Modelled from the spec (§4.C, the claim's wording): scan left to
right; truncate at the first code point in the stop set; else skip when
`ignoreExcept` is non-empty and does not contain the code point; else
skip when `ignore` contains it; else append. -/
def specMangleScan (stop ignore ignoreExcept : List Rune) : List Rune → List Rune
  | [] => []
  | r :: rest =>
    if r ∈ stop then []
    else if ignoreExcept ≠ [] ∧ r ∉ ignoreExcept then
      specMangleScan stop ignore ignoreExcept rest
    else if r ∈ ignore then specMangleScan stop ignore ignoreExcept rest
    else r :: specMangleScan stop ignore ignoreExcept rest

/-- **C6.** For every key and flag set with non-empty stop, ignore, or
ignore-except vectors (`Generate` rejects `Ignore` combined with
`IgnoreExcept`, so at most one of the two is non-empty), the mangling
scan of `Generate` is exactly the spec's scan: truncate at the first
stop rune, keep only `ignoreExcept` members when that vector is
non-empty, else drop `ignore` members, else append. -/
theorem c6_mangle_scan (stop ignore ignoreExcept : List Rune) (key : List Rune)
    (h : ignore = [] ∨ ignoreExcept = []) :
    mangleRunes stop ignore ignoreExcept key = specMangleScan stop ignore ignoreExcept key := by
  induction key with
  | nil => rfl
  | cons r rest ih =>
    rw [mangleRunes, specMangleScan]
    by_cases hstop : r ∈ stop
    · rw [if_pos hstop, if_pos hstop]
    · rw [if_neg hstop, if_neg hstop]
      by_cases hie : 0 < ignoreExcept.length
      · have hne : ignoreExcept ≠ [] := by
          intro hh
          rw [hh] at hie
          simp at hie
        have hig : ignore = [] := h.resolve_right hne
        subst hig
        rw [if_pos hie]
        by_cases hmem : r ∈ ignoreExcept
        · rw [if_pos hmem, if_neg (fun hh => hh.2 hmem), if_neg (List.not_mem_nil r), ih]
        · rw [if_neg hmem, if_pos ⟨hne, hmem⟩, ih]
      · have hee : ignoreExcept = [] := by
          cases ignoreExcept with
          | nil => rfl
          | cons a l => simp at hie
        subst hee
        rw [if_neg hie, if_neg (fun hh : ¬([] = []) ∧ r ∉ ([] : List Rune) => hh.1 rfl)]
        by_cases hig : r ∈ ignore
        · rw [if_pos hig, if_pos hig, ih]
        · rw [if_neg hig, if_neg hig, ih]

/-- Witness for C6 at a concrete instance: `StopUpon('.')` with
`Ignore('-')` on the key `"a-b.c"`. -/
theorem c6_mangle_scan_witness :
    ([] : List Rune) = [] ∧
    mangleRunes [46] [45] [] [97, 45, 98, 46, 99] =
      specMangleScan [46] [45] [] [97, 45, 98, 46, 99] :=
  ⟨rfl, c6_mangle_scan [46] [45] [] [97, 45, 98, 46, 99] (Or.inr rfl)⟩

end Fastmatch

namespace Fastmatch

/-! ## The per-length state machine (`part_006`, newest snapshot)

`stateMachine` with its `continued` chain is modelled as `SM` (one
machine) plus the chain type `StateMachine`.  `uint64` arithmetic wraps
modulo `2^64` exactly where Go's can (`sub64` mirrors the wrapping
subtraction in the overflow test); a Go `panic` is an `Except.error`. -/

/-- `2^64`. -/
def U64MOD : Nat := 18446744073709551616

/-- `math.MaxUint64`, the default weight ceiling (`maxState` variable,
part_006:38). -/
def maxUint64 : Nat := U64MOD - 1

/-- Wrapping `uint64` subtraction `a - b` (both `< 2^64`). -/
def sub64 (a b : Nat) : Nat := (a + U64MOD - b % U64MOD) % U64MOD

/-- A Go `panic`. -/
inductive GoPanic : Type where
  | msg (s : String) : GoPanic
deriving DecidableEq

/-- One machine of the chain (`stateMachine`, part_006:42-52; the
`continued` pointer lives in `StateMachine` below). -/
structure SM : Type where
  next : Nat
  base : Nat
  final : List (GoStr × List Nat)
  possible : List (List Rune)
  changes : List (List (Rune × Nat))
  noMore : List (List (Rune × List GoStr))
  offset : Nat
  collapsed : List (String × Nat)
deriving DecidableEq

/-- A chain of state machines: `last m` is a machine with
`continued == nil`. -/
inductive StateMachine : Type where
  | last (m : SM) : StateMachine
  | chain (m : SM) (continued : StateMachine) : StateMachine
deriving DecidableEq

/-- The head machine of a chain. -/
def StateMachine.head : StateMachine → SM
  | .last m => m
  | .chain m _ => m

/-- `newStateMachine` (part_006:67-77). -/
def newStateMachine (keys : List GoStr) : SM :=
  { next := 1, base := 1,
    final := keys.foldl (fun f k => alSet f k []) [],
    possible := [], changes := [], noMore := [], offset := 0, collapsed := [] }

/-- The `longestKey` computation of `indexKeys` (part_006:144-151). -/
def longestKeyOf (keys : List GoStr) : Nat :=
  keys.foldl (fun acc k => max acc k.length) 0

/-- Lowercase hex rendering (`fmt.Sprintf("0x%x", v)` without the prefix). -/
def toHex (n : Nat) : String :=
  String.mk (Nat.toDigits 16 n)

/-- `finalString` of a weight list (part_006:259-275): the non-zero
weights as a `+`-joined hex sum, or `"0"`. -/
def finalStringOf (vals : List Nat) : String :=
  let parts := (vals.filter (fun v => v ≠ 0)).map (fun v => "0x" ++ toHex v)
  if parts.isEmpty then "0" else String.intercalate " + " parts

/-- `stateMachine.finalString` (part_006:259). -/
def SM.finalString (m : SM) (key : GoStr) : String :=
  finalStringOf (alGetD m.final key [])

/-- `stateMachine.finalState` (part_006:249-254): the `uint64` weight
sum, wrapping modulo `2^64`. -/
def SM.finalState (m : SM) (key : GoStr) : Nat :=
  ((alGetD m.final key []).foldl (· + ·) 0) % U64MOD

/-- The key-scan of the rune loop (part_006:172-181): append `next` to
every key whose byte at `realOffset` is equivalent to `r` (skipping, under
partial matching, keys that end at or before this position); report
whether any key matched. -/
def appendFinalForRune (equiv : RuneEquivs) (partM : Bool) (keys : List GoStr)
    (realOffset : Nat) (r : Rune) (next : Nat) (final : List (GoStr × List Nat)) :
    List (GoStr × List Nat) × Bool :=
  keys.foldl (fun acc key =>
    if partM ∧ realOffset + 1 ≥ key.length then acc
    else if isEquivR equiv (key.getD realOffset 0) r then
      (alSet acc.1 key (alGetD acc.1 key [] ++ [next]), true)
    else acc) (final, false)

/-- Mutable state of the inner rune loop. -/
structure RLState : Type where
  final : List (GoStr × List Nat)
  chOff : List (Rune × Nat)
  next : Nat
  base : Nat
  needShift : Bool
deriving DecidableEq

/-- The rune loop of `indexKeys` (part_006:171-192).  The returned flag
reports that the overflow test `state.base > maxState-state.next` fired
(upon which Go chains to a new machine; `final` already carries this
position's partial appends, exactly as in Go before truncation). -/
def runeLoop (equiv : RuneEquivs) (partM : Bool) (maxState : Nat) (keys : List GoStr)
    (realOffset : Nat) : List Rune → RLState → RLState × Bool
  | [], st => (st, false)
  | r :: rest, st =>
    let fn := appendFinalForRune equiv partM keys realOffset r st.next st.final
    if fn.2 then
      if st.base > sub64 maxState st.next then
        ({ st with final := fn.1 }, true)
      else
        runeLoop equiv partM maxState keys realOffset rest
          { final := fn.1, chOff := alSet st.chOff r st.next,
            next := (st.next + st.base) % U64MOD, base := st.base, needShift := true }
    else
      runeLoop equiv partM maxState keys realOffset rest { st with final := fn.1 }

/-- The `noMore` recording for one position (part_006:204-213). -/
def buildNoMore (equiv : RuneEquivs) (keys : List GoStr) (realOffset : Nat)
    (u : List Rune) : List (Rune × List GoStr) :=
  u.foldl (fun acc r =>
    let ks := keys.foldl (fun ks key =>
      if key.length = realOffset + 1 ∧ isEquivR equiv (key.getD realOffset 0) r then
        ks ++ [key]
      else ks) []
    if ks.isEmpty then acc else acc ++ [(r, ks)]) []

/-- Result of the position loop: finished, or overflow at `realOffset`. -/
inductive PosResult : Type where
  | done (m : SM) : PosResult
  | over (m : SM) (realOffset : Nat) : PosResult
deriving DecidableEq

/-- The position loop of `indexKeys` (part_006:157-214), also carrying
`needShift`.  Per-position slices (`possible`, `changes`, `noMore`) are
appended rather than written into pre-allocated arrays; on overflow the
current position's partial `possible`/`changes` entries are appended and
are dropped again by `makeNext`'s truncation, as in Go. -/
def positionsLoop (equiv : RuneEquivs) (partM : Bool) (maxState : Nat) (keys : List GoStr) :
    List Nat → SM → Bool → PosResult
  | [], m, _ => .done m
  | realOffset :: rest, m, needShift =>
    let u := uniqueAtOffset equiv keys realOffset
    if 1 < u.length then
      let base1 := if needShift then m.next else m.base
      let ns1 := if needShift then false else needShift
      let rl := runeLoop equiv partM maxState keys realOffset u
        ⟨m.final, [], m.next, base1, ns1⟩
      if rl.2 then
        .over { m with
                final := rl.1.final, next := rl.1.next, base := rl.1.base,
                possible := m.possible ++ [u], changes := m.changes ++ [rl.1.chOff] }
          realOffset
      else
        positionsLoop equiv partM maxState keys rest
          { m with
            final := rl.1.final, next := rl.1.next, base := rl.1.base,
            possible := m.possible ++ [u], changes := m.changes ++ [rl.1.chOff],
            noMore := m.noMore ++ [if partM then buildNoMore equiv keys realOffset u else []] }
          rl.1.needShift
    else
      let final' := keys.foldl (fun f k => alSet f k (alGetD f k [] ++ [0])) m.final
      positionsLoop equiv partM maxState keys rest
        { m with
          final := final',
          possible := m.possible ++ [u], changes := m.changes ++ [[]],
          noMore := m.noMore ++ [if partM then buildNoMore equiv keys realOffset u else []] }
        needShift

/-- The key collection of `foreachNoMore` (part_006:56-64), as the set of
finished keys used by `makeNextStateMachine`. -/
def finishedOf (noMore : List (List (Rune × List GoStr))) : List GoStr :=
  noMore.foldl (fun acc posMap =>
    posMap.foldl (fun acc2 p => p.2.foldl setAdd acc2) acc) []

/-- `stateMachine.makeNextStateMachine` (part_006:81-138): truncate the
current machine at the chain boundary, collapse each unfinished key's
truncated final-state expression to a fresh small weight, and seed the
successor.  Chaining without having consumed a position panics. -/
def makeNext (m : SM) (realOffset : Nat) : Except GoPanic (SM × SM) :=
  let offset := realOffset - m.offset
  if offset < 1 then .error (.msg "maxState too small")
  else
    let noMore' := m.noMore.take offset
    let finished := finishedOf noMore'
    let res := m.final.foldl (fun acc p =>
      if finished.contains p.1 then
        (acc.1 ++ [p], acc.2.1, acc.2.2.1, acc.2.2.2)
      else
        let vals' := if m.offset = 0 then p.2.take offset else p.2.take (offset + 1)
        let before := finalStringOf vals'
        let after0 := alGetD acc.2.2.1 before 0
        if after0 = 0 then
          (acc.1 ++ [(p.1, vals')], acc.2.1 + 1, alSet acc.2.2.1 before acc.2.1,
            acc.2.2.2 ++ [(p.1, [acc.2.1])])
        else
          (acc.1 ++ [(p.1, vals')], acc.2.1, acc.2.2.1, acc.2.2.2 ++ [(p.1, [after0])]))
      (([] : List (GoStr × List Nat)), 1, ([] : List (String × Nat)),
        ([] : List (GoStr × List Nat)))
    .ok ({ m with
           possible := m.possible.take offset, changes := m.changes.take offset,
           noMore := noMore', final := res.1 },
         { next := res.2.1, base := res.2.1, final := res.2.2.2, possible := [],
           changes := [], noMore := [], offset := realOffset, collapsed := res.2.2.1 })

/-- The chain recursion of `indexKeys` (part_006:143-215 with the
recursive call at 185): process this machine's positions; on overflow,
build the successor and index it in turn.  Each chain step strictly
increases `offset` below the unchanged longest key length, so the fuel
`longestKeyOf keys + 1` supplied by `indexKeysGo` never runs out
(`indexChain_no_fuel_panic` below). -/
def indexChain (equiv : RuneEquivs) (partM : Bool) (maxState : Nat) :
    Nat → SM → Except GoPanic StateMachine
  | fuel, m =>
    let keys := alKeys m.final
    let longest := longestKeyOf keys
    match positionsLoop equiv partM maxState keys
        (List.range' m.offset (longest - m.offset)) m true with
    | .done m' => .ok (.last m')
    | .over m' realOffset =>
      match makeNext m' realOffset with
      | .error p => .error p
      | .ok (head, succ) =>
        match fuel with
        | 0 => .error (.msg "unreachable: chain fuel exhausted")
        | fuel' + 1 =>
          match indexChain equiv partM maxState fuel' succ with
          | .error p => .error p
          | .ok tail => .ok (.chain head tail)

/-- `stateMachine.indexKeys` (part_006:143-215). -/
def indexKeysGo (equiv : RuneEquivs) (partM : Bool) (maxState : Nat) (m : SM) :
    Except GoPanic StateMachine :=
  indexChain equiv partM maxState (longestKeyOf (alKeys m.final) + 1) m

end Fastmatch

namespace Fastmatch

theorem alMem_alSet {K V : Type} [DecidableEq K] (l : List (K × V)) (k k' : K) (v : V) :
    alMem (alSet l k v) k' = true ↔ (alMem l k' = true ∨ k' = k) := by
  unfold alMem
  by_cases h : k = k'
  · subst h
    rw [alGet?_alSet_self]
    constructor
    · intro hh
      exact Or.inr rfl
    · intro hh
      rfl
  · rw [alGet?_alSet_ne l k k' v h]
    constructor
    · exact Or.inl
    · intro hh
      rcases hh with hh | hh
      · exact hh
      · exact absurd hh.symm h

theorem foldl_max_init_le (K : List GoStr) (init : Nat) :
    init ≤ K.foldl (fun acc k => max acc k.length) init := by
  induction K generalizing init with
  | nil => simp
  | cons b r ih => exact le_trans (le_max_left _ _) (ih _)

theorem foldl_max_mono (K : List GoStr) (i1 i2 : Nat) (h : i1 ≤ i2) :
    K.foldl (fun acc k => max acc k.length) i1 ≤
      K.foldl (fun acc k => max acc k.length) i2 := by
  induction K generalizing i1 i2 with
  | nil => simpa
  | cons b r ih =>
    rw [List.foldl_cons, List.foldl_cons]
    exact ih _ _ (max_le_max h (le_refl _))

theorem longestKeyOf_mem (K : List GoStr) (k : GoStr) (h : k ∈ K) :
    k.length ≤ longestKeyOf K := by
  unfold longestKeyOf
  induction K with
  | nil => simp at h
  | cons a rest ih =>
    rw [List.foldl_cons]
    rcases List.mem_cons.mp h with rfl | h
    · exact le_trans (le_max_right 0 k.length) (foldl_max_init_le rest _)
    · exact le_trans (ih h) (foldl_max_mono rest 0 _ (Nat.zero_le _))

theorem foldl_max_le (K : List GoStr) : ∀ (n : Nat), (∀ k ∈ K, k.length ≤ n) →
    ∀ init, init ≤ n → K.foldl (fun acc k => max acc k.length) init ≤ n := by
  induction K with
  | nil =>
    intro n h init hi
    simpa using hi
  | cons a rest ih =>
    intro n h init hi
    rw [List.foldl_cons]
    exact ih n (fun k hk => h k (List.mem_cons_of_mem a hk)) _
      (max_le hi (h a (List.mem_cons_self a rest)))

theorem longestKeyOf_le (K : List GoStr) (n : Nat) (h : ∀ k ∈ K, k.length ≤ n) :
    longestKeyOf K ≤ n :=
  foldl_max_le K n h 0 (Nat.zero_le n)

/-- Keys touched by `appendFinalForRune` come from `final` or `keys`. -/
theorem appendFinalForRune_keys (equiv : RuneEquivs) (partM : Bool) (keys : List GoStr)
    (realOffset : Nat) (r : Rune) (next : Nat) (final : List (GoStr × List Nat)) (k : GoStr)
    (h : alMem (appendFinalForRune equiv partM keys realOffset r next final).1 k = true) :
    alMem final k = true ∨ k ∈ keys := by
  unfold appendFinalForRune at h
  -- generalized fold induction
  suffices H : ∀ (ks : List GoStr) (acc : List (GoStr × List Nat) × Bool),
      alMem (ks.foldl (fun acc key =>
        if partM ∧ realOffset + 1 ≥ key.length then acc
        else if isEquivR equiv (key.getD realOffset 0) r then
          (alSet acc.1 key (alGetD acc.1 key [] ++ [next]), true)
        else acc) acc).1 k = true →
      alMem acc.1 k = true ∨ k ∈ ks by
    rcases H keys (final, false) h with hh | hh
    · exact Or.inl hh
    · exact Or.inr hh
  intro ks
  induction ks with
  | nil => intro acc hh; exact Or.inl hh
  | cons key rest ih =>
    intro acc hh
    rw [List.foldl_cons] at hh
    by_cases h1 : partM ∧ realOffset + 1 ≥ key.length
    · rw [if_pos h1] at hh
      rcases ih acc hh with h2 | h2
      · exact Or.inl h2
      · exact Or.inr (List.mem_cons_of_mem key h2)
    · rw [if_neg h1] at hh
      by_cases h2 : isEquivR equiv (key.getD realOffset 0) r = true
      · rw [if_pos h2] at hh
        rcases ih _ hh with h3 | h3
        · rcases (alMem_alSet acc.1 key k _).mp h3 with h4 | rfl
          · exact Or.inl h4
          · exact Or.inr (List.mem_cons_self k rest)
        · exact Or.inr (List.mem_cons_of_mem key h3)
      · rw [if_neg h2] at hh
        rcases ih acc hh with h3 | h3
        · exact Or.inl h3
        · exact Or.inr (List.mem_cons_of_mem key h3)

/-- Keys touched by the rune loop come from the incoming `final` or `keys`. -/
theorem runeLoop_keys (equiv : RuneEquivs) (partM : Bool) (maxState : Nat) (keys : List GoStr)
    (realOffset : Nat) (u : List Rune) (st : RLState) (k : GoStr)
    (h : alMem (runeLoop equiv partM maxState keys realOffset u st).1.final k = true) :
    alMem st.final k = true ∨ k ∈ keys := by
  induction u generalizing st with
  | nil => exact Or.inl h
  | cons r rest ih =>
    rw [runeLoop] at h
    by_cases h1 : (appendFinalForRune equiv partM keys realOffset r st.next st.final).2 = true
    · rw [if_pos h1] at h
      by_cases h2 : st.base > sub64 maxState st.next
      · rw [if_pos h2] at h
        exact appendFinalForRune_keys equiv partM keys realOffset r st.next st.final k h
      · rw [if_neg h2] at h
        rcases ih _ h with h3 | h3
        · exact appendFinalForRune_keys equiv partM keys realOffset r st.next st.final k h3
        · exact Or.inr h3
    · rw [if_neg h1] at h
      rcases ih _ h with h3 | h3
      · exact appendFinalForRune_keys equiv partM keys realOffset r st.next st.final k h3
      · exact Or.inr h3

/-- Keys in a machine produced by the position loop come from the incoming
machine or from `keys`; the loop also never changes `offset`, and an
overflow position lies in the supplied position list. -/
theorem positionsLoop_inv (equiv : RuneEquivs) (partM : Bool) (maxState : Nat)
    (keys : List GoStr) (positions : List Nat) (m : SM) (needShift : Bool) :
    (∀ m' ro, positionsLoop equiv partM maxState keys positions m needShift = .over m' ro →
      (ro ∈ positions ∧ m'.offset = m.offset ∧
        ∀ k, alMem m'.final k = true → alMem m.final k = true ∨ k ∈ keys)) ∧
    (∀ m', positionsLoop equiv partM maxState keys positions m needShift = .done m' →
      (m'.offset = m.offset ∧
        ∀ k, alMem m'.final k = true → alMem m.final k = true ∨ k ∈ keys)) := by
  induction positions generalizing m needShift with
  | nil =>
    constructor
    · intro m' ro h
      simp [positionsLoop] at h
    · intro m' h
      rw [positionsLoop] at h
      cases h
      exact ⟨rfl, fun k hk => Or.inl hk⟩
  | cons realOffset rest ih =>
    have step : ∀ (m2 : SM) (ns2 : Bool), m2.offset = m.offset →
        (∀ k, alMem m2.final k = true → alMem m.final k = true ∨ k ∈ keys) →
        (∀ m' ro, positionsLoop equiv partM maxState keys rest m2 ns2 = .over m' ro →
          (ro ∈ realOffset :: rest ∧ m'.offset = m.offset ∧
            ∀ k, alMem m'.final k = true → alMem m.final k = true ∨ k ∈ keys)) ∧
        (∀ m', positionsLoop equiv partM maxState keys rest m2 ns2 = .done m' →
          (m'.offset = m.offset ∧
            ∀ k, alMem m'.final k = true → alMem m.final k = true ∨ k ∈ keys)) := by
      intro m2 ns2 hoff hsub
      obtain ⟨iho, ihd⟩ := ih m2 ns2
      constructor
      · intro m' ro h
        obtain ⟨h1, h2, h3⟩ := iho m' ro h
        refine ⟨List.mem_cons_of_mem _ h1, h2.trans hoff, fun k hk => ?_⟩
        rcases h3 k hk with hh | hh
        · exact hsub k hh
        · exact Or.inr hh
      · intro m' h
        obtain ⟨h2, h3⟩ := ihd m' h
        refine ⟨h2.trans hoff, fun k hk => ?_⟩
        rcases h3 k hk with hh | hh
        · exact hsub k hh
        · exact Or.inr hh
    rw [positionsLoop]
    by_cases hu : 1 < (uniqueAtOffset equiv keys realOffset).length
    · rw [if_pos hu]
      by_cases hovf : (runeLoop equiv partM maxState keys realOffset
          (uniqueAtOffset equiv keys realOffset)
          ⟨m.final, [], m.next, if needShift then m.next else m.base,
            if needShift then false else needShift⟩).2 = true
      · rw [if_pos hovf]
        constructor
        · intro m' ro h
          cases h
          refine ⟨List.mem_cons_self _ _, rfl, fun k hk => ?_⟩
          simp only at hk
          exact runeLoop_keys equiv partM maxState keys realOffset _ _ k hk
        · intro m' h
          cases h
      · rw [if_neg hovf]
        apply step
        · rfl
        · intro k hk
          simp only at hk
          exact runeLoop_keys equiv partM maxState keys realOffset _ _ k hk
    · rw [if_neg hu]
      apply step
      · rfl
      · intro k hk
        simp only at hk
        -- the zero-append fold
        suffices H : ∀ (ks : List GoStr) (f : List (GoStr × List Nat)),
            alMem (ks.foldl (fun f k2 => alSet f k2 (alGetD f k2 [] ++ [0])) f) k = true →
            alMem f k = true ∨ k ∈ ks by
          rcases H keys m.final hk with hh | hh
          · exact Or.inl hh
          · exact Or.inr hh
        intro ks
        induction ks with
        | nil => intro f hf; exact Or.inl hf
        | cons key r2 ih2 =>
          intro f hf
          rw [List.foldl_cons] at hf
          rcases ih2 _ hf with h3 | h3
          · rcases (alMem_alSet f key k _).mp h3 with h4 | rfl
            · exact Or.inl h4
            · exact Or.inr (List.mem_cons_self k r2)
          · exact Or.inr (List.mem_cons_of_mem key h3)

end Fastmatch

namespace Fastmatch

theorem alMem_append_single {K V : Type} [DecidableEq K] (l : List (K × V)) (k0 k : K) (v : V) :
    alMem (l ++ [(k0, v)]) k = true ↔ (alMem l k = true ∨ k = k0) := by
  induction l with
  | nil =>
    simp only [List.nil_append, alMem, alGet?]
    by_cases h : k0 = k
    · subst h
      simp
    · rw [if_neg h]
      simp [alGet?]
      exact fun hh => h hh.symm
  | cons p rest ih =>
    obtain ⟨k', v'⟩ := p
    by_cases h : k' = k
    · simp [alMem, alGet?, h]
    · simp only [List.cons_append, alMem, alGet?, if_neg h]
      exact ih

theorem alMem_of_entry {K V : Type} [DecidableEq K] (l : List (K × V)) (p : K × V)
    (h : p ∈ l) : alMem l p.1 = true := by
  induction l with
  | nil => simp at h
  | cons q rest ih =>
    rcases List.mem_cons.mp h with rfl | h2
    · simp [alMem, alGet?]
    · obtain ⟨k', v'⟩ := q
      by_cases hk : k' = p.1
      · simp [alMem, alGet?, hk]
      · simp only [alMem, alGet?, if_neg hk]
        exact ih h2

/-- The only panic `makeNextStateMachine` can raise. -/
theorem makeNext_err (m : SM) (realOffset : Nat) (p : GoPanic)
    (h : makeNext m realOffset = .error p) : p = .msg "maxState too small" := by
  unfold makeNext at h
  by_cases hlt : realOffset - m.offset < 1
  · rw [if_pos hlt] at h
    cases h
    rfl
  · rw [if_neg hlt] at h
    cases h

/-- Shape facts about a successful `makeNextStateMachine`: the successor
starts at the overflow position, at least one position was consumed, and
the successor's keys come from the current machine. -/
theorem makeNext_ok (m : SM) (realOffset : Nat) (head succ : SM)
    (h : makeNext m realOffset = .ok (head, succ)) :
    succ.offset = realOffset ∧ 1 ≤ realOffset - m.offset ∧
      (∀ k, alMem succ.final k = true → alMem m.final k = true) := by
  unfold makeNext at h
  by_cases hlt : realOffset - m.offset < 1
  · rw [if_pos hlt] at h
    cases h
  · rw [if_neg hlt] at h
    simp only at h
    have hfold : ∀ (entries : List (GoStr × List Nat))
        (acc : List (GoStr × List Nat) × Nat × List (String × Nat) × List (GoStr × List Nat)),
        ∀ k, alMem (entries.foldl (fun acc p =>
          if (finishedOf (m.noMore.take (realOffset - m.offset))).contains p.1 then
            (acc.1 ++ [p], acc.2.1, acc.2.2.1, acc.2.2.2)
          else
            let vals' := if m.offset = 0 then p.2.take (realOffset - m.offset)
              else p.2.take (realOffset - m.offset + 1)
            let before := finalStringOf vals'
            let after0 := alGetD acc.2.2.1 before 0
            if after0 = 0 then
              (acc.1 ++ [(p.1, vals')], acc.2.1 + 1, alSet acc.2.2.1 before acc.2.1,
                acc.2.2.2 ++ [(p.1, [acc.2.1])])
            else
              (acc.1 ++ [(p.1, vals')], acc.2.1, acc.2.2.1, acc.2.2.2 ++ [(p.1, [after0])]))
          acc).2.2.2 k = true →
          alMem acc.2.2.2 k = true ∨ ∃ p ∈ entries, k = p.1 := by
      intro entries
      induction entries with
      | nil =>
        intro acc k hk
        exact Or.inl hk
      | cons q rest ih =>
        intro acc k hk
        rw [List.foldl_cons] at hk
        by_cases h1 : (finishedOf (m.noMore.take (realOffset - m.offset))).contains q.1 = true
        · rw [if_pos h1] at hk
          rcases ih _ k hk with hh | ⟨p, hp, rfl⟩
          · exact Or.inl hh
          · exact Or.inr ⟨p, List.mem_cons_of_mem q hp, rfl⟩
        · rw [if_neg h1] at hk
          simp only at hk
          by_cases h2 : alGetD acc.2.2.1 (finalStringOf (if m.offset = 0 then
              q.2.take (realOffset - m.offset) else q.2.take (realOffset - m.offset + 1))) 0 = 0
          · rw [if_pos h2] at hk
            rcases ih _ k hk with hh | ⟨p, hp, rfl⟩
            · simp only at hh
              rcases (alMem_append_single _ _ _ _).mp hh with hh | rfl
              · exact Or.inl hh
              · exact Or.inr ⟨q, List.mem_cons_self q rest, rfl⟩
            · exact Or.inr ⟨p, List.mem_cons_of_mem q hp, rfl⟩
          · rw [if_neg h2] at hk
            rcases ih _ k hk with hh | ⟨p, hp, rfl⟩
            · simp only at hh
              rcases (alMem_append_single _ _ _ _).mp hh with hh | rfl
              · exact Or.inl hh
              · exact Or.inr ⟨q, List.mem_cons_self q rest, rfl⟩
            · exact Or.inr ⟨p, List.mem_cons_of_mem q hp, rfl⟩
    cases h
    refine ⟨rfl, by omega, ?_⟩
    intro k hk
    simp only at hk
    rcases hfold m.final (([] : List (GoStr × List Nat)), 1, ([] : List (String × Nat)),
        ([] : List (GoStr × List Nat))) k hk with hh | ⟨p, hp, rfl⟩
    · simp [alMem, alGet?] at hh
    · exact alMem_of_entry m.final p hp

end Fastmatch

namespace Fastmatch

/-- The only error the chain construction can produce, given enough fuel,
is the `makeNextStateMachine` panic. -/
theorem indexChain_err (equiv : RuneEquivs) (partM : Bool) (maxState : Nat) :
    ∀ (fuel : Nat) (m : SM) (e : GoPanic),
      longestKeyOf (alKeys m.final) - m.offset < fuel →
      indexChain equiv partM maxState fuel m = .error e →
      e = .msg "maxState too small" := by
  intro fuel
  induction fuel with
  | zero =>
    intro m e hlt
    omega
  | succ f ih =>
    intro m e hlt herr
    rw [indexChain] at herr
    cases hpos : positionsLoop equiv partM maxState (alKeys m.final)
        (List.range' m.offset (longestKeyOf (alKeys m.final) - m.offset)) m true with
    | done m' =>
      simp only [hpos] at herr
      cases herr
    | over m' ro =>
      simp only [hpos] at herr
      cases hmn : makeNext m' ro with
      | error p =>
        simp only [hmn] at herr
        cases herr
        exact makeNext_err m' ro e hmn
      | ok pair =>
        obtain ⟨head, succ⟩ := pair
        simp only [hmn] at herr
        obtain ⟨hro, hoff, hsub⟩ :=
          ((positionsLoop_inv equiv partM maxState (alKeys m.final) _ m true).1 m' ro hpos)
        obtain ⟨hsoff, hge, hkeys⟩ := makeNext_ok m' ro head succ hmn
        have hrange := List.mem_range'_1.mp hro
        have hlong : longestKeyOf (alKeys succ.final) ≤ longestKeyOf (alKeys m.final) := by
          apply longestKeyOf_le
          intro k hk
          have h1 : alMem succ.final k = true := (alMem_iff_keys _ _).mpr hk
          have h2 := hkeys k h1
          rcases hsub k h2 with h3 | h3
          · exact longestKeyOf_mem _ k ((alMem_iff_keys _ _).mp h3)
          · exact longestKeyOf_mem _ k h3
        cases hrec : indexChain equiv partM maxState f succ with
        | error p =>
          simp only [hrec] at herr
          cases herr
          apply ih succ e _ hrec
          rw [hsoff]
          rw [hoff] at hge
          omega
        | ok tail =>
          simp only [hrec] at herr
          cases herr

/-- **C4 (amended).**  In the chained (newest) snapshot there is no
`ErrOverflow` value on this path at all: the only failure the index
construction can surface, for any key set and any weight ceiling, is the
`"maxState too small"` panic raised by `makeNextStateMachine` when
chaining is triggered before the current machine has consumed a position.
`Generate` calls `indexKeys` without recovering panics, so no Overflow
error value reaches the caller (only the older, non-chaining snapshot's
`increment` returned `ErrOverflow`). -/
theorem c4_overflow_panic (equiv : RuneEquivs) (partM : Bool) (maxState : Nat) (m : SM)
    (e : GoPanic) (h : indexKeysGo equiv partM maxState m = .error e) :
    e = .msg "maxState too small" := by
  apply indexChain_err equiv partM maxState _ m e _ h
  omega

/-- Witness for C4 at a concrete input: the bucket `{"a", "b"}` with the
weight ceiling lowered to 1 makes the overflow test fire at the machine's
own starting offset. -/
theorem c4_overflow_panic_witness :
    indexKeysGo (makeEquivalents []) false 1 (newStateMachine [[97], [98]]) =
      Except.error (GoPanic.msg "maxState too small") ∧
    GoPanic.msg "maxState too small" = GoPanic.msg "maxState too small" :=
  ⟨rfl, c4_overflow_panic (makeEquivalents []) false 1 (newStateMachine [[97], [98]])
    (GoPanic.msg "maxState too small") rfl⟩

/-- **C4 (counterexample).**  At the same concrete input, the claim as
stated fails: `Generate` does not surface an Overflow error value; the
construction aborts with the `"maxState too small"` panic (modelled as
the `Except.error` branch), which is not an error return at all in Go. -/
theorem c4_overflow_counterexample :
    indexKeysGo (makeEquivalents []) false 1 (newStateMachine [[97], [98]]) =
      Except.error (GoPanic.msg "maxState too small") := rfl

end Fastmatch

namespace Fastmatch

/-! Duplicate-freeness of every class list built by `makeEquivalents`
(the inner maps are sets in Go; the list model keeps them nodup). -/

/-- All entries of a deduped map are duplicate-free. -/
def AllNodup (e : DedupedEquiv) : Prop := ∀ a, (alGetD e a []).Nodup

theorem allNodup_nil : AllNodup [] := by
  intro a
  simp [alGetD, alGet?]

theorem alGetD_dedupSet_ne (e : DedupedEquiv) (r : Rune) (rs : List Rune) (a : Rune)
    (h : a ≠ r) : alGetD (dedupSet e r rs) a [] = alGetD e a [] := by
  unfold dedupSet
  rw [alGetD_alSet_ne _ r a _ (fun hh => h hh.symm)]
  by_cases hm : alMem e r = true
  · rw [if_pos hm]
  · rw [if_neg hm]
    unfold alGetD
    rw [alGet?_append]
    have hg2 : alGet? [(r, [r])] a = none := by
      rw [alGet?, if_neg (fun hh : r = a => h hh.symm)]
      rfl
    rw [hg2]
    cases alGet? e a <;> rfl

theorem alGetD_dedupSet_self (e : DedupedEquiv) (r : Rune) (rs : List Rune) :
    alGetD (dedupSet e r rs) r [] =
      setAddAll (if alMem e r = true then alGetD e r [] else [r]) rs := by
  unfold dedupSet
  by_cases hm : alMem e r = true
  · rw [if_pos hm, if_pos hm, alGetD_alSet_self]
  · rw [if_neg hm, if_neg hm, alGetD_alSet_self]
    congr 1
    unfold alGetD
    rw [alGet?_append]
    have hg : alGet? e r = none := by
      unfold alMem at hm
      cases hg : alGet? e r with
      | none => rfl
      | some v => rw [hg] at hm; simp at hm
    rw [hg]
    simp [alGet?]

theorem allNodup_dedupSet (e : DedupedEquiv) (r : Rune) (rs : List Rune)
    (h : AllNodup e) : AllNodup (dedupSet e r rs) := by
  intro a
  by_cases ha : a = r
  · subst ha
    rw [alGetD_dedupSet_self]
    apply nodup_setAddAll
    by_cases hm : alMem e a = true
    · rw [if_pos hm]
      exact h a
    · rw [if_neg hm]
      simp
  · rw [alGetD_dedupSet_ne e r rs a ha]
    exact h a

theorem allNodup_insensitive (e : DedupedEquiv) (h : AllNodup e) :
    AllNodup (insensitivePairs e) := by
  unfold insensitivePairs
  generalize List.range 26 = L
  induction L generalizing e with
  | nil => simpa
  | cons i rest ih =>
    rw [List.foldl_cons]
    exact ih _ (allNodup_dedupSet _ _ _ (allNodup_dedupSet _ _ _ h))

theorem allNodup_equivFold (rs L : List Rune) (e : DedupedEquiv) (h : AllNodup e) :
    AllNodup (L.foldl (fun e2 r => dedupSet e2 r rs) e) := by
  induction L generalizing e with
  | nil => simpa
  | cons r rest ih =>
    rw [List.foldl_cons]
    exact ih _ (allNodup_dedupSet _ _ _ h)

theorem allNodup_applyEquivFlag (e : DedupedEquiv) (f : Flag) (h : AllNodup e) :
    AllNodup (applyEquivFlag e f) := by
  unfold applyEquivFlag
  by_cases h1 : f = Flag.insensitive
  · rw [if_pos h1]
    exact allNodup_insensitive e h
  · rw [if_neg h1]
    by_cases h2 : f = Flag.normalize
    · rw [if_pos h2]
      exact h
    · rw [if_neg h2]
      by_cases h3 : 0 < (Flag.equivRunes f).length
      · rw [if_pos h3]
        exact allNodup_equivFold _ _ e h
      · rw [if_neg h3]
        exact h

theorem allNodup_seedMap (flags : List Flag) : AllNodup (seedMap flags) := by
  unfold seedMap
  generalize hinit : ([] : DedupedEquiv) = e
  have h : AllNodup e := hinit ▸ allNodup_nil
  clear hinit
  induction flags generalizing e with
  | nil => simpa
  | cons f rest ih =>
    rw [List.foldl_cons]
    exact ih _ (allNodup_applyEquivFlag e f h)

theorem allNodup_saturateAux (n : Nat) (e : DedupedEquiv) (r1 : Rune) (seen : List Rune)
    (h : AllNodup e) : AllNodup (saturateAux n e r1 seen) := by
  induction n generalizing e seen with
  | zero => simpa [saturateAux]
  | succ n ih =>
    rw [saturateAux]
    cases hf : firstUnseen (alGetD e r1 []) seen with
    | none => exact h
    | some r2 =>
      apply ih
      intro a
      by_cases ha : a = r1
      · subst ha
        rw [alGetD_alSet_self]
        exact nodup_setAddAll _ _ (h a)
      · rw [alGetD_alSet_ne _ r1 a _ (fun hh => ha hh.symm)]
        exact h a

theorem collapseAux_entry_nodup (K : List Rune) (e : DedupedEquiv) (h : AllNodup e) :
    ∀ r l, alGet? (collapseAux K e) r = some l → l.Nodup := by
  induction K generalizing e with
  | nil =>
    intro r l hl
    simp [collapseAux, alGet?] at hl
  | cons r1 rest ih =>
    intro r l hl
    simp only [collapseAux, alGet?] at hl
    by_cases h1 : r1 = r
    · rw [if_pos h1] at hl
      obtain rfl : sortRunes (alGetD (saturate e r1) r1 []) = l := by injection hl
      exact (sortRunes_perm _).nodup_iff.mpr (allNodup_saturateAux _ e r1 [] h r1)
    · rw [if_neg h1] at hl
      exact ih (saturate e r1) (allNodup_saturateAux _ e r1 [] h) r l hl

/-- Every class list returned by `lookup` after `makeEquivalents` is
duplicate-free. -/
theorem lookupR_makeEquivalents_nodup (flags : List Flag) (r : Rune) :
    (lookupR (makeEquivalents flags) r).Nodup := by
  rw [makeEquivalents_eq]
  unfold lookupR DedupedEquiv.collapse
  cases hg : alGet? (collapseAux (alKeys (seedMap flags)) (seedMap flags)) r with
  | none => simp
  | some l =>
    simp only
    exact collapseAux_entry_nodup _ _ (allNodup_seedMap flags) r l hg

end Fastmatch

namespace Fastmatch

theorem isEquivR_iff_mem (equiv : RuneEquivs) (a b : Rune) :
    isEquivR equiv a b = true ↔ b ∈ lookupR equiv a := by
  unfold isEquivR
  rw [contains_mem]
  exact decide_eq_true_iff

theorem mem_lookup_symm (flags : List Flag) (a b : Rune)
    (h : b ∈ lookupR (makeEquivalents flags) a) :
    a ∈ lookupR (makeEquivalents flags) b :=
  (mem_lookup_makeEquivalents flags b a).mpr
    (reach_seedMap_symm flags a b ((mem_lookup_makeEquivalents flags a b).mp h))

theorem markSeen_head_seen (c : Rune) (rest seen : List Rune) (h : c ∈ seen) :
    markSeen (c :: rest) seen = (true, seen) := by
  rw [markSeen, if_pos h]

theorem markSeen_disjoint (cls : List Rune) : ∀ (seen : List Rune), cls.Nodup →
    (∀ x ∈ cls, x ∉ seen) → markSeen cls seen = (false, seen ++ cls) := by
  induction cls with
  | nil =>
    intro seen hn hd
    simp [markSeen]
  | cons c rest ih =>
    intro seen hn hd
    rw [markSeen, if_neg (hd c (List.mem_cons_self c rest))]
    rw [ih (seen ++ [c]) (List.nodup_cons.mp hn).2 ?_]
    · rw [List.append_assoc]
      rfl
    · intro x hx
      rw [List.mem_append, List.mem_singleton]
      rintro (h1 | rfl)
      · exact hd x (List.mem_cons_of_mem c hx) h1
      · exact (List.nodup_cons.mp hn).1 hx

/-- The invariant of `uniqueAtOffset`'s scan over keys, for a relation
produced by `makeEquivalents`: the collected runes have pairwise
unrelated classes, `seen` is exactly their classes' union, and every
processed key's byte class has a collected representative. -/
theorem uniqueFold_inv (flags : List Flag) (offset : Nat) (ks : List GoStr) :
    ∀ (acc : List Rune × List Rune),
    acc.1.Nodup →
    (∀ x, x ∈ acc.2 ↔ ∃ r ∈ acc.1, x ∈ lookupR (makeEquivalents flags) r) →
    (∀ r ∈ acc.1, ∀ r' ∈ acc.1, r ≠ r' → r' ∉ lookupR (makeEquivalents flags) r) →
    ((ks.foldl (fun (acc : List Rune × List Rune) key =>
      if offset < key.length then
        match markSeen (lookupR (makeEquivalents flags) (key.getD offset 0)) acc.2 with
        | (true, seen') => (acc.1, seen')
        | (false, seen') => (acc.1 ++ [key.getD offset 0], seen')
      else acc) acc).1.Nodup ∧
    (∀ r ∈ acc.1, r ∈ (ks.foldl (fun (acc : List Rune × List Rune) key =>
      if offset < key.length then
        match markSeen (lookupR (makeEquivalents flags) (key.getD offset 0)) acc.2 with
        | (true, seen') => (acc.1, seen')
        | (false, seen') => (acc.1 ++ [key.getD offset 0], seen')
      else acc) acc).1) ∧
    (∀ r ∈ (ks.foldl (fun (acc : List Rune × List Rune) key =>
      if offset < key.length then
        match markSeen (lookupR (makeEquivalents flags) (key.getD offset 0)) acc.2 with
        | (true, seen') => (acc.1, seen')
        | (false, seen') => (acc.1 ++ [key.getD offset 0], seen')
      else acc) acc).1, ∀ r' ∈ (ks.foldl (fun (acc : List Rune × List Rune) key =>
      if offset < key.length then
        match markSeen (lookupR (makeEquivalents flags) (key.getD offset 0)) acc.2 with
        | (true, seen') => (acc.1, seen')
        | (false, seen') => (acc.1 ++ [key.getD offset 0], seen')
      else acc) acc).1, r ≠ r' → r' ∉ lookupR (makeEquivalents flags) r) ∧
    (∀ key ∈ ks, offset < key.length → ∃ r ∈ (ks.foldl (fun (acc : List Rune × List Rune) key =>
      if offset < key.length then
        match markSeen (lookupR (makeEquivalents flags) (key.getD offset 0)) acc.2 with
        | (true, seen') => (acc.1, seen')
        | (false, seen') => (acc.1 ++ [key.getD offset 0], seen')
      else acc) acc).1, r ∈ lookupR (makeEquivalents flags) (key.getD offset 0))) := by
  induction ks with
  | nil =>
    intro acc hnd hP1 hP2
    exact ⟨hnd, fun r hr => hr, hP2, by simp⟩
  | cons key rest ih =>
    intro acc hnd hP1 hP2
    rw [List.foldl_cons]
    by_cases hlen : offset < key.length
    · rw [if_pos hlen]
      by_cases hrep : ∃ r ∈ acc.1, (key.getD offset 0) ∈ lookupR (makeEquivalents flags) r
      · -- class already represented: markSeen bails immediately
        obtain ⟨r0, hr0, hb⟩ := hrep
        have hsub : ∀ x ∈ lookupR (makeEquivalents flags) (key.getD offset 0), x ∈ acc.2 := by
          intro x hx
          rw [hP1]
          refine ⟨r0, hr0, ?_⟩
          exact (lookup_class_eq flags r0 (key.getD offset 0) hb x).mp hx
        have hself := self_mem_lookup flags (key.getD offset 0)
        have hms : markSeen (lookupR (makeEquivalents flags) (key.getD offset 0)) acc.2 =
            (true, acc.2) := by
          cases hcls : lookupR (makeEquivalents flags) (key.getD offset 0) with
          | nil => rw [hcls] at hself; simp at hself
          | cons c crest =>
            apply markSeen_head_seen
            apply hsub
            rw [hcls]
            exact List.mem_cons_self c crest
        rw [hms]
        obtain ⟨q1, q2, q3, q4⟩ := ih acc hnd hP1 hP2
        refine ⟨q1, q2, q3, ?_⟩
        intro key2 hkey2 hlen2
        rcases List.mem_cons.mp hkey2 with rfl | hkey2
        · exact ⟨r0, q2 r0 hr0, mem_lookup_symm flags r0 (key2.getD offset 0) hb⟩
        · exact q4 key2 hkey2 hlen2
      · -- new class: full class gets marked, representative appended
        push_neg at hrep
        have hdisj : ∀ x ∈ lookupR (makeEquivalents flags) (key.getD offset 0), x ∉ acc.2 := by
          intro x hx hxs
          rw [hP1] at hxs
          obtain ⟨r, hr, hxr⟩ := hxs
          have h1 := lookup_class_eq flags (key.getD offset 0) x hx
          have h2 := lookup_class_eq flags r x hxr
          have hb : (key.getD offset 0) ∈ lookupR (makeEquivalents flags) r := by
            rw [← h2, h1]
            exact self_mem_lookup flags (key.getD offset 0)
          exact hrep r hr hb
        have hms := markSeen_disjoint (lookupR (makeEquivalents flags) (key.getD offset 0))
          acc.2 (lookupR_makeEquivalents_nodup flags _) hdisj
        rw [hms]
        have hbnotin : (key.getD offset 0) ∉ acc.1 := by
          intro hmem
          exact hrep _ hmem (self_mem_lookup flags _)
        have hnd' : (acc.1 ++ [key.getD offset 0]).Nodup := by
          rw [List.nodup_append]
          exact ⟨hnd, List.nodup_singleton _, by
            intro a ha hb2
            rw [List.mem_singleton] at hb2
            subst hb2
            exact hbnotin ha⟩
        have hP1' : ∀ x, x ∈ acc.2 ++ lookupR (makeEquivalents flags) (key.getD offset 0) ↔
            ∃ r ∈ acc.1 ++ [key.getD offset 0], x ∈ lookupR (makeEquivalents flags) r := by
          intro x
          rw [List.mem_append, hP1]
          constructor
          · rintro (⟨r, hr, hx⟩ | hx)
            · exact ⟨r, List.mem_append.mpr (Or.inl hr), hx⟩
            · exact ⟨key.getD offset 0, List.mem_append.mpr (Or.inr (List.mem_singleton_self _)), hx⟩
          · rintro ⟨r, hr, hx⟩
            rcases List.mem_append.mp hr with hr | hr
            · exact Or.inl ⟨r, hr, hx⟩
            · rw [List.mem_singleton] at hr
              subst hr
              exact Or.inr hx
        have hP2' : ∀ r ∈ acc.1 ++ [key.getD offset 0], ∀ r' ∈ acc.1 ++ [key.getD offset 0],
            r ≠ r' → r' ∉ lookupR (makeEquivalents flags) r := by
          intro r hr r' hr' hne hmem
          rcases List.mem_append.mp hr with hr | hr <;>
            rcases List.mem_append.mp hr' with hr' | hr'
          · exact hP2 r hr r' hr' hne hmem
          · rw [List.mem_singleton] at hr'
            subst hr'
            exact hrep r hr hmem
          · rw [List.mem_singleton] at hr
            subst hr
            exact hrep r' hr' (mem_lookup_symm flags _ r' hmem)
          · rw [List.mem_singleton] at hr hr'
            exact hne (hr.trans hr'.symm)
        obtain ⟨q1, q2, q3, q4⟩ := ih (acc.1 ++ [key.getD offset 0],
          acc.2 ++ lookupR (makeEquivalents flags) (key.getD offset 0)) hnd' hP1' hP2'
        refine ⟨q1, ?_, q3, ?_⟩
        · intro r hr
          exact q2 r (List.mem_append.mpr (Or.inl hr))
        · intro key2 hkey2 hlen2
          rcases List.mem_cons.mp hkey2 with rfl | hkey2
          · exact ⟨key2.getD offset 0,
              q2 _ (List.mem_append.mpr (Or.inr (List.mem_singleton_self _))),
              self_mem_lookup flags _⟩
          · exact q4 key2 hkey2 hlen2
    · rw [if_neg hlen]
      obtain ⟨q1, q2, q3, q4⟩ := ih acc hnd hP1 hP2
      refine ⟨q1, q2, q3, ?_⟩
      intro key2 hkey2 hlen2
      rcases List.mem_cons.mp hkey2 with rfl | hkey2
      · exact absurd hlen2 hlen
      · exact q4 key2 hkey2 hlen2

end Fastmatch

namespace Fastmatch

/-- U1: every key with a byte at `offset` has exactly one class
representative among `uniqueAtOffset`'s result (existence half). -/
theorem uniqueAtOffset_exists (flags : List Flag) (keys : List GoStr) (offset : Nat)
    (key : GoStr) (hk : key ∈ keys) (hlen : offset < key.length) :
    ∃ r ∈ uniqueAtOffset (makeEquivalents flags) keys offset,
      r ∈ lookupR (makeEquivalents flags) (key.getD offset 0) := by
  obtain ⟨q1, q2, q3, q4⟩ := uniqueFold_inv flags offset keys ([], []) List.nodup_nil
    (by simp) (by simp)
  obtain ⟨r, hr, hmem⟩ := q4 key hk hlen
  exact ⟨r, (mem_sortRunes _ _).mpr hr, hmem⟩

/-- U2: distinct members of `uniqueAtOffset`'s result never share a class
member (uniqueness half). -/
theorem uniqueAtOffset_unique (flags : List Flag) (keys : List GoStr) (offset : Nat)
    (b r r' : Rune) (hr : r ∈ uniqueAtOffset (makeEquivalents flags) keys offset)
    (hr' : r' ∈ uniqueAtOffset (makeEquivalents flags) keys offset) (hne : r ≠ r')
    (h1 : r ∈ lookupR (makeEquivalents flags) b)
    (h2 : r' ∈ lookupR (makeEquivalents flags) b) : False := by
  obtain ⟨q1, q2, q3, q4⟩ := uniqueFold_inv flags offset keys ([], []) List.nodup_nil
    (by simp) (by simp)
  rw [uniqueAtOffset, mem_sortRunes] at hr hr'
  have h3 : r' ∈ lookupR (makeEquivalents flags) r := by
    rw [lookup_class_eq flags b r h1 r']
    exact h2
  exact q3 r hr r' hr' hne h3

theorem uniqueAtOffset_nodup (flags : List Flag) (keys : List GoStr) (offset : Nat) :
    (uniqueAtOffset (makeEquivalents flags) keys offset).Nodup := by
  obtain ⟨q1, _, _, _⟩ := uniqueFold_inv flags offset keys ([], []) List.nodup_nil
    (by simp) (by simp)
  exact (sortRunes_perm _).nodup_iff.mpr q1

theorem filter_count_unique {A : Type} (l : List A) (P : A → Bool) (r : A) (hr : r ∈ l)
    (hP : P r = true) (huniq : ∀ x ∈ l, P x = true → x = r) (hnd : l.Nodup) :
    (l.filter P).length = 1 := by
  induction l with
  | nil => simp at hr
  | cons a rest ih =>
    rcases List.mem_cons.mp hr with rfl | hmem
    · rw [List.filter_cons, if_pos hP]
      have hnil : rest.filter P = [] := by
        rw [List.filter_eq_nil_iff]
        intro x hx hPx
        have hxr := huniq x (List.mem_cons_of_mem _ hx) hPx
        subst hxr
        exact (List.nodup_cons.mp hnd).1 hx
      rw [hnil]
      rfl
    · have hPa : ¬ P a = true := by
        intro hPa
        have haa := huniq a (List.mem_cons_self a rest) hPa
        subst haa
        exact (List.nodup_cons.mp hnd).1 hmem
      rw [List.filter_cons, if_neg hPa]
      exact ih hmem (fun x hx hPx => huniq x (List.mem_cons_of_mem a hx) hPx)
        (List.nodup_cons.mp hnd).2

/-- Effect of `appendFinalForRune`'s key scan on one key's weight list
(keys the scan does not contain are untouched). -/
theorem appendFinal_fold_notin (equiv : RuneEquivs) (partM : Bool) (realOffset : Nat)
    (r : Rune) (next : Nat) (ks : List GoStr) (k : GoStr) (hk : k ∉ ks) :
    ∀ (acc : List (GoStr × List Nat) × Bool),
    alGetD (ks.foldl (fun acc key =>
      if partM ∧ realOffset + 1 ≥ key.length then acc
      else if isEquivR equiv (key.getD realOffset 0) r then
        (alSet acc.1 key (alGetD acc.1 key [] ++ [next]), true)
      else acc) acc).1 k [] = alGetD acc.1 k [] := by
  induction ks with
  | nil => intro acc; rfl
  | cons key rest ih =>
    intro acc
    have hne : key ≠ k := fun hh => hk (hh ▸ List.mem_cons_self key rest)
    have hk2 : k ∉ rest := fun hh => hk (List.mem_cons_of_mem key hh)
    rw [List.foldl_cons]
    by_cases h1 : partM ∧ realOffset + 1 ≥ key.length
    · rw [if_pos h1]
      exact ih hk2 _
    · rw [if_neg h1]
      by_cases h2 : isEquivR equiv (key.getD realOffset 0) r = true
      · rw [if_pos h2, ih hk2]
        exact alGetD_alSet_ne _ key k _ hne
      · rw [if_neg h2]
        exact ih hk2 _

/-- `appendFinalForRune`'s key scan (non-partial): one key's weight list
gains `next` exactly when the key's byte at the position is equivalent to
`r` (the key occurs once, the scan list being duplicate-free). -/
theorem appendFinal_fold_val (equiv : RuneEquivs) (realOffset : Nat) (r : Rune) (next : Nat)
    (ks : List GoStr) (k : GoStr) (hk : k ∈ ks) (hnd : ks.Nodup) :
    ∀ (acc : List (GoStr × List Nat) × Bool),
    alGetD (ks.foldl (fun acc key =>
      if false ∧ realOffset + 1 ≥ key.length then acc
      else if isEquivR equiv (key.getD realOffset 0) r then
        (alSet acc.1 key (alGetD acc.1 key [] ++ [next]), true)
      else acc) acc).1 k [] = alGetD acc.1 k [] ++
        (if isEquivR equiv (k.getD realOffset 0) r = true then [next] else []) := by
  induction ks with
  | nil => simp at hk
  | cons key rest ih =>
    intro acc
    rw [List.foldl_cons]
    have hfalse : ¬ ((false : Bool) = true ∧ realOffset + 1 ≥ key.length) := by
      rintro ⟨h, -⟩
      exact Bool.false_ne_true h
    rw [if_neg hfalse]
    rcases List.mem_cons.mp hk with rfl | hmem
    · have hkrest : k ∉ rest := (List.nodup_cons.mp hnd).1
      by_cases h2 : isEquivR equiv (k.getD realOffset 0) r = true
      · rw [if_pos h2, appendFinal_fold_notin equiv false realOffset r next rest k hkrest,
          alGetD_alSet_self, if_pos h2]
      · rw [if_neg h2, appendFinal_fold_notin equiv false realOffset r next rest k hkrest,
          if_neg h2, List.append_nil]
    · have hne : key ≠ k := by
        rintro rfl
        exact (List.nodup_cons.mp hnd).1 hmem
      by_cases h2 : isEquivR equiv (key.getD realOffset 0) r = true
      · rw [if_pos h2, ih hmem (List.nodup_cons.mp hnd).2 _,
          alGetD_alSet_ne _ key k _ hne]
      · rw [if_neg h2]
        exact ih hmem (List.nodup_cons.mp hnd).2 acc

/-- `appendFinalForRune` (non-partial), packaged. -/
theorem appendFinal_val (equiv : RuneEquivs) (keys : List GoStr) (realOffset : Nat)
    (r : Rune) (next : Nat) (final : List (GoStr × List Nat)) (k : GoStr)
    (hk : k ∈ keys) (hnd : keys.Nodup) :
    alGetD (appendFinalForRune equiv false keys realOffset r next final).1 k [] =
      alGetD final k [] ++
        (if isEquivR equiv (k.getD realOffset 0) r = true then [next] else []) := by
  unfold appendFinalForRune
  exact appendFinal_fold_val equiv realOffset r next keys k hk hnd (final, false)

end Fastmatch

namespace Fastmatch

/-- The rune loop (non-partial, no overflow) appends one weight to a
key's list per class representative the key's byte matches. -/
theorem runeLoop_len (equiv : RuneEquivs) (maxState : Nat) (keys : List GoStr)
    (realOffset : Nat) (k : GoStr) (hk : k ∈ keys) (hnd : keys.Nodup) :
    ∀ (u : List Rune) (st : RLState),
    (runeLoop equiv false maxState keys realOffset u st).2 = false →
    (alGetD (runeLoop equiv false maxState keys realOffset u st).1.final k []).length =
      (alGetD st.final k []).length +
        (u.filter fun r => isEquivR equiv (k.getD realOffset 0) r).length := by
  intro u
  induction u with
  | nil =>
    intro st hno
    simp [runeLoop]
  | cons r rest ih =>
    intro st hno
    rw [runeLoop] at hno ⊢
    have hval := appendFinal_val equiv keys realOffset r st.next st.final k hk hnd
    by_cases h1 : (appendFinalForRune equiv false keys realOffset r st.next st.final).2 = true
    · rw [if_pos h1] at hno ⊢
      by_cases h2 : st.base > sub64 maxState st.next
      · rw [if_pos h2] at hno
        simp at hno
      · rw [if_neg h2] at hno ⊢
        rw [ih _ hno]
        simp only
        rw [hval, List.filter_cons]
        by_cases h3 : isEquivR equiv (k.getD realOffset 0) r = true
        · rw [if_pos h3, if_pos h3]
          simp
          omega
        · rw [if_neg h3, if_neg h3]
          simp
    · rw [if_neg h1] at hno ⊢
      rw [ih _ hno]
      simp only
      rw [hval, List.filter_cons]
      by_cases h3 : isEquivR equiv (k.getD realOffset 0) r = true
      · rw [if_pos h3, if_pos h3]
        simp
        omega
      · rw [if_neg h3, if_neg h3]
        simp

/-- The zero-append loop of the single-class branch adds one `0` per key. -/
theorem zeroFold_val (ks : List GoStr) (k : GoStr) (hk : k ∈ ks) (hnd : ks.Nodup) :
    ∀ (final : List (GoStr × List Nat)),
    alGetD (ks.foldl (fun f k2 => alSet f k2 (alGetD f k2 [] ++ [0])) final) k [] =
      alGetD final k [] ++ [0] := by
  have hnotin : ∀ (ks2 : List GoStr), k ∉ ks2 → ∀ (final : List (GoStr × List Nat)),
      alGetD (ks2.foldl (fun f k2 => alSet f k2 (alGetD f k2 [] ++ [0])) final) k [] =
        alGetD final k [] := by
    intro ks2
    induction ks2 with
    | nil => intro _ final; rfl
    | cons key rest ih =>
      intro hk2 final
      rw [List.foldl_cons, ih (fun hh => hk2 (List.mem_cons_of_mem key hh)),
        alGetD_alSet_ne _ key k _ (fun hh => hk2 (hh ▸ List.mem_cons_self key rest))]
  induction ks with
  | nil => simp at hk
  | cons key rest ih =>
    intro final
    rw [List.foldl_cons]
    rcases List.mem_cons.mp hk with rfl | hmem
    · rw [hnotin rest (List.nodup_cons.mp hnd).1, alGetD_alSet_self]
    · rw [ih hmem (List.nodup_cons.mp hnd).2, alGetD_alSet_ne _ key k _
        (fun hh => (List.nodup_cons.mp hnd).1 (hh ▸ hmem))]

end Fastmatch

namespace Fastmatch

/-- Per-position accounting of `indexKeys`' loop: with partial matching
off and all keys of one length `L`, every processed position (below `L`)
appends exactly one weight (a fresh state or a `0` placeholder) to every
key's list. -/
theorem positionsLoop_len (flags : List Flag) (maxState : Nat) (keys : List GoStr) (L : Nat)
    (hL : ∀ k2 ∈ keys, k2.length = L) (hnd : keys.Nodup) :
    ∀ (positions : List Nat) (m : SM) (ns : Bool) (m' : SM),
    (∀ p ∈ positions, p < L) →
    positionsLoop (makeEquivalents flags) false maxState keys positions m ns = .done m' →
    ∀ k ∈ keys, (alGetD m'.final k []).length =
      (alGetD m.final k []).length + positions.length := by
  intro positions
  induction positions with
  | nil =>
    intro m ns m' hp hdone k hk
    rw [positionsLoop] at hdone
    cases hdone
    simp
  | cons p rest ih =>
    intro m ns m' hp hdone k hk
    rw [positionsLoop] at hdone
    by_cases hu : 1 < (uniqueAtOffset (makeEquivalents flags) keys p).length
    · rw [if_pos hu] at hdone
      by_cases hovf : (runeLoop (makeEquivalents flags) false maxState keys p
          (uniqueAtOffset (makeEquivalents flags) keys p)
          ⟨m.final, [], m.next, if ns then m.next else m.base, if ns then false else ns⟩).2 = true
      · rw [if_pos hovf] at hdone
        cases hdone
      · rw [if_neg hovf] at hdone
        have hrec := ih _ _ m' (fun q hq => hp q (List.mem_cons_of_mem p hq)) hdone k hk
        rw [hrec]
        simp only
        have hovf' : (runeLoop (makeEquivalents flags) false maxState keys p
            (uniqueAtOffset (makeEquivalents flags) keys p)
            ⟨m.final, [], m.next, if ns then m.next else m.base,
              if ns then false else ns⟩).2 = false := by
          rw [Bool.not_eq_true] at hovf
          exact hovf
        rw [runeLoop_len (makeEquivalents flags) maxState keys p k hk hnd _ _ hovf']
        simp only
        have hkL : p < k.length := by
          rw [hL k hk]
          exact hp p (List.mem_cons_self p rest)
        obtain ⟨r0, hr0u, hr0m⟩ := uniqueAtOffset_exists flags keys p k hk hkL
        have hcount : ((uniqueAtOffset (makeEquivalents flags) keys p).filter
            (fun r => isEquivR (makeEquivalents flags) (k.getD p 0) r)).length = 1 := by
          apply filter_count_unique _ _ r0 hr0u
          · rw [isEquivR_iff_mem]
            exact hr0m
          · intro x hx hPx
            by_contra hne
            rw [isEquivR_iff_mem] at hPx
            exact uniqueAtOffset_unique flags keys p (k.getD p 0) x r0 hx hr0u hne hPx hr0m
          · exact uniqueAtOffset_nodup flags keys p
        rw [hcount]
        simp only [List.length_cons]
        omega
    · rw [if_neg hu] at hdone
      have hrec := ih _ _ m' (fun q hq => hp q (List.mem_cons_of_mem p hq)) hdone k hk
      have hrec' : (alGetD m'.final k []).length =
          (alGetD (keys.foldl (fun f k2 => alSet f k2 (alGetD f k2 [] ++ [0])) m.final)
            k []).length + rest.length := hrec
      rw [hrec', zeroFold_val keys k hk hnd m.final]
      simp only [List.length_append, List.length_cons, List.length_nil]
      omega


theorem alGetD_newFold_nil (ks : List GoStr) :
    ∀ (acc : List (GoStr × List Nat)), (∀ k2, alGetD acc k2 ([] : List Nat) = []) →
    ∀ k, alGetD (ks.foldl (fun f k2 => alSet f k2 []) acc) k ([] : List Nat) = [] := by
  induction ks with
  | nil => intro acc h k; exact h k
  | cons key rest ih =>
    intro acc h k
    rw [List.foldl_cons]
    apply ih
    intro k2
    by_cases hk : key = k2
    · subst hk
      exact alGetD_alSet_self acc key []
    · rw [alGetD_alSet_ne acc key k2 [] hk]
      exact h k2

/-- A fresh machine's weight lists are all empty. -/
theorem newStateMachine_final_getD (keys : List GoStr) (k : GoStr) :
    alGetD (newStateMachine keys).final k [] = [] := by
  unfold newStateMachine
  exact alGetD_newFold_nil keys [] (fun k2 => rfl) k

theorem alKeys_alSet_absent {K V : Type} [DecidableEq K] (l : List (K × V)) (k : K) (v : V)
    (h : ¬ alMem l k = true) : alKeys (alSet l k v) = alKeys l ++ [k] := by
  induction l with
  | nil => simp [alSet, alKeys]
  | cons p rest ih =>
    obtain ⟨k', v'⟩ := p
    by_cases hk : k' = k
    · subst hk
      exfalso
      apply h
      simp [alMem, alGet?]
    · simp only [alSet, if_neg hk, alKeys, List.map_cons, List.cons_append]
      rw [← alKeys, ← alKeys, ih]
      intro hmem
      apply h
      simp only [alMem, alGet?, if_neg hk]
      exact hmem

/-- With duplicate-free keys, `newStateMachine` lists them in order. -/
theorem newStateMachine_keys (keys : List GoStr) (hnd : keys.Nodup) :
    alKeys (newStateMachine keys).final = keys := by
  unfold newStateMachine
  simp only
  suffices H : ∀ (ks : List GoStr) (acc : List (GoStr × List Nat)), ks.Nodup →
      (∀ k ∈ ks, ¬ alMem acc k = true) →
      alKeys (ks.foldl (fun f k2 => alSet f k2 []) acc) = alKeys acc ++ ks by
    have := H keys [] hnd (by intro k _; simp [alMem, alGet?])
    simpa [alKeys] using this
  intro ks
  induction ks with
  | nil => intro acc _ _; simp
  | cons key rest ih =>
    intro acc hnd2 habs
    rw [List.foldl_cons, ih _ (List.nodup_cons.mp hnd2).2 ?_,
      alKeys_alSet_absent acc key [] (habs key (List.mem_cons_self key rest))]
    · rw [List.append_assoc]
      rfl
    · intro k hk
      rw [alMem_alSet]
      rintro (hmem | rfl)
      · exact habs k (List.mem_cons_of_mem key hk) hmem
      · exact (List.nodup_cons.mp hnd2).1 hk

theorem longestKeyOf_uniform (keys : List GoStr) (L : Nat) (k0 : GoStr) (hk0 : k0 ∈ keys)
    (hL : ∀ k ∈ keys, k.length = L) : longestKeyOf keys = L := by
  apply le_antisymm
  · exact longestKeyOf_le keys L (fun k hk => le_of_eq (hL k hk))
  · rw [← hL k0 hk0]
    exact longestKeyOf_mem keys k0 hk0

/-- **C3 (counterexample).**  Under partial matching (`HasPrefix`) the
claim fails: with keys `{"Bar", "baz", "f"}` and `Equivalent('B','b')`,
the key `"Bar"` (length 3, machine offset 0, no collapsed seed) ends with
`final["Bar"]` of length 2, not 3: position 2 is skipped for keys ending
there, and position 1 contributes the only placeholder. -/
theorem c3_final_length_counterexample :
    (match indexKeysGo (makeEquivalents [Flag.equivalent [66, 98]]) true maxUint64
        (newStateMachine [[66, 97, 114], [98, 97, 122], [102]]) with
      | .ok sm => ((alGetD sm.head.final [66, 97, 114] []).length, sm.head.offset)
      | .error _ => (99, 99)) = (2, 0) ∧ (2 : Nat) ≠ 3 - 0 := by
  refine ⟨?_, by decide⟩
  rw [indexKeysGo, indexChain]
  rfl


/-! ## Ambiguity detection (`part_003`, newest snapshot)

`ErrAmbiguous` holds groups of mutually ambiguous keys; each group is a
Go `map[string]bool`, modelled as a duplicate-free list in insertion
order.  Return expressions are Lean `String`s; keys are `GoStr`. -/

/-- The `origKeys` expansion of `ErrAmbiguous.add` (part_003:46-53): each
key is replaced by its `backToOrig` preimages when present. -/
def origKeysOf (backToOrig : List (GoStr × List GoStr)) (keys : List GoStr) : List GoStr :=
  keys.foldl (fun acc key =>
    match alGet? backToOrig key with
    | some ks => acc ++ ks
    | none => acc ++ [key]) []

/-- The merge loop of `ErrAmbiguous.add` (part_003:55-71): insert
`origKeys` into the first group sharing a key with it, else append a
fresh group. -/
def errAddAux (origKeys : List GoStr) : List (List GoStr) → List (List GoStr)
  | [] => [origKeys.foldl setAdd []]
  | g :: rest =>
    if g.any (fun ex => origKeys.contains ex) then
      (origKeys.foldl setAdd g) :: rest
    else
      g :: errAddAux origKeys rest

/-- `ErrAmbiguous.add` (part_003:45-72). -/
def errAdd (e : List (List GoStr)) (backToOrig : List (GoStr × List GoStr))
    (keys : List GoStr) : List (List GoStr) :=
  errAddAux (origKeysOf backToOrig keys) e

/-- `seenCases` (part_003:137): return expression to set of keys. -/
abbrev SeenCases := List (String × List GoStr)

/-- `disambiguate` (part_003:153-156). -/
structure Disamb : Type where
  cases : List (Nat × List (Rune × SeenCases))
  keys : List GoStr

/-- `disambiguate.add` (part_003:169-188). -/
def dAdd (d : Disamb) (sum : Nat) (r : Rune) (ret : String) (key : GoStr) : Disamb :=
  let rm := alGetD d.cases sum []
  let sc := alGetD rm r []
  { cases := alSet d.cases sum (alSet rm r (alSet sc ret (setAdd (alGetD sc ret []) key))),
    keys := setAdd d.keys key }

/-- `seenCases.collapse` (part_003:140-150). -/
def scCollapse (sc : SeenCases) : List String × List GoStr :=
  (sc.map Prod.fst, sc.foldl (fun acc p => acc ++ p.2) [])

/-- `disambiguate.indexNoMore` (part_003:192-232), iterating
`foreachNoMore` (part_006:56-64) over the machine's `noMore` positions.
The slice access `values[finalIdx]` (in range in Go, as `other` is
strictly longer than `key`) is modelled with `getD`. -/
def indexNoMore (m : SM) (cases : List (GoStr × String)) (d0 : Disamb) : Disamb :=
  m.noMore.foldl (fun d posMap =>
    posMap.foldl (fun d p =>
      p.2.foldl (fun d key =>
        let sum := SM.finalState m key
        let d1 := dAdd d sum p.1 (alGetD cases key "") key
        let finalIdx := if m.offset = 0 then key.length - 1 else key.length - m.offset
        let changesIdx := if m.offset = 0 then key.length - 1 else key.length - m.offset - 1
        m.final.foldl (fun d q =>
          if q.1.length ≤ key.length then d
          else if q.2.getD finalIdx 0 ≠ alGetD (m.changes.getD changesIdx []) p.1 0 then d
          else if ((q.2.take finalIdx).foldl (· + ·) 0) % U64MOD ≠ sum then d
          else dAdd d sum p.1 (alGetD cases q.1 "") q.1) d1) d) d) d0

/-- `disambiguate.indexFinal` (part_003:237-244). -/
def indexFinal (m : SM) (cases : List (GoStr × String)) (d0 : Disamb) : Disamb :=
  m.final.foldl (fun d p =>
    if d.keys.contains p.1 then d
    else dAdd d (SM.finalState m p.1) 0 (alGetD cases p.1 "") p.1) d0

/-- `shortestString` (part_003:249-257): Go folds with the sentinel `""`,
so the result is the first string of minimal length, provided no list
element itself is empty (an empty element resets the scan). -/
def shortestString (ss : List GoStr) : GoStr :=
  ss.foldl (fun shortest s =>
    if shortest = [] ∨ s.length < shortest.length then s else shortest) []

/-- `remove` (part_006:219-233); on the duplicate-free bucket lists used
here it is a filter (the Go in-place version returns `nil` for an empty
result, indistinguishable from `[]` in this model). -/
def removeStr (a : List GoStr) (s : GoStr) : List GoStr :=
  a.filter (fun x => x ≠ s)

/-- `stateMachine.deleteKey` (part_006:238-246). -/
def SM.deleteKey (m : SM) (key : GoStr) : SM :=
  { m with
    final := alErase m.final key,
    noMore := m.noMore.map (fun posMap =>
      posMap.map (fun p => (p.1, removeStr p.2 key))) }

/-- One bucket of `disambiguate.foreach` under `checkAmbiguity`'s
callback (part_003:287-302): a single distinct return value prunes all
but the `shortestString` key from the machine; several return values over
several keys report the keys as ambiguous. -/
def bucketStep (backToOrig : List (GoStr × List GoStr)) (acc : SM × List (List GoStr))
    (sc : SeenCases) : SM × List (List GoStr) :=
  let rets := (scCollapse sc).1
  let keys := (scCollapse sc).2
  if rets.length = 1 then
    let shortest := shortestString keys
    (keys.foldl (fun m key => if key ≠ shortest then SM.deleteKey m key else m) acc.1,
     acc.2)
  else if 1 < keys.length then
    (acc.1, errAdd acc.2 backToOrig keys)
  else acc

/-- `disambiguate.foreach` (part_003:159-167) with `checkAmbiguity`'s
callback, threading the machine (for deletions) and the error groups. -/
def dForeach (d : Disamb) (backToOrig : List (GoStr × List GoStr)) (m : SM)
    (e : List (List GoStr)) : SM × List (List GoStr) :=
  d.cases.foldl (fun acc sp =>
    sp.2.foldl (fun acc2 rp => bucketStep backToOrig acc2 rp.2) acc) (m, e)

/-- The mangled-duplicates pass of `checkAmbiguity` (part_003:264-277):
`backToOrig` groups of several original keys with more than one distinct
return value are reported directly. -/
def checkBackToOrig (origCases : List (GoStr × String))
    (backToOrig : List (GoStr × List GoStr)) : List (List GoStr) :=
  backToOrig.foldl (fun e p =>
    if p.2.length ≤ 1 then e
    else
      let rets := p.2.foldl (fun rs key => setAdd rs (alGetD origCases key "")) []
      if 1 < rets.length then errAdd e [] p.2 else e) []

/-- The per-machine loop of `checkAmbiguity` (part_003:280-309): each
machine of the chain is indexed (`indexNoMore`, plus `indexFinal` on the
last machine) and its buckets are processed. -/
def checkAmbChain (cases : List (GoStr × String)) (backToOrig : List (GoStr × List GoStr)) :
    StateMachine → List (List GoStr) → StateMachine × List (List GoStr)
  | .last m, e =>
    let d := indexFinal m cases (indexNoMore m cases ⟨[], []⟩)
    let r := dForeach d backToOrig m e
    (.last r.1, r.2)
  | .chain m tail, e =>
    let d := indexNoMore m cases ⟨[], []⟩
    let r := dForeach d backToOrig m e
    let r2 := checkAmbChain cases backToOrig tail r.2
    (.chain r.1 r2.1, r2.2)

/-- `stateMachine.checkAmbiguity` (part_003:262-315): the pruned machine
chain together with the final `ErrAmbiguous` groups (the Go function
returns `nil` exactly when the group list is empty). -/
def checkAmbiguityGo (sm : StateMachine) (cases origCases : List (GoStr × String))
    (backToOrig : List (GoStr × List GoStr)) : StateMachine × List (List GoStr) :=
  checkAmbChain cases backToOrig sm (checkBackToOrig origCases backToOrig)

/-- The mangled `cases`/`backToOrig` construction of `Generate`
(part_005:549-601), taken when stop, ignore, or ignoreExcept is
non-empty. -/
def buildCases (stop ignore ignoreExcept : List Rune) (backwards : Bool)
    (origCases : List (GoStr × String)) :
    List (GoStr × String) × List (GoStr × List GoStr) :=
  origCases.foldl (fun acc p =>
    let key := if backwards then reverseString p.1 else p.1
    let newKey := mangleKey stop ignore ignoreExcept key
    (alSet acc.1 newKey p.2,
     alSet acc.2 newKey (alGetD acc.2 newKey [] ++ [key]))) ([], [])

/-- **C2 (violated in the code).**  With flags `Equivalent('A','a')` and
`StopUpon('.')` over the cases `"A.x"→"1"`, `"A.y"→"2"`, `"a.p"→"3"`,
`"a.q"→"4"`, the mangling collapses the keys to `"A"` and `"a"`.
`checkAmbiguity`'s first pass reports the groups `{A.x, A.y}` and
`{a.p, a.q}`; its final-state pass then calls `ErrAmbiguous.add` with all
four original keys, which `add` merges only into the FIRST group sharing
a key.  The final report is `[{A.x, A.y, a.p, a.q}, {a.p, a.q}]`: the key
`"a.p"` (and `"a.q"`) appears in two groups, contradicting the claim that
no key appears in more than one group. -/
theorem c2_key_in_two_groups :
    buildCases (expandR (makeEquivalents [Flag.equivalent [65, 97], Flag.stopUpon [46]]) [46] [])
        [] [] false
        [([65, 46, 120], "1"), ([65, 46, 121], "2"), ([97, 46, 112], "3"), ([97, 46, 113], "4")] =
      ([([65], "2"), ([97], "4")],
       [([65], [[65, 46, 120], [65, 46, 121]]), ([97], [[97, 46, 112], [97, 46, 113]])]) ∧
    (match indexKeysGo (makeEquivalents [Flag.equivalent [65, 97], Flag.stopUpon [46]]) false
        maxUint64 (newStateMachine [[65], [97]]) with
      | .ok sm => (checkAmbiguityGo sm
          [([65], "2"), ([97], "4")]
          [([65, 46, 120], "1"), ([65, 46, 121], "2"), ([97, 46, 112], "3"), ([97, 46, 113], "4")]
          [([65], [[65, 46, 120], [65, 46, 121]]), ([97], [[97, 46, 112], [97, 46, 113]])]).2
      | .error _ => []) =
      [[[65, 46, 120], [65, 46, 121], [97, 46, 112], [97, 46, 113]],
       [[97, 46, 112], [97, 46, 113]]] ∧
    [97, 46, 112] ∈ [[65, 46, 120], [65, 46, 121], [97, 46, 112], [97, 46, 113]] ∧
    ([97, 46, 112] : GoStr) ∈ [[97, 46, 112], [97, 46, 113]] := by
  refine ⟨by rfl, ?_, by decide, by decide⟩
  have hsm : indexKeysGo (makeEquivalents [Flag.equivalent [65, 97], Flag.stopUpon [46]]) false
      maxUint64 (newStateMachine [[65], [97]]) =
      Except.ok (StateMachine.last
        (SM.mk 1 1 [([65], [0]), ([97], [0])] [[65]] [[]] [[]] 0 [])) := by
    rw [indexKeysGo, indexChain]
    rfl
  rw [hsm]
  rfl


/-! ## Pruning in `checkAmbiguity` (C5) -/

theorem alKeys_alErase_sublist {K V : Type} [DecidableEq K] (l : List (K × V)) (k : K) :
    List.Sublist (alKeys (alErase l k)) (alKeys l) := by
  induction l with
  | nil => exact List.Sublist.refl _
  | cons p rest ih =>
    obtain ⟨k', v'⟩ := p
    by_cases h : k' = k
    · simp only [alErase, if_pos h, alKeys, List.map_cons]
      exact List.sublist_cons_self _ _
    · simp only [alErase, if_neg h, alKeys, List.map_cons]
      exact List.Sublist.cons₂ _ ih

theorem alGet?_alErase_self {K V : Type} [DecidableEq K] (l : List (K × V)) (k : K)
    (hnd : (alKeys l).Nodup) : alGet? (alErase l k) k = none := by
  induction l with
  | nil => rfl
  | cons p rest ih =>
    obtain ⟨k', v'⟩ := p
    rw [alKeys, List.map_cons, List.nodup_cons] at hnd
    by_cases h : k' = k
    · rw [alErase, if_pos h]
      subst h
      have hnotmem : alMem rest k' ≠ true := fun hm => hnd.1 ((alMem_iff_keys rest k').mp hm)
      unfold alMem at hnotmem
      cases hget : alGet? rest k' with
      | none => rfl
      | some v =>
        rw [hget] at hnotmem
        simp at hnotmem
    · rw [alErase, if_neg h, alGet?, if_neg h]
      exact ih hnd.2

theorem alMem_alErase_mono {K V : Type} [DecidableEq K] (l : List (K × V)) (k' k : K)
    (h : alMem (alErase l k') k = true) : alMem l k = true := by
  rw [alMem_iff_keys] at h ⊢
  exact (alKeys_alErase_sublist l k').subset h

theorem deleteKey_nodup (m : SM) (k : GoStr) (h : (alKeys m.final).Nodup) :
    (alKeys (SM.deleteKey m k).final).Nodup :=
  List.Nodup.sublist (alKeys_alErase_sublist m.final k) h

theorem deleteFold_final_mono (shortest : GoStr) (ks : List GoStr) :
    ∀ (m : SM) (key : GoStr),
    alMem (ks.foldl (fun m2 k => if k ≠ shortest then SM.deleteKey m2 k else m2) m).final
      key = true →
    alMem m.final key = true := by
  induction ks with
  | nil => intro m key h; exact h
  | cons k rest ih =>
    intro m key h
    simp only [List.foldl_cons] at h
    by_cases hk : k ≠ shortest
    · rw [if_pos hk] at h
      exact alMem_alErase_mono m.final k key (ih _ _ h)
    · rw [if_neg hk] at h
      exact ih _ _ h

theorem deleteFold_removes (shortest : GoStr) (ks : List GoStr) :
    ∀ (m : SM), (alKeys m.final).Nodup →
    ∀ key ∈ ks, key ≠ shortest →
    alMem (ks.foldl (fun m2 k => if k ≠ shortest then SM.deleteKey m2 k else m2) m).final
      key = false := by
  induction ks with
  | nil =>
    intro m _ key hk
    simp at hk
  | cons k rest ih =>
    intro m hnd key hk hne
    simp only [List.foldl_cons]
    rcases List.mem_cons.mp hk with rfl | hk2
    · rw [if_pos hne]
      rw [Bool.eq_false_iff]
      intro hmem
      have h1 := deleteFold_final_mono shortest rest _ key hmem
      have h1' : alMem (alErase m.final key) key = true := h1
      unfold alMem at h1'
      rw [alGet?_alErase_self m.final key hnd] at h1'
      simp at h1'
    · by_cases hks : k ≠ shortest
      · rw [if_pos hks]
        exact ih (SM.deleteKey m k) (deleteKey_nodup m k hnd) key hk2 hne
      · rw [if_neg hks]
        exact ih m hnd key hk2 hne

theorem shortestString_fold_spec (keys : List GoStr) :
    ∀ (acc : GoStr), acc ≠ [] → (∀ s ∈ keys, s ≠ []) →
    ((keys.foldl (fun shortest s =>
        if shortest = [] ∨ s.length < shortest.length then s else shortest) acc) = acc ∨
      (keys.foldl (fun shortest s =>
        if shortest = [] ∨ s.length < shortest.length then s else shortest) acc) ∈ keys) ∧
    (keys.foldl (fun shortest s =>
      if shortest = [] ∨ s.length < shortest.length then s else shortest) acc).length ≤
      acc.length ∧
    ∀ s ∈ keys, (keys.foldl (fun shortest s =>
      if shortest = [] ∨ s.length < shortest.length then s else shortest) acc).length ≤
      s.length := by
  induction keys with
  | nil =>
    intro acc hacc _
    exact ⟨Or.inl rfl, le_refl _, by intro s hs; simp at hs⟩
  | cons s0 rest ih =>
    intro acc hacc hne
    simp only [List.foldl_cons]
    by_cases hcond : acc = [] ∨ s0.length < acc.length
    · rw [if_pos hcond]
      have hs0 : s0 ≠ [] := hne s0 (List.mem_cons_self s0 rest)
      obtain ⟨h1, h2, h3⟩ := ih s0 hs0 (fun s hs => hne s (List.mem_cons_of_mem s0 hs))
      have hlt : s0.length ≤ acc.length := by
        rcases hcond with hc | hc
        · exact absurd hc hacc
        · exact le_of_lt hc
      refine ⟨?_, le_trans h2 hlt, ?_⟩
      · rcases h1 with h1 | h1
        · exact Or.inr (by rw [h1]; exact List.mem_cons_self s0 rest)
        · exact Or.inr (List.mem_cons_of_mem s0 h1)
      · intro s hs
        rcases List.mem_cons.mp hs with rfl | hs2
        · exact h2
        · exact h3 s hs2
    · rw [if_neg hcond]
      push_neg at hcond
      obtain ⟨h1, h2, h3⟩ := ih acc hacc (fun s hs => hne s (List.mem_cons_of_mem s0 hs))
      refine ⟨?_, h2, ?_⟩
      · rcases h1 with h1 | h1
        · exact Or.inl h1
        · exact Or.inr (List.mem_cons_of_mem s0 h1)
      · intro s hs
        rcases List.mem_cons.mp hs with rfl | hs2
        · exact le_trans h2 hcond.2
        · exact h3 s hs2

/-- **C5 (amended).**  In `checkAmbiguity`'s single-return-value branch
(`bucketStep`, part_003:288-296), the survivor `shortestString keys` is
the first key of minimal length in bucket iteration order — minimal in
LENGTH, not necessarily the lexicographically least — and the deletion
loop removes every other key of the bucket from the machine's `final`
map.  (The lexicographic reading of the original claim is refuted by
`c5_prune_counterexample`; the hypotheses exclude empty keys, for which
Go's `""` fold sentinel would restart the scan.) -/
theorem c5_prune (keys : List GoStr) (m : SM)
    (h : keys ≠ []) (hne : ∀ s ∈ keys, s ≠ []) (hnd : (alKeys m.final).Nodup) :
    shortestString keys ∈ keys ∧
    (∀ s ∈ keys, (shortestString keys).length ≤ s.length) ∧
    (∀ key ∈ keys, key ≠ shortestString keys →
      alMem (keys.foldl (fun m2 k =>
        if k ≠ shortestString keys then SM.deleteKey m2 k else m2) m).final key = false) := by
  obtain ⟨k0, rest, rfl⟩ : ∃ k0 rest, keys = k0 :: rest := by
    cases keys with
    | nil => exact absurd rfl h
    | cons a b => exact ⟨a, b, rfl⟩
  have hshort : shortestString (k0 :: rest) ∈ k0 :: rest ∧
      ∀ s ∈ k0 :: rest, (shortestString (k0 :: rest)).length ≤ s.length := by
    have hk0 : k0 ≠ [] := hne k0 (List.mem_cons_self k0 rest)
    have hstep : shortestString (k0 :: rest) =
        rest.foldl (fun shortest s =>
          if shortest = [] ∨ s.length < shortest.length then s else shortest) k0 := by
      unfold shortestString
      rfl
    obtain ⟨h1, h2, h3⟩ := shortestString_fold_spec rest k0 hk0
      (fun s hs => hne s (List.mem_cons_of_mem k0 hs))
    rw [hstep]
    refine ⟨?_, ?_⟩
    · rcases h1 with h1 | h1
      · exact (by rw [h1]; exact List.mem_cons_self k0 rest)
      · exact List.mem_cons_of_mem k0 h1
    · intro s hs
      rcases List.mem_cons.mp hs with rfl | hs2
      · exact h2
      · exact h3 s hs2
  exact ⟨hshort.1, hshort.2,
    deleteFold_removes (shortestString (k0 :: rest)) (k0 :: rest) m hnd⟩

/-- Witness for C5 at a concrete instance: the bucket `{"b", "a"}` on a
fresh machine; the survivor is `"b"` and `"a"` is deleted. -/
theorem c5_prune_witness :
    shortestString [[98], [97]] ∈ ([[98], [97]] : List GoStr) ∧
    (∀ s ∈ ([[98], [97]] : List GoStr), (shortestString [[98], [97]]).length ≤ s.length) ∧
    (∀ key ∈ ([[98], [97]] : List GoStr), key ≠ shortestString [[98], [97]] →
      alMem (([[98], [97]] : List GoStr).foldl (fun m2 k =>
        if k ≠ shortestString [[98], [97]] then SM.deleteKey m2 k else m2)
        (newStateMachine [[98], [97]])).final key = false) :=
  c5_prune [[98], [97]] (newStateMachine [[98], [97]]) (by decide) (by decide) (by decide)

/-- **C5 (counterexample).**  With `Equivalent('a','b')` and the cases
`{"b": "1", "a": "1"}` (iteration order `"b"` first), the single-return
bucket is `{"b", "a"}`; `shortestString` keeps `"b"`, the FIRST key of
minimal length, and deletes `"a"` — though `"a"` is the lexicographically
least (and equally short) key.  The original claim's "lexicographically
shortest survives" is false. -/
theorem c5_prune_counterexample :
    (match indexKeysGo (makeEquivalents [Flag.equivalent [97, 98]]) false maxUint64
        (newStateMachine [[98], [97]]) with
      | .ok sm =>
        let r := checkAmbiguityGo sm [([98], "1"), ([97], "1")] [([98], "1"), ([97], "1")] []
        (alMem r.1.head.final [98], alMem r.1.head.final [97], r.2)
      | .error _ => (false, false, [[]])) = (true, false, []) ∧
    ([97] : GoStr) < [98] ∧ ([97] : GoStr) ≠ [98] := by
  refine ⟨?_, by decide, by decide⟩
  have hsm : indexKeysGo (makeEquivalents [Flag.equivalent [97, 98]]) false maxUint64
      (newStateMachine [[98], [97]]) =
      Except.ok (StateMachine.last
        (SM.mk 1 1 [([98], [0]), ([97], [0])] [[98]] [[]] [[]] 0 [])) := by
    rw [indexKeysGo, indexChain]
    rfl
  rw [hsm]
  rfl


/-! ## `Generate` (part_005:489-840, newest snapshot)

The `io.Writer` sink is modelled as an accumulated `String` that accepts
every write (`fmt.Fprint*` errors are `nil`); a `nil` return from Go's
`Generate` is `Except.ok` carrying the full output.  Literal braces in
the emitted Go code are written with `\x7b`/`\x7d` escapes. -/

/-- `ErrBadFlags`, `ErrAmbiguous` and an uncaught panic, as `Generate`'s
error outcomes. -/
inductive GenError : Type where
  | badFlagsCombine (names : List String) : GenError
  | badFlagsStopIgnore (rs : List Rune) : GenError
  | ambiguous (groups : List (List GoStr)) : GenError
  | panic (p : GoPanic) : GenError

/-- The flag-scanning accumulator of `Generate` (part_005:493-523). -/
structure FlagAcc : Type where
  partM : Bool
  backwards : Bool
  stop : List Rune
  ignore : List Rune
  ignoreExcept : List Rune

/-- One iteration of `Generate`'s flag loop (part_005:495-523). -/
def procFlag (acc : FlagAcc) (flag : Flag) : Except GenError FlagAcc :=
  let step1 : Except GenError FlagAcc :=
    match flag with
    | .hasPfx =>
      if acc.backwards then .error (.badFlagsCombine ["HasPrefix", "HasSuffix"])
      else .ok { acc with partM := true }
    | .hasSuffix =>
      if acc.partM ∧ ¬ acc.backwards then
        .error (.badFlagsCombine ["HasPrefix", "HasSuffix"])
      else .ok { acc with partM := true, backwards := true }
    | _ => .ok acc
  match step1 with
  | .error e => .error e
  | .ok a1 =>
    let a2 := if flag.stopRunes ≠ [] then { a1 with stop := a1.stop ++ flag.stopRunes } else a1
    if flag.ignoreRunes ≠ [] ∧ a2.ignoreExcept ≠ [] then
      .error (.badFlagsCombine ["Ignore", "IgnoreExcept"])
    else
      let a3 := if flag.ignoreRunes ≠ [] then
        { a2 with ignore := a2.ignore ++ flag.ignoreRunes } else a2
      if flag.ignoreExceptRunes ≠ [] ∧ a3.ignore ≠ [] then
        .error (.badFlagsCombine ["Ignore", "IgnoreExcept"])
      else
        .ok (if flag.ignoreExceptRunes ≠ [] then
          { a3 with ignoreExcept := a3.ignoreExcept ++ flag.ignoreExceptRunes } else a3)

/-- `Generate`'s flag loop. -/
def procFlags : List Flag → FlagAcc → Except GenError FlagAcc
  | [], acc => .ok acc
  | f :: rest, acc =>
    match procFlag acc f with
    | .error e => .error e
    | .ok a => procFlags rest a

/-- Go's `strconv.IsPrint` restricted to ASCII (the only range
`QuoteRuneToASCII` keeps unescaped). -/
def isPrintASCII (r : Rune) : Bool := 32 ≤ r ∧ r ≤ 126

/-- Lowercase hex, zero-padded to `w` digits (`%02x`, `%04x`, `%08x`). -/
def hexPad (w : Nat) (n : Nat) : String :=
  let s := Nat.toDigits 16 n
  String.mk (List.replicate (w - s.length) '0' ++ s)

/-- The body of `strconv.QuoteRuneToASCII` (Go ≤1.6): quote and
backslash escapes, printable ASCII verbatim, control characters as
`\xhh`, invalid runes as `�`, other runes as `\uhhhh`/`\Uhhhhhhhh`. -/
def quoteEsc (r : Rune) : String :=
  if r = 39 ∨ r = 92 then "\\" ++ String.mk [Char.ofNat r]
  else if isPrintASCII r then String.mk [Char.ofNat r]
  else if r = 7 then "\\a"
  else if r = 8 then "\\b"
  else if r = 12 then "\\f"
  else if r = 10 then "\\n"
  else if r = 13 then "\\r"
  else if r = 9 then "\\t"
  else if r = 11 then "\\v"
  else if r < 32 then "\\x" ++ hexPad 2 r
  else if (55296 ≤ r ∧ r ≤ 57343) ∨ 1114111 < r then "\\ufffd"
  else if r < 65536 then "\\u" ++ hexPad 4 r
  else "\\U" ++ hexPad 8 r

/-- `strconv.QuoteRuneToASCII`. -/
def quoteRuneToASCII (r : Rune) : String := "'" ++ quoteEsc r ++ "'"

/-- `quoteRunes` (`runes.go:161-170`). -/
def quoteRunes (rs : List Rune) : String :=
  String.intercalate ", " (rs.map quoteRuneToASCII)

/-- FNV-32a (`hash/fnv`) over a byte sequence. -/
def fnv32a (bytes : List Nat) : Nat :=
  bytes.foldl (fun h b => ((h ^^^ b) * 16777619) % 4294967296) 2166136261

/-- The backwards-only `cases`/`backToOrig` construction
(part_005:591-600). -/
def buildCasesRev (origCases : List (GoStr × String)) :
    List (GoStr × String) × List (GoStr × List GoStr) :=
  origCases.foldl (fun acc p =>
    let newKey := reverseString p.1
    (alSet acc.1 newKey p.2,
     alSet acc.2 newKey (alGetD acc.2 newKey [] ++ [p.1]))) ([], [])

/-- The partial-match bucket merge (part_005:618-624): each length bucket
absorbs the next-smaller bucket, cascading from the smallest up
(`lengths` is sorted descending). -/
def mergePartial (m : List (Nat × List GoStr)) (lengths : List Nat) :
    List (Nat × List GoStr) :=
  ((lengths.zip lengths.tail).reverse).foldl
    (fun m2 p => alSet m2 p.1 (alGetD m2 p.1 [] ++ alGetD m2 p.2 [])) m

/-- The `inputAtOffset` closure (part_005:627-641). -/
def inputAtOffset (backwards : Bool) (ignore ignoreExcept : List Rune) (off : Nat) : String :=
  if backwards then
    if ignore = [] ∧ ignoreExcept = [] then
      "input[len(input)-" ++ toString (off + 1) ++ "]"
    else
      "input[len(input)-" ++ toString (off + 1) ++ "-ignored]"
  else
    if ignore = [] ∧ ignoreExcept = [] then
      "input[" ++ toString off ++ "]"
    else
      "input[" ++ toString off ++ "+ignored]"

/-- The per-position emission loop of `Generate` (part_005:675-757),
walking the machine chain as collapsed-state switches are emitted.
Returns the output and the machine the loop ends on. -/
def emitPositions (equiv : RuneEquivs) (partM backwards : Bool)
    (stop ignore ignoreExcept : List Rune) (cases : List (GoStr × String)) (none : String)
    (hashVal l : Nat) : List Nat → StateMachine → String → String × StateMachine
  | [], chain, out => (out, chain)
  | realOffset :: restPos, chain, out =>
    let adv : String × StateMachine :=
      match chain with
      | .chain _ tail =>
        if tail.head.offset = realOffset then
          ("\t\tswitch state \x7b\n" ++
           (tail.head.collapsed.foldl (fun s p =>
             s ++ "\t\tcase " ++ p.1 ++ ":\n\t\t\tstate = 0x" ++ toHex p.2 ++ "\n") "") ++
           "\t\t\x7d\n", tail)
        else ("", chain)
      | .last _ => ("", chain)
    let m := adv.2.head
    let offset := realOffset - m.offset
    let label := "fastmatch_" ++ toHex hashVal ++ "_l" ++ toString l ++ "_o" ++
      toString realOffset
    let writeIgnore := "\t\t\tif len(input) <= ignored+" ++ toString l ++ " \x7b\n" ++
      "\t\t\t\treturn " ++ none ++ "\n\t\t\t\x7d\n\t\t\tignored++\n\t\t\tgoto " ++
      label ++ "\n"
    let igCase := if ignore ≠ [] then
      "\t\tcase " ++ quoteRunes ignore ++ ":\n" ++ writeIgnore else ""
    let posCases := (m.possible.getD offset []).foldl (fun s r =>
      let nm := alGetD (m.noMore.getD offset []) r []
      let chg := alGetD (m.changes.getD offset []) r 0
      s ++ "\t\tcase " ++ quoteRunes (lookupR equiv r) ++ ":\n" ++
      (if 0 < nm.length then
        "\t\t\tswitch state \x7b\n" ++
        (nm.foldl (fun s2 key =>
          s2 ++ "\t\t\tcase " ++ SM.finalString m key ++ ":\n\t\t\t\treturn " ++
          alGetD cases key "" ++ "\n") "") ++ "\t\t\t\x7d\n"
       else "") ++
      (if chg ≠ 0 then "\t\t\tstate += 0x" ++ toHex chg ++ "\n" else "")) ""
    let tailCase :=
      if ignoreExcept ≠ [] then
        let notInInput := expandR equiv ignoreExcept [m.possible.getD offset [], stop]
        (if notInInput ≠ [] then
          "\t\tcase " ++ quoteRunes notInInput ++ ":\n\t\t\treturn " ++ none ++ "\n"
         else "") ++ "\t\tdefault:\n" ++ writeIgnore
      else if ¬ partM ∨ realOffset ≠ l - 1 then
        "\t\tdefault:\n\t\t\treturn " ++ none ++ "\n"
      else ""
    let posOut := (if ignore ≠ [] ∨ ignoreExcept ≠ [] then "\t" ++ label ++ ":\n" else "") ++
      "\t\tswitch " ++ inputAtOffset backwards ignore ignoreExcept realOffset ++ " \x7b\n" ++
      igCase ++ posCases ++ tailCase ++ "\t\t\x7d\n"
    emitPositions equiv partM backwards stop ignore ignoreExcept cases none hashVal l
      restPos adv.2 (out ++ adv.1 ++ posOut)

/-- The post-position emission for one length bucket (part_005:759-832):
the partial-match early return, or the stop/ignore tail consumer and the
final-state dispatch. -/
def emitTail (equiv : RuneEquivs) (partM backwards : Bool)
    (stop ignore ignoreExcept : List Rune) (cases : List (GoStr × String)) (none : String)
    (hashVal l : Nat) (isLast : Bool) (mEnd : SM) : String :=
  (if mEnd.next = 1 then "\t\t_ = state\n" else "") ++
  (if partM then
    (if ¬ isLast then "\t\treturn " ++ none ++ "\n" else "") ++ "\t\x7d\n"
   else
    let labelF := "fastmatch_" ++ toHex hashVal ++ "_l" ++ toString l ++ "_final"
    let pre :=
      if ignore ≠ [] ∨ ignoreExcept ≠ [] then
        "\t" ++ labelF ++ ":\n\t\tif len(input) > " ++ toString l ++ "+ignored \x7b\n"
      else if stop ≠ [] then
        "\t\tif len(input) > " ++ toString l ++ " \x7b\n"
      else ""
    let cheq :=
      if ignore ≠ [] ∨ ignoreExcept ≠ [] ∨ stop ≠ [] then
        "\t\t\tswitch " ++ inputAtOffset backwards ignore ignoreExcept l ++ " \x7b\n" ++
        (if stop ≠ [] then "\t\t\tcase " ++ quoteRunes stop ++ ":\n" else "") ++
        (if ignore ≠ [] ∨ ignoreExcept ≠ [] then
          (if ignore ≠ [] then "\t\t\tcase " ++ quoteRunes ignore ++ ":\n"
           else
            "\t\t\tcase " ++ quoteRunes (expandR equiv ignoreExcept [stop]) ++
            ":\n\t\t\t\treturn " ++ none ++ "\n\t\t\tdefault:\n") ++
          "\t\t\t\tignored++\n\t\t\t\tgoto " ++ labelF ++ "\n"
         else "") ++
        (if ignoreExcept = [] then "\t\t\tdefault:\n\t\t\t\treturn " ++ none ++ "\n"
         else "") ++
        "\t\t\t\x7d\n\t\t\x7d\n"
      else ""
    let fin :=
      if mEnd.final.length = 1 ∧ mEnd.next = 1 then
        mEnd.final.foldl (fun s p =>
          s ++ "\t\treturn " ++ alGetD cases p.1 "" ++ "\n") ""
      else
        "\t\tswitch state \x7b\n" ++
        (mEnd.final.foldl (fun s p =>
          s ++ "\t\tcase " ++ SM.finalString mEnd p.1 ++ ":\n\t\t\treturn " ++
          alGetD cases p.1 "" ++ "\n") "") ++ "\t\t\x7d\n"
    pre ++ cheq ++ fin ++
      (if stop ≠ [] ∨ ignore ≠ [] ∨ ignoreExcept ≠ [] then "\t\x7d\n" else ""))

/-- The length-bucket loop of `Generate` (part_005:644-832): build, index
and prune each bucket's machine, then emit its dispatch code.  Returns
the output so far and the `wroteSwitch` flag. -/
def emitLengths (equiv : RuneEquivs) (partM backwards : Bool)
    (stop ignore ignoreExcept : List Rune) (cases origCases : List (GoStr × String))
    (backToOrig : List (GoStr × List GoStr)) (none : String) (hashVal : Nat)
    (keysByLen : List (Nat × List GoStr)) :
    List Nat → Bool → String → Except GenError (String × Bool)
  | [], wroteSwitch, out => .ok (out, wroteSwitch)
  | l :: rest, wroteSwitch, out =>
    match indexKeysGo equiv partM maxUint64 (newStateMachine (alGetD keysByLen l [])) with
    | .error p => .error (.panic p)
    | .ok sm0 =>
      let ca := checkAmbiguityGo sm0 cases origCases backToOrig
      if ca.2 ≠ [] then .error (.ambiguous ca.2)
      else
        let hdr : String × Bool :=
          if partM ∨ stop ≠ [] ∨ ignore ≠ [] ∨ ignoreExcept ≠ [] then
            ("\tif len(input) >= " ++ toString l ++ " \x7b\n", wroteSwitch)
          else
            ((if ¬ wroteSwitch then "\tswitch len(input) \x7b\n" else "") ++
             "\tcase " ++ toString l ++ ":\n", true)
        let decls := "\t\tvar state uint64\n" ++
          (if ignore ≠ [] ∨ ignoreExcept ≠ [] then "\t\tvar ignored int\n" else "")
        let pos := emitPositions equiv partM backwards stop ignore ignoreExcept cases none
          hashVal l (List.range l) ca.1 ""
        let tl := emitTail equiv partM backwards stop ignore ignoreExcept cases none
          hashVal l (rest = []) pos.2.head
        emitLengths equiv partM backwards stop ignore ignoreExcept cases origCases
          backToOrig none hashVal keysByLen rest hdr.2 (out ++ hdr.1 ++ decls ++ pos.1 ++ tl)

/-- `Generate` (part_005:489-840). -/
def GenerateGo (origCases : List (GoStr × String)) (none : String) (flags : List Flag) :
    Except GenError String :=
  let equiv := makeEquivalents flags
  match procFlags flags ⟨false, false, [], [], []⟩ with
  | .error e => .error e
  | .ok fa =>
    let stopIgnore := fa.stop.foldl (fun si r1 =>
      fa.ignore.foldl (fun si2 r2 => if isEquivR equiv r1 r2 then si2 ++ [r1] else si2) si) []
    if stopIgnore ≠ [] then .error (.badFlagsStopIgnore stopIgnore)
    else
      let stop := expandR equiv fa.stop []
      let ignore := expandR equiv fa.ignore []
      let ignoreExcept := expandR equiv fa.ignoreExcept []
      let cb : List (GoStr × String) × List (GoStr × List GoStr) :=
        if stop ≠ [] ∨ ignore ≠ [] ∨ ignoreExcept ≠ [] then
          buildCases stop ignore ignoreExcept fa.backwards origCases
        else if fa.backwards then buildCasesRev origCases
        else (origCases, [])
      let keyList := alKeys cb.1
      let hashVal := fnv32a (keyList.foldl (· ++ ·) [])
      let keysByLen0 := keyList.foldl (fun m k =>
        alSet m k.length (alGetD m k.length [] ++ [k])) []
      let lengths := (sortRunes (alKeys keysByLen0)).reverse
      let keysByLen := if fa.partM then mergePartial keysByLen0 lengths else keysByLen0
      match emitLengths equiv fa.partM fa.backwards stop ignore ignoreExcept cb.1 origCases
          cb.2 none hashVal keysByLen lengths false "" with
      | .error e => .error e
      | .ok r =>
        .ok (r.1 ++ (if r.2 then "\t\x7d\n" else "") ++ "\treturn " ++ none ++ "\n\x7d\n")


/-- **C10.**  `Generate` on an empty case map: whenever the flag checks
pass (so `GenerateGo` returns `ok`), the emitted body is exactly the
unconditional `return` of the `none` expression followed by the closing
brace — no length dispatch (`switch len(input)` or `if len(input)`) is
emitted, and the result is `nil` (`ok`) since the sink accepts all
writes. -/
theorem c10_empty_cases (none : String) (flags : List Flag) (out : String)
    (hok : GenerateGo [] none flags = Except.ok out) :
    out = "\treturn " ++ none ++ "\n\x7d\n" := by
  have hb1 : ∀ s i ie b, buildCases s i ie b [] = ([], []) := fun _ _ _ _ => rfl
  have hb2 : buildCasesRev [] = ([], []) := rfl
  unfold GenerateGo at hok
  cases hpf : procFlags flags ⟨false, false, [], [], []⟩ with
  | error e =>
    rw [hpf] at hok
    simp only at hok
    exact Except.noConfusion hok
  | ok fa =>
    rw [hpf] at hok
    simp only [hb1, hb2, ite_self] at hok
    split at hok
    · exact Except.noConfusion hok
    · exact (Except.ok.inj hok).symm

/-- Witness for C10 at a concrete instance: no flags and `none = "-1"`;
the whole output is the unconditional return plus the closing brace. -/
theorem c10_empty_cases_witness :
    ("\treturn -1\n\x7d\n" : String) = "\treturn " ++ "-1" ++ "\n\x7d\n" :=
  c10_empty_cases "-1" [] "\treturn -1\n\x7d\n" (by rfl)


/-! ## Concatenated acceptance of a machine chain (C9)

Modelled from the spec: the "concatenated acceptance" of a chain is the
assignment of inputs to keys computed by the emitted dispatch code
(part_005:676-757 and 820-831): each input rune is looked up in the
current position's `case` blocks and adds its `changes` weight; at a
chain boundary the collapsed-state `switch` (which has no `default`)
replaces a recognized predecessor state by its seed weight; at the end
the accumulated state is compared against each key's final-state sum.
The collapsed `case` labels are hex-sum expressions (`finalString`),
evaluated here as the Go compiler would. -/

/-- The value of one hex digit. -/
def hexDigit (c : Char) : Nat :=
  if '0' ≤ c ∧ c ≤ '9' then c.toNat - 48
  else if 'a' ≤ c ∧ c ≤ 'f' then c.toNat - 87
  else 0

/-- Scan of a `finalString` expression: `x` starts a number, `+` adds the
finished number to the running sum, hex digits extend it. -/
def hexSumChars : List Char → Nat → Nat → Nat
  | [], cur, sum => sum + cur
  | c :: rest, cur, sum =>
    if c = '+' then hexSumChars rest 0 (sum + cur)
    else if c = 'x' then hexSumChars rest 0 sum
    else if c = ' ' then hexSumChars rest cur sum
    else hexSumChars rest (cur * 16 + hexDigit c) sum

/-- The value of a `finalString` expression such as `0x1 + 0x3` (`"0"`
evaluates to 0), as the Go compiler evaluates the emitted `case` label. -/
def hexSumVal (s : String) : Nat :=
  hexSumChars s.data 0 0

/-- Modelled from the spec: one position's emitted `switch input[i]`
(part_005:703-755) — find the possible-rune case block whose expanded
equivalents contain the input rune and add its `changes` weight, or fall
to `default: return none`. -/
def stepPos (equiv : RuneEquivs) (m : SM) (off : Nat) (r : Rune) (state : Nat) : Option Nat :=
  match (m.possible.getD off []).find? (fun p => (lookupR equiv p).contains r) with
  | some p => some ((state + alGetD (m.changes.getD off []) p 0) % U64MOD)
  | none => none

/-- Modelled from the spec: the collapsed-state `switch` emitted at a
chain boundary (part_005:676-686); a state matching no `case` label is
left unchanged, as the switch has no `default`. -/
def collapseStep (collapsed : List (String × Nat)) (state : Nat) : Nat :=
  match collapsed.find? (fun p => hexSumVal p.1 = state) with
  | some p => p.2
  | none => state

/-- Modelled from the spec: run the emitted per-position dispatch over an
input, walking the chain at boundary offsets exactly as the emission loop
does. -/
def runPositions (equiv : RuneEquivs) : List Rune → StateMachine → Nat → Nat →
    Option (SM × Nat)
  | [], chain, _, state => some (chain.head, state)
  | r :: rest, chain, realOffset, state =>
    let adv : StateMachine :=
      match chain with
      | .chain _ tail => if tail.head.offset = realOffset then tail else chain
      | .last _ => chain
    let state1 :=
      match chain with
      | .chain _ tail =>
        if tail.head.offset = realOffset then collapseStep tail.head.collapsed state
        else state
      | .last _ => state
    let m := adv.head
    match stepPos equiv m (realOffset - m.offset) r state1 with
    | some st2 => runPositions equiv rest adv (realOffset + 1) st2
    | none => none

/-- Modelled from the spec: the key an input is assigned to — the final
state dispatch (part_005:820-831) compares the accumulated state with
each key's final-state sum on the machine the run ends in. -/
def acceptKey (equiv : RuneEquivs) (sm : StateMachine) (input : GoStr) : Option GoStr :=
  match runPositions equiv input sm 0 0 with
  | none => none
  | some (mEnd, state) =>
    match mEnd.final.find? (fun p => SM.finalState mEnd p.1 = state) with
    | some p => some p.1
    | none => none

/-- **C9 (violated in the code).**  Keys `{"abc", "def"}` with the weight
ceiling lowered to 9 chain after position 1 (boundary collapse
`0x1+0x3 → 0x1`, `0x2+0x6 → 0x2`).  On the mixed input `"dbc"` the
chained run reaches the boundary with state `0x2+0x3 = 5`, which matches
no collapse case and leaks through unchanged; adding `'c'`'s weight `0x3`
then lands exactly on `"def"`'s final state `0x2+0x6 = 8`, so the chained
dispatch assigns `"dbc"` to `"def"` — while the single machine built with
the default ceiling assigns it to no key.  The concatenated acceptance is
NOT identical to the unchained acceptance. -/
theorem c9_chain_acceptance_differs :
    (match indexKeysGo (makeEquivalents []) false maxUint64
        (newStateMachine [[97, 98, 99], [100, 101, 102]]),
      indexKeysGo (makeEquivalents []) false 9
        (newStateMachine [[97, 98, 99], [100, 101, 102]]) with
      | .ok big, .ok chained =>
        (acceptKey (makeEquivalents []) big [100, 98, 99],
         acceptKey (makeEquivalents []) chained [100, 98, 99])
      | _, _ => (some [], some [])) =
      ((none : Option GoStr), some [100, 101, 102]) ∧
    (none : Option GoStr) ≠ some [100, 101, 102] := by
  refine ⟨?_, by decide⟩
  have hbig : indexKeysGo (makeEquivalents []) false maxUint64
      (newStateMachine [[97, 98, 99], [100, 101, 102]]) =
      Except.ok (StateMachine.last
        (SM.mk 27 9 [([97, 98, 99], [1, 3, 9]), ([100, 101, 102], [2, 6, 18])]
          [[97, 100], [98, 101], [99, 102]]
          [[(97, 1), (100, 2)], [(98, 3), (101, 6)], [(99, 9), (102, 18)]]
          [[], [], []] 0 [])) := by
    rw [indexKeysGo, indexChain]
    rfl
  have hch : indexKeysGo (makeEquivalents []) false 9
      (newStateMachine [[97, 98, 99], [100, 101, 102]]) =
      Except.ok (StateMachine.chain
        (SM.mk 9 9 [([97, 98, 99], [1, 3]), ([100, 101, 102], [2, 6])]
          [[97, 100], [98, 101]] [[(97, 1), (100, 2)], [(98, 3), (101, 6)]] [[], []] 0 [])
        (StateMachine.last
          (SM.mk 9 3 [([97, 98, 99], [1, 3]), ([100, 101, 102], [2, 6])] [[99, 102]]
            [[(99, 3), (102, 6)]] [[]] 2 [("0x1 + 0x3", 1), ("0x2 + 0x6", 2)]))) := by
    rw [indexKeysGo, indexChain]
    rw [show positionsLoop (makeEquivalents []) false 9
        (alKeys (newStateMachine [[97, 98, 99], [100, 101, 102]]).final)
        (List.range' (newStateMachine [[97, 98, 99], [100, 101, 102]]).offset
          (longestKeyOf (alKeys (newStateMachine [[97, 98, 99], [100, 101, 102]]).final) -
            (newStateMachine [[97, 98, 99], [100, 101, 102]]).offset))
        (newStateMachine [[97, 98, 99], [100, 101, 102]]) true =
      PosResult.over
        (SM.mk 9 9 [([97, 98, 99], [1, 3, 9]), ([100, 101, 102], [2, 6])]
          [[97, 100], [98, 101], [99, 102]]
          [[(97, 1), (100, 2)], [(98, 3), (101, 6)], []] [[], []] 0 []) 2 from rfl]
    simp only []
    rw [show makeNext
        (SM.mk 9 9 [([97, 98, 99], [1, 3, 9]), ([100, 101, 102], [2, 6])]
          [[97, 100], [98, 101], [99, 102]]
          [[(97, 1), (100, 2)], [(98, 3), (101, 6)], []] [[], []] 0 []) 2 =
      Except.ok
        (SM.mk 9 9 [([97, 98, 99], [1, 3]), ([100, 101, 102], [2, 6])]
          [[97, 100], [98, 101]] [[(97, 1), (100, 2)], [(98, 3), (101, 6)]] [[], []] 0 [],
         SM.mk 3 3 [([97, 98, 99], [1]), ([100, 101, 102], [2])] [] [] [] 2
          [("0x1 + 0x3", 1), ("0x2 + 0x6", 2)]) from rfl]
    simp only []
    rw [show longestKeyOf (alKeys (newStateMachine [[97, 98, 99], [100, 101, 102]]).final) =
      3 from rfl]
    rw [indexChain]
    rfl
  rw [hbig, hch]
  decide


/-! ## Late-machine final lengths through chaining (C3) -/

/-- The machine a chain ends in — the one whose position loop completed
without overflow. -/
def StateMachine.lastM : StateMachine → SM
  | .last m => m
  | .chain _ t => t.lastM

theorem alKeys_alSet_mem {K V : Type} [DecidableEq K] (l : List (K × V)) (k : K) (v : V)
    (h : k ∈ alKeys l) : alKeys (alSet l k v) = alKeys l := by
  induction l with
  | nil => exact absurd h (by simp [alKeys])
  | cons p rest ih =>
    obtain ⟨k', v'⟩ := p
    by_cases hk : k' = k
    · subst hk
      simp [alSet, alKeys]
    · simp only [alSet, if_neg hk, alKeys, List.map_cons] at *
      rw [ih]
      rcases List.mem_cons.mp h with h1 | h1
      · exact absurd h1.symm hk
      · exact h1

theorem alGet?_mem {K V : Type} [DecidableEq K] (l : List (K × V)) (k : K) (v : V)
    (h : alGet? l k = some v) : (k, v) ∈ l := by
  induction l with
  | nil => simp [alGet?] at h
  | cons p rest ih =>
    obtain ⟨k', v'⟩ := p
    rw [alGet?] at h
    by_cases hk : k' = k
    · rw [if_pos hk] at h
      injection h with h
      subst hk
      subst h
      exact List.mem_cons_self _ _
    · rw [if_neg hk] at h
      exact List.mem_cons_of_mem _ (ih h)

/-- The key scan of `appendFinalForRune` only writes keys already present
in `final`, so the key list is unchanged. -/
theorem appendFinal_fold_alKeys (equiv : RuneEquivs) (partM : Bool) (realOffset : Nat)
    (r : Rune) (next : Nat) (ks : List GoStr) :
    ∀ (acc : List (GoStr × List Nat) × Bool), (∀ k ∈ ks, k ∈ alKeys acc.1) →
    alKeys (ks.foldl (fun acc key =>
      if partM ∧ realOffset + 1 ≥ key.length then acc
      else if isEquivR equiv (key.getD realOffset 0) r then
        (alSet acc.1 key (alGetD acc.1 key [] ++ [next]), true)
      else acc) acc).1 = alKeys acc.1 := by
  induction ks with
  | nil => intro acc _; rfl
  | cons key rest ih =>
    intro acc hks
    rw [List.foldl_cons]
    by_cases h1 : partM ∧ realOffset + 1 ≥ key.length
    · rw [if_pos h1]
      exact ih acc (fun k hk => hks k (List.mem_cons_of_mem key hk))
    · rw [if_neg h1]
      by_cases h2 : isEquivR equiv (key.getD realOffset 0) r = true
      · rw [if_pos h2]
        have hset : alKeys (alSet acc.1 key (alGetD acc.1 key [] ++ [next])) = alKeys acc.1 :=
          alKeys_alSet_mem acc.1 key _ (hks key (List.mem_cons_self key rest))
        rw [ih _ ?_]
        · exact hset
        · intro k hk
          rw [hset]
          exact hks k (List.mem_cons_of_mem key hk)
      · rw [if_neg h2]
        exact ih acc (fun k hk => hks k (List.mem_cons_of_mem key hk))

theorem appendFinalForRune_alKeys (equiv : RuneEquivs) (partM : Bool) (keys : List GoStr)
    (realOffset : Nat) (r : Rune) (next : Nat) (final : List (GoStr × List Nat))
    (hks : ∀ k ∈ keys, k ∈ alKeys final) :
    alKeys (appendFinalForRune equiv partM keys realOffset r next final).1 = alKeys final := by
  unfold appendFinalForRune
  exact appendFinal_fold_alKeys equiv partM realOffset r next keys (final, false) hks

/-- The rune loop never changes the key list of `final`. -/
theorem runeLoop_alKeys (equiv : RuneEquivs) (partM : Bool) (maxState : Nat)
    (keys : List GoStr) (realOffset : Nat) :
    ∀ (u : List Rune) (st : RLState), (∀ k ∈ keys, k ∈ alKeys st.final) →
    alKeys (runeLoop equiv partM maxState keys realOffset u st).1.final = alKeys st.final := by
  intro u
  induction u with
  | nil => intro st _; rfl
  | cons r rest ih =>
    intro st hks
    rw [runeLoop]
    have hfn : alKeys (appendFinalForRune equiv partM keys realOffset r st.next st.final).1 =
        alKeys st.final :=
      appendFinalForRune_alKeys equiv partM keys realOffset r st.next st.final hks
    by_cases h1 : (appendFinalForRune equiv partM keys realOffset r st.next st.final).2 = true
    · rw [if_pos h1]
      by_cases h2 : st.base > sub64 maxState st.next
      · rw [if_pos h2]
        exact hfn
      · rw [if_neg h2]
        rw [ih _ ?_]
        · exact hfn
        · intro k hk
          simp only
          rw [hfn]
          exact hks k hk
    · rw [if_neg h1]
      rw [ih _ ?_]
      · exact hfn
      · intro k hk
        simp only
        rw [hfn]
        exact hks k hk

theorem zeroFold_alKeys (ks : List GoStr) :
    ∀ (f : List (GoStr × List Nat)), (∀ k ∈ ks, k ∈ alKeys f) →
    alKeys (ks.foldl (fun f k => alSet f k (alGetD f k [] ++ [0])) f) = alKeys f := by
  induction ks with
  | nil => intro f _; rfl
  | cons key rest ih =>
    intro f hks
    rw [List.foldl_cons]
    have hset : alKeys (alSet f key (alGetD f key [] ++ [0])) = alKeys f :=
      alKeys_alSet_mem f key _ (hks key (List.mem_cons_self key rest))
    rw [ih _ ?_]
    · exact hset
    · intro k hk
      rw [hset]
      exact hks k (List.mem_cons_of_mem key hk)

/-- The position loop keeps the key list of `final` intact, whether it
finishes or overflows. -/
theorem positionsLoop_alKeys (equiv : RuneEquivs) (partM : Bool) (maxState : Nat)
    (keys : List GoStr) :
    ∀ (positions : List Nat) (m : SM) (ns : Bool), (∀ k ∈ keys, k ∈ alKeys m.final) →
    (∀ m', positionsLoop equiv partM maxState keys positions m ns = .done m' →
      alKeys m'.final = alKeys m.final) ∧
    (∀ m' ro, positionsLoop equiv partM maxState keys positions m ns = .over m' ro →
      alKeys m'.final = alKeys m.final) := by
  intro positions
  induction positions with
  | nil =>
    intro m ns _
    constructor
    · intro m' h
      rw [positionsLoop] at h
      cases h
      rfl
    · intro m' ro h
      simp [positionsLoop] at h
  | cons realOffset rest ih =>
    intro m ns hks
    rw [positionsLoop]
    by_cases hu : 1 < (uniqueAtOffset equiv keys realOffset).length
    · rw [if_pos hu]
      have hrl : alKeys (runeLoop equiv partM maxState keys realOffset
          (uniqueAtOffset equiv keys realOffset)
          ⟨m.final, [], m.next, if ns then m.next else m.base,
            if ns then false else ns⟩).1.final = alKeys m.final :=
        runeLoop_alKeys equiv partM maxState keys realOffset _ _ hks
      by_cases hovf : (runeLoop equiv partM maxState keys realOffset
          (uniqueAtOffset equiv keys realOffset)
          ⟨m.final, [], m.next, if ns then m.next else m.base,
            if ns then false else ns⟩).2 = true
      · rw [if_pos hovf]
        constructor
        · intro m' h
          cases h
        · intro m' ro h
          cases h
          exact hrl
      · rw [if_neg hovf]
        have hmem2 : ∀ k ∈ keys, k ∈ alKeys (runeLoop equiv partM maxState keys realOffset
            (uniqueAtOffset equiv keys realOffset)
            ⟨m.final, [], m.next, if ns then m.next else m.base,
              if ns then false else ns⟩).1.final := by
          intro k hk
          rw [hrl]
          exact hks k hk
        constructor
        · intro m' h
          rw [(ih _ _ hmem2).1 m' h]
          exact hrl
        · intro m' ro h
          rw [(ih _ _ hmem2).2 m' ro h]
          exact hrl
    · rw [if_neg hu]
      have hzf : alKeys (keys.foldl (fun f k => alSet f k (alGetD f k [] ++ [0])) m.final) =
          alKeys m.final :=
        zeroFold_alKeys keys m.final hks
      have hmem2 : ∀ k ∈ keys,
          k ∈ alKeys (keys.foldl (fun f k => alSet f k (alGetD f k [] ++ [0])) m.final) := by
        intro k hk
        rw [hzf]
        exact hks k hk
      constructor
      · intro m' h
        rw [(ih _ _ hmem2).1 m' h]
        exact hzf
      · intro m' ro h
        rw [(ih _ _ hmem2).2 m' ro h]
        exact hzf

/-- Under `partialMatch = false` the position loop only ever appends empty
`noMore` entries. -/
theorem positionsLoop_noMore (equiv : RuneEquivs) (maxState : Nat) (keys : List GoStr) :
    ∀ (positions : List Nat) (m : SM) (ns : Bool),
    (∀ e ∈ m.noMore, e = ([] : List (Rune × List GoStr))) →
    (∀ m', positionsLoop equiv false maxState keys positions m ns = .done m' →
      ∀ e ∈ m'.noMore, e = []) ∧
    (∀ m' ro, positionsLoop equiv false maxState keys positions m ns = .over m' ro →
      ∀ e ∈ m'.noMore, e = []) := by
  intro positions
  induction positions with
  | nil =>
    intro m ns hnm
    constructor
    · intro m' h
      rw [positionsLoop] at h
      cases h
      exact hnm
    · intro m' ro h
      simp [positionsLoop] at h
  | cons realOffset rest ih =>
    intro m ns hnm
    have hext : ∀ e ∈ m.noMore ++ [if (false : Bool) then
        buildNoMore equiv keys realOffset (uniqueAtOffset equiv keys realOffset) else []],
        e = ([] : List (Rune × List GoStr)) := by
      intro e he
      rcases List.mem_append.mp he with he | he
      · exact hnm e he
      · rw [List.mem_singleton.mp he]
        rfl
    rw [positionsLoop]
    by_cases hu : 1 < (uniqueAtOffset equiv keys realOffset).length
    · rw [if_pos hu]
      by_cases hovf : (runeLoop equiv false maxState keys realOffset
          (uniqueAtOffset equiv keys realOffset)
          ⟨m.final, [], m.next, if ns then m.next else m.base,
            if ns then false else ns⟩).2 = true
      · rw [if_pos hovf]
        constructor
        · intro m' h
          cases h
        · intro m' ro h
          cases h
          exact hnm
      · rw [if_neg hovf]
        exact ih _ _ hext
    · rw [if_neg hu]
      exact ih _ _ hext

theorem foldl_const_of_nil (step : List GoStr → (Rune × List GoStr) → List GoStr) :
    ∀ (l : List (List (Rune × List GoStr))) (acc : List GoStr), (∀ e ∈ l, e = []) →
    l.foldl (fun acc2 posMap => posMap.foldl step acc2) acc = acc := by
  intro l
  induction l with
  | nil => intro acc _; rfl
  | cons e rest ih =>
    intro acc h
    rw [List.foldl_cons, h e (List.mem_cons_self e rest), List.foldl_nil]
    exact ih acc (fun e2 he2 => h e2 (List.mem_cons_of_mem e he2))

/-- With only empty `noMore` entries no key is finished. -/
theorem finishedOf_nil (l : List (List (Rune × List GoStr))) (h : ∀ e ∈ l, e = []) :
    finishedOf l = [] := by
  unfold finishedOf
  exact foldl_const_of_nil (fun acc2 p => p.2.foldl setAdd acc2) l [] h


/-- With no finished keys (non-partial matching), `makeNextStateMachine`
seeds the successor with the same key list, a singleton weight list per
key, no `noMore` state, and the overflow position as its offset. -/
theorem makeNext_seed (m : SM) (realOffset : Nat) (head succ : SM)
    (hnm : ∀ e ∈ m.noMore, e = ([] : List (Rune × List GoStr)))
    (h : makeNext m realOffset = .ok (head, succ)) :
    alKeys succ.final = alKeys m.final ∧ (∀ q ∈ succ.final, q.2.length = 1) ∧
    succ.noMore = [] ∧ succ.offset = realOffset ∧ 1 ≤ realOffset - m.offset := by
  have hfin : finishedOf (m.noMore.take (realOffset - m.offset)) = [] :=
    finishedOf_nil _ (fun e he => hnm e (List.mem_of_mem_take he))
  unfold makeNext at h
  by_cases hlt : realOffset - m.offset < 1
  · rw [if_pos hlt] at h
    cases h
  · rw [if_neg hlt] at h
    simp only at h
    have hfold : ∀ (entries : List (GoStr × List Nat))
        (acc : List (GoStr × List Nat) × Nat × List (String × Nat) × List (GoStr × List Nat)),
        alKeys ((entries.foldl (fun acc p =>
          if (finishedOf (m.noMore.take (realOffset - m.offset))).contains p.1 then
            (acc.1 ++ [p], acc.2.1, acc.2.2.1, acc.2.2.2)
          else
            if alGetD acc.2.2.1 (finalStringOf (if m.offset = 0 then
                p.2.take (realOffset - m.offset) else p.2.take (realOffset - m.offset + 1))) 0
                = 0 then
              (acc.1 ++ [(p.1, if m.offset = 0 then p.2.take (realOffset - m.offset)
                  else p.2.take (realOffset - m.offset + 1))], acc.2.1 + 1,
                alSet acc.2.2.1 (finalStringOf (if m.offset = 0 then
                  p.2.take (realOffset - m.offset)
                  else p.2.take (realOffset - m.offset + 1))) acc.2.1,
                acc.2.2.2 ++ [(p.1, [acc.2.1])])
            else
              (acc.1 ++ [(p.1, if m.offset = 0 then p.2.take (realOffset - m.offset)
                  else p.2.take (realOffset - m.offset + 1))], acc.2.1, acc.2.2.1,
                acc.2.2.2 ++ [(p.1, [alGetD acc.2.2.1 (finalStringOf (if m.offset = 0 then
                  p.2.take (realOffset - m.offset)
                  else p.2.take (realOffset - m.offset + 1))) 0])]))
          acc).2.2.2) = alKeys acc.2.2.2 ++ alKeys entries ∧
        ∀ q ∈ (entries.foldl (fun acc p =>
          if (finishedOf (m.noMore.take (realOffset - m.offset))).contains p.1 then
            (acc.1 ++ [p], acc.2.1, acc.2.2.1, acc.2.2.2)
          else
            if alGetD acc.2.2.1 (finalStringOf (if m.offset = 0 then
                p.2.take (realOffset - m.offset) else p.2.take (realOffset - m.offset + 1))) 0
                = 0 then
              (acc.1 ++ [(p.1, if m.offset = 0 then p.2.take (realOffset - m.offset)
                  else p.2.take (realOffset - m.offset + 1))], acc.2.1 + 1,
                alSet acc.2.2.1 (finalStringOf (if m.offset = 0 then
                  p.2.take (realOffset - m.offset)
                  else p.2.take (realOffset - m.offset + 1))) acc.2.1,
                acc.2.2.2 ++ [(p.1, [acc.2.1])])
            else
              (acc.1 ++ [(p.1, if m.offset = 0 then p.2.take (realOffset - m.offset)
                  else p.2.take (realOffset - m.offset + 1))], acc.2.1, acc.2.2.1,
                acc.2.2.2 ++ [(p.1, [alGetD acc.2.2.1 (finalStringOf (if m.offset = 0 then
                  p.2.take (realOffset - m.offset)
                  else p.2.take (realOffset - m.offset + 1))) 0])]))
          acc).2.2.2, q ∈ acc.2.2.2 ∨ q.2.length = 1 := by
      intro entries
      induction entries with
      | nil =>
        intro acc
        exact ⟨by simp [alKeys], fun q hq => Or.inl hq⟩
      | cons q rest ih =>
        intro acc
        rw [List.foldl_cons]
        rw [if_neg (by rw [hfin]; simp)]
        by_cases h2 : alGetD acc.2.2.1 (finalStringOf (if m.offset = 0 then
            q.2.take (realOffset - m.offset) else q.2.take (realOffset - m.offset + 1))) 0 = 0
        · rw [if_pos h2]
          obtain ⟨ihk, ihm⟩ := ih (acc.1 ++ [(q.1, if m.offset = 0 then
              q.2.take (realOffset - m.offset) else q.2.take (realOffset - m.offset + 1))],
            acc.2.1 + 1,
            alSet acc.2.2.1 (finalStringOf (if m.offset = 0 then
              q.2.take (realOffset - m.offset) else q.2.take (realOffset - m.offset + 1))) acc.2.1,
            acc.2.2.2 ++ [(q.1, [acc.2.1])])
          constructor
          · rw [ihk]
            simp [alKeys]
          · intro q2 hq2
            rcases ihm q2 hq2 with hh | hh
            · simp only at hh
              rcases List.mem_append.mp hh with hh | hh
              · exact Or.inl hh
              · rw [List.mem_singleton.mp hh]
                exact Or.inr rfl
            · exact Or.inr hh
        · rw [if_neg h2]
          obtain ⟨ihk, ihm⟩ := ih (acc.1 ++ [(q.1, if m.offset = 0 then
              q.2.take (realOffset - m.offset) else q.2.take (realOffset - m.offset + 1))],
            acc.2.1, acc.2.2.1,
            acc.2.2.2 ++ [(q.1, [alGetD acc.2.2.1 (finalStringOf (if m.offset = 0 then
              q.2.take (realOffset - m.offset) else q.2.take (realOffset - m.offset + 1))) 0])])
          constructor
          · rw [ihk]
            simp [alKeys]
          · intro q2 hq2
            rcases ihm q2 hq2 with hh | hh
            · simp only at hh
              rcases List.mem_append.mp hh with hh | hh
              · exact Or.inl hh
              · rw [List.mem_singleton.mp hh]
                exact Or.inr rfl
            · exact Or.inr hh
    cases h
    obtain ⟨hk, hm⟩ := hfold m.final ([], 1, [], [])
    refine ⟨?_, ?_, rfl, rfl, by omega⟩
    · simp only
      rw [hk]
      rfl
    · intro q hq
      simp only at hq
      rcases hm q hq with hh | hh
      · simp at hh
      · exact hh


/-- A machine whose position loop completes keeps its key list, its
offset, and ends with one weight per position from its offset up to the
uniform key length, on top of whatever the entries held at entry. -/
theorem chainDone_len (flags : List Flag) (maxState : Nat) (L : Nat) (m m' : SM)
    (hL : ∀ k ∈ alKeys m.final, k.length = L)
    (hnd : (alKeys m.final).Nodup)
    (hentry : ∀ k ∈ alKeys m.final,
      (alGetD m.final k []).length = (if m.offset = 0 then 0 else 1))
    (hpos : positionsLoop (makeEquivalents flags) false maxState (alKeys m.final)
      (List.range' m.offset (longestKeyOf (alKeys m.final) - m.offset)) m true = .done m') :
    alKeys m'.final = alKeys m.final ∧ m'.offset = m.offset ∧
    ∀ k ∈ alKeys m.final, (alGetD m'.final k []).length =
      L - m'.offset + (if m'.offset = 0 then 0 else 1) := by
  have hkeys : alKeys m'.final = alKeys m.final :=
    (positionsLoop_alKeys (makeEquivalents flags) false maxState (alKeys m.final) _ m true
      (fun k hk => hk)).1 m' hpos
  have hoff : m'.offset = m.offset :=
    ((positionsLoop_inv (makeEquivalents flags) false maxState (alKeys m.final) _ m true).2
      m' hpos).1
  refine ⟨hkeys, hoff, ?_⟩
  intro k hk
  have hlongest : longestKeyOf (alKeys m.final) = L :=
    longestKeyOf_uniform (alKeys m.final) L k hk hL
  have hlen := positionsLoop_len flags maxState (alKeys m.final) L hL hnd
    (List.range' m.offset (longestKeyOf (alKeys m.final) - m.offset)) m true m'
    (fun p hp => by
      rw [hlongest] at hp
      have := List.mem_range'_1.mp hp
      omega)
    hpos k hk
  rw [hlen, hentry k hk, hoff, List.length_range', hlongest, Nat.add_comm]

/-- Through the whole chain recursion of `indexKeys` (non-partial
matching, uniform key length `L`), the machine the chain ends in keeps
the full key set and satisfies the final-length law: `L` minus its
offset, plus one if it started from a collapsed seed. -/
theorem indexChain_len (flags : List Flag) (maxState : Nat) (L : Nat) :
    ∀ (fuel : Nat) (m : SM) (sm : StateMachine),
    (∀ k ∈ alKeys m.final, k.length = L) →
    (alKeys m.final).Nodup →
    (∀ k ∈ alKeys m.final,
      (alGetD m.final k []).length = (if m.offset = 0 then 0 else 1)) →
    (∀ e ∈ m.noMore, e = ([] : List (Rune × List GoStr))) →
    indexChain (makeEquivalents flags) false maxState fuel m = .ok sm →
    alKeys sm.lastM.final = alKeys m.final ∧
    ∀ k ∈ alKeys m.final, (alGetD sm.lastM.final k []).length =
      L - sm.lastM.offset + (if sm.lastM.offset = 0 then 0 else 1) := by
  intro fuel
  induction fuel with
  | zero =>
    intro m sm hL hnd hentry hnm hok
    rw [indexChain] at hok
    cases hpos : positionsLoop (makeEquivalents flags) false maxState (alKeys m.final)
        (List.range' m.offset (longestKeyOf (alKeys m.final) - m.offset)) m true with
    | done m' =>
      rw [hpos] at hok
      simp only at hok
      have hm : StateMachine.last m' = sm := by
        injection hok
      obtain ⟨hkeys, hoff, hlaw⟩ := chainDone_len flags maxState L m m' hL hnd hentry hpos
      rw [← hm]
      exact ⟨hkeys, hlaw⟩
    | over m' ro =>
      rw [hpos] at hok
      simp only at hok
      cases hmn : makeNext m' ro with
      | error p =>
        simp only [hmn] at hok
        exact Except.noConfusion hok
      | ok pair =>
        obtain ⟨head, succ⟩ := pair
        simp only [hmn] at hok
        exact Except.noConfusion hok
  | succ fuel' ih =>
    intro m sm hL hnd hentry hnm hok
    rw [indexChain] at hok
    cases hpos : positionsLoop (makeEquivalents flags) false maxState (alKeys m.final)
        (List.range' m.offset (longestKeyOf (alKeys m.final) - m.offset)) m true with
    | done m' =>
      rw [hpos] at hok
      simp only at hok
      have hm : StateMachine.last m' = sm := by
        injection hok
      obtain ⟨hkeys, hoff, hlaw⟩ := chainDone_len flags maxState L m m' hL hnd hentry hpos
      rw [← hm]
      exact ⟨hkeys, hlaw⟩
    | over m' ro =>
      rw [hpos] at hok
      simp only at hok
      cases hmn : makeNext m' ro with
      | error p =>
        simp only [hmn] at hok
        exact Except.noConfusion hok
      | ok pair =>
        obtain ⟨head, succ⟩ := pair
        simp only [hmn] at hok
        cases hrec : indexChain (makeEquivalents flags) false maxState fuel' succ with
        | error p =>
          simp only [hrec] at hok
          exact Except.noConfusion hok
        | ok tail =>
          simp only [hrec] at hok
          have hm : StateMachine.chain head tail = sm := by
            injection hok
          have hkeys1 : alKeys m'.final = alKeys m.final :=
            (positionsLoop_alKeys (makeEquivalents flags) false maxState (alKeys m.final) _
              m true (fun k hk => hk)).2 m' ro hpos
          have hnm1 : ∀ e ∈ m'.noMore, e = ([] : List (Rune × List GoStr)) :=
            (positionsLoop_noMore (makeEquivalents flags) maxState (alKeys m.final) _
              m true hnm).2 m' ro hpos
          obtain ⟨hks, hsingle, hnm2, hoff2, hge⟩ := makeNext_seed m' ro head succ hnm1 hmn
          have hkeys2 : alKeys succ.final = alKeys m.final := hks.trans hkeys1
          have hL2 : ∀ k ∈ alKeys succ.final, k.length = L := by
            rw [hkeys2]
            exact hL
          have hnd2 : (alKeys succ.final).Nodup := by
            rw [hkeys2]
            exact hnd
          have hro : ¬ succ.offset = 0 := by omega
          have hentry2 : ∀ k ∈ alKeys succ.final,
              (alGetD succ.final k []).length = (if succ.offset = 0 then 0 else 1) := by
            intro k hk
            rw [if_neg hro]
            have hmem : alMem succ.final k = true := (alMem_iff_keys _ _).mpr hk
            unfold alMem at hmem
            cases hget : alGet? succ.final k with
            | none =>
              rw [hget] at hmem
              simp at hmem
            | some v =>
              have hv := hsingle (k, v) (alGet?_mem _ _ _ hget)
              unfold alGetD
              rw [hget]
              exact hv
          have hnm3 : ∀ e ∈ succ.noMore, e = ([] : List (Rune × List GoStr)) := by
            rw [hnm2]
            intro e he
            simp at he
          obtain ⟨hkeysT, hlawT⟩ := ih succ tail hL2 hnd2 hentry2 hnm3 hrec
          rw [← hm]
          constructor
          · show alKeys tail.lastM.final = alKeys m.final
            rw [hkeysT, hkeys2]
          · intro k hk
            have hk2 : k ∈ alKeys succ.final := by
              rw [hkeys2]
              exact hk
            show (alGetD tail.lastM.final k []).length =
              L - tail.lastM.offset + (if tail.lastM.offset = 0 then 0 else 1)
            exact hlawT k hk2

/-- **C3 (amended).**  With partial matching off and a uniform-length
bucket (which is how `Generate` builds its non-partial buckets), after
`indexKeys` completes, the machine that finished the indexing — the last
machine of the chain, which under non-partial matching retains every
key — holds for each key `k` a weight list `final[k]` of length
`k.length - offset`, plus one exactly when the machine received a
collapsed seed from a predecessor (its `offset` is nonzero); an unchained
run is the `offset = 0` case with no extra entry.  Predecessor machines
of a chain do NOT satisfy the count — `makeNextStateMachine` truncates
their weight lists at the chain boundary — and under partial matching the
count can be smaller (see the counterexample). -/
theorem c3_final_length (flags : List Flag) (maxState : Nat) (keys : List GoStr) (L : Nat)
    (sm : StateMachine)
    (hL : ∀ k ∈ keys, k.length = L)
    (hnd : keys.Nodup)
    (hok : indexKeysGo (makeEquivalents flags) false maxState (newStateMachine keys) =
      Except.ok sm) :
    ∀ k ∈ keys, (alGetD sm.lastM.final k []).length =
      k.length - sm.lastM.offset + (if sm.lastM.offset = 0 then 0 else 1) := by
  have halKeys : alKeys (newStateMachine keys).final = keys := newStateMachine_keys keys hnd
  have h1 : ∀ k ∈ alKeys (newStateMachine keys).final, k.length = L := by
    rw [halKeys]
    exact hL
  have h2 : (alKeys (newStateMachine keys).final).Nodup := by
    rw [halKeys]
    exact hnd
  have h3 : ∀ k ∈ alKeys (newStateMachine keys).final,
      (alGetD (newStateMachine keys).final k []).length =
        (if (newStateMachine keys).offset = 0 then 0 else 1) := by
    intro k _
    rw [newStateMachine_final_getD keys k]
    rfl
  have h4 : ∀ e ∈ (newStateMachine keys).noMore, e = ([] : List (Rune × List GoStr)) := by
    intro e he
    simp [newStateMachine] at he
  unfold indexKeysGo at hok
  obtain ⟨-, hlaw⟩ := indexChain_len flags maxState L _ _ _ h1 h2 h3 h4 hok
  intro k hk
  have hlk := hlaw k (by rw [halKeys]; exact hk)
  rw [hL k hk]
  exact hlk

/-- Witness for C3 at a concrete chained instance: keys `{"abc", "def"}`
with the ceiling lowered to 9 chain at position 2; the last machine has
offset 2 and a collapsed seed, and `final["abc"]` has `3 - 2 + 1 = 2`
weights. -/
theorem c3_final_length_witness :
    (alGetD (StateMachine.chain
      (SM.mk 9 9 [([97, 98, 99], [1, 3]), ([100, 101, 102], [2, 6])]
        [[97, 100], [98, 101]] [[(97, 1), (100, 2)], [(98, 3), (101, 6)]] [[], []] 0 [])
      (StateMachine.last
        (SM.mk 9 3 [([97, 98, 99], [1, 3]), ([100, 101, 102], [2, 6])] [[99, 102]]
          [[(99, 3), (102, 6)]] [[]] 2 [("0x1 + 0x3", 1), ("0x2 + 0x6", 2)]))).lastM.final
      [97, 98, 99] []).length =
    List.length [97, 98, 99] - (StateMachine.chain
      (SM.mk 9 9 [([97, 98, 99], [1, 3]), ([100, 101, 102], [2, 6])]
        [[97, 100], [98, 101]] [[(97, 1), (100, 2)], [(98, 3), (101, 6)]] [[], []] 0 [])
      (StateMachine.last
        (SM.mk 9 3 [([97, 98, 99], [1, 3]), ([100, 101, 102], [2, 6])] [[99, 102]]
          [[(99, 3), (102, 6)]] [[]] 2 [("0x1 + 0x3", 1), ("0x2 + 0x6", 2)]))).lastM.offset +
    (if (StateMachine.chain
      (SM.mk 9 9 [([97, 98, 99], [1, 3]), ([100, 101, 102], [2, 6])]
        [[97, 100], [98, 101]] [[(97, 1), (100, 2)], [(98, 3), (101, 6)]] [[], []] 0 [])
      (StateMachine.last
        (SM.mk 9 3 [([97, 98, 99], [1, 3]), ([100, 101, 102], [2, 6])] [[99, 102]]
          [[(99, 3), (102, 6)]] [[]] 2 [("0x1 + 0x3", 1), ("0x2 + 0x6", 2)]))).lastM.offset = 0
      then 0 else 1) :=
  c3_final_length [] 9 [[97, 98, 99], [100, 101, 102]] 3
    (StateMachine.chain
      (SM.mk 9 9 [([97, 98, 99], [1, 3]), ([100, 101, 102], [2, 6])]
        [[97, 100], [98, 101]] [[(97, 1), (100, 2)], [(98, 3), (101, 6)]] [[], []] 0 [])
      (StateMachine.last
        (SM.mk 9 3 [([97, 98, 99], [1, 3]), ([100, 101, 102], [2, 6])] [[99, 102]]
          [[(99, 3), (102, 6)]] [[]] 2 [("0x1 + 0x3", 1), ("0x2 + 0x6", 2)])))
    (by decide) (by decide)
    (by
      rw [indexKeysGo, indexChain]
      rw [show positionsLoop (makeEquivalents []) false 9
          (alKeys (newStateMachine [[97, 98, 99], [100, 101, 102]]).final)
          (List.range' (newStateMachine [[97, 98, 99], [100, 101, 102]]).offset
            (longestKeyOf (alKeys (newStateMachine [[97, 98, 99], [100, 101, 102]]).final) -
              (newStateMachine [[97, 98, 99], [100, 101, 102]]).offset))
          (newStateMachine [[97, 98, 99], [100, 101, 102]]) true =
        PosResult.over
          (SM.mk 9 9 [([97, 98, 99], [1, 3, 9]), ([100, 101, 102], [2, 6])]
            [[97, 100], [98, 101], [99, 102]]
            [[(97, 1), (100, 2)], [(98, 3), (101, 6)], []] [[], []] 0 []) 2 from rfl]
      simp only []
      rw [show makeNext
          (SM.mk 9 9 [([97, 98, 99], [1, 3, 9]), ([100, 101, 102], [2, 6])]
            [[97, 100], [98, 101], [99, 102]]
            [[(97, 1), (100, 2)], [(98, 3), (101, 6)], []] [[], []] 0 []) 2 =
        Except.ok
          (SM.mk 9 9 [([97, 98, 99], [1, 3]), ([100, 101, 102], [2, 6])]
            [[97, 100], [98, 101]] [[(97, 1), (100, 2)], [(98, 3), (101, 6)]] [[], []] 0 [],
           SM.mk 3 3 [([97, 98, 99], [1]), ([100, 101, 102], [2])] [] [] [] 2
            [("0x1 + 0x3", 1), ("0x2 + 0x6", 2)]) from rfl]
      simp only []
      rw [show longestKeyOf (alKeys (newStateMachine [[97, 98, 99], [100, 101, 102]]).final) =
        3 from rfl]
      rw [indexChain]
      rfl)
    [97, 98, 99] (by decide)

end Fastmatch
